import Mathlib

/-!
# Event store (LSM-style storage engine): shallow embedding and verified properties

Source: `eventstore/internal/store/{store,wal,memtable,sstable,manifest}.go`.

Conventions of the embedding.

* A Go `string` and a Go `[]byte` are both `Bytes`, a list of bytes (`Fin 256`); Go compares
  strings bytewise, which is `keyLt`.
* `int64` and `int` are `Int`; where the source can overflow or a parser checks the 64-bit range the
  bound is written out.
* A Go `map[string]Event` is a list of events with at most one entry per key (the map key is the
  event's `Key`, as in every store `m.data[e.Key] = e` of the source). Map iteration order is the
  list order; every function of the source that iterates a map sorts afterwards.
* The data directory is a `Disk` value. Functions that touch files take and return the `Disk`;
  a step that can fail asks a fault oracle `IOStep → Bool` whether it fails.
* A Go multi-value return `(Event, bool, error)` is a triple `Event × Bool × Option GoError`.
-/

namespace EventStore

/-! ## Bytes and events -/

abbrev Bytes := List (Fin 256)

/-- Bytes of an ASCII string literal. -/
def B (s : String) : Bytes := s.toList.map (fun c => Fin.ofNat c.toNat)

/-- Go `a < b` on strings: bytewise lexicographic order. -/
def keyLt : Bytes → Bytes → Bool
  | [], [] => false
  | [], _ :: _ => true
  | _ :: _, [] => false
  | a :: as, b :: bs =>
    if a.val < b.val then true else if b.val < a.val then false else keyLt as bs

/-- Type `Event` of store.go. -/
structure Event where
  Key : Bytes
  TS : Int
  Value : Bytes
deriving DecidableEq, Repr

/-- The Go zero value `Event{}`. -/
def Event.zero : Event := ⟨[], 0, []⟩

/-- Errors the store can return. -/
inductive GoError where
  | invalidEvent
  | dataDirRequired
  | ioFailure
  | notExist
  | eof
  | scanInt
  | base64Corrupt
  | tokenTooLong
deriving DecidableEq, Repr

/-- Range of a Go `int64`. -/
def isInt64 (n : Int) : Prop := -9223372036854775808 ≤ n ∧ n ≤ 9223372036854775807

instance (n : Int) : Decidable (isInt64 n) := by unfold isInt64; infer_instance

/-! ## memtable.go -/

/-- Go `m[k]` with the comma-ok form, on a map kept as a list keyed by `Event.Key`. -/
def mapLookup : List Event → Bytes → Option Event
  | [], _ => none
  | x :: xs, k => if x.Key = k then some x else mapLookup xs k

/-- Go `m[e.Key] = e`. -/
def mapStore : List Event → Event → List Event
  | [], e => [e]
  | x :: xs, e => if x.Key = e.Key then e :: xs else x :: mapStore xs e

/-- Type `memtable` of memtable.go. -/
structure memtable where
  maxItems : Int
  data : List Event
deriving DecidableEq, Repr

def newMemtable (max : Int) : memtable := { maxItems := max, data := [] }

/-- Method `upsert`: `if !ok || e.TS >= cur.TS { m.data[e.Key] = e }`. -/
def memtable.upsert (m : memtable) (e : Event) : memtable :=
  match mapLookup m.data e.Key with
  | none => { m with data := mapStore m.data e }
  | some cur => if e.TS ≥ cur.TS then { m with data := mapStore m.data e } else m

def memtable.get (m : memtable) (key : Bytes) : Event × Bool :=
  match mapLookup m.data key with
  | some e => (e, true)
  | none => (Event.zero, false)

def memtable.len (m : memtable) : Int := (m.data.length : Int)

def memtable.full (m : memtable) : Bool := decide (m.len ≥ m.maxItems)

def memtable.clear (m : memtable) : memtable := { m with data := [] }

/-- The `less` closure of `snapshotSortedByKey`, as "not after": `a` may stand before `b`. -/
def keyLe (a b : Event) : Prop := keyLt b.Key a.Key = false

instance : DecidableRel keyLe := fun a b => by unfold keyLe; infer_instance

/-- Method `snapshotSortedByKey`: the entries sorted by `Key` (keys of a map are distinct, so
`sort.Slice` has one possible result). -/
def memtable.snapshotSortedByKey (m : memtable) : List Event :=
  m.data.insertionSort keyLe

/-- The `less` closure of `sortByTS`: by `TS`, ties by `Key`. -/
def tsLess (a b : Event) : Bool :=
  if a.TS = b.TS then keyLt a.Key b.Key else decide (a.TS < b.TS)

/-- Not-after relation of `tsLess`: `a` may stand before `b`. -/
def tsLe (a b : Event) : Prop := tsLess b a = false

instance : DecidableRel tsLe := fun a b => by unfold tsLe; infer_instance

/-- Function `sortByTS`: `sort.SliceStable` by `tsLess` (insertion sort is stable). -/
def sortByTS (v : List Event) : List Event := v.insertionSort tsLe

/-- Method `rangeByTS`. -/
def memtable.rangeByTS (m : memtable) (lo hi : Int) : List Event :=
  sortByTS (m.data.filter (fun e => decide (e.TS ≥ lo) && decide (e.TS ≤ hi)))

/-! ## Library codecs used by sstable.go and manifest.go -/

/-- ASCII digit of `d % 10`. -/
def digitChar (d : Nat) : Fin 256 := Fin.ofNat (48 + d % 10)

/-- Decimal digits of `n`, most significant first, in front of `acc`. -/
def natDigitsAux : Nat → Nat → Bytes → Bytes
  | 0, _, acc => acc
  | fuel + 1, n, acc =>
    if n < 10 then digitChar n :: acc else natDigitsAux fuel (n / 10) (digitChar n :: acc)

/-- Decimal representation of a natural number (`strconv.FormatUint(n, 10)`). -/
def fmtNat (n : Nat) : Bytes := natDigitsAux (n + 1) n []

/-- Verb `%d` of `fmt.Sprintf` on an integer. -/
def fmtInt (n : Int) : Bytes :=
  if n < 0 then 45 :: fmtNat n.natAbs else fmtNat n.natAbs

/-- Verb `%06d` of `fmt.Sprintf`: zero padding to width 6, the sign counted in the width. -/
def fmtInt06 (n : Int) : Bytes :=
  if n < 0 then
    45 :: (List.replicate (5 - (fmtNat n.natAbs).length) 48 ++ fmtNat n.natAbs)
  else
    List.replicate (6 - (fmtNat n.natAbs).length) 48 ++ fmtNat n.natAbs

/-- Alphabet of `base64.StdEncoding`. -/
def b64char (n : Nat) : Fin 256 :=
  if n < 26 then Fin.ofNat (65 + n)
  else if n < 52 then Fin.ofNat (97 + (n - 26))
  else if n < 62 then Fin.ofNat (48 + (n - 52))
  else if n = 62 then 43
  else 47

/-- Inverse of the alphabet; `none` for a byte outside it (the padding `=` included). -/
def b64val (c : Fin 256) : Option Nat :=
  if 65 ≤ c.val ∧ c.val ≤ 90 then some (c.val - 65)
  else if 97 ≤ c.val ∧ c.val ≤ 122 then some (c.val - 97 + 26)
  else if 48 ≤ c.val ∧ c.val ≤ 57 then some (c.val - 48 + 52)
  else if c.val = 43 then some 62
  else if c.val = 47 then some 63
  else none

/-- Function `base64.StdEncoding.EncodeToString`. -/
def base64Encode : Bytes → Bytes
  | [] => []
  | [a] => [b64char (a.val / 4), b64char (a.val % 4 * 16), 61, 61]
  | [a, b] =>
    [b64char (a.val / 4), b64char (a.val % 4 * 16 + b.val / 16), b64char (b.val % 16 * 4), 61]
  | a :: b :: c :: rest =>
    b64char (a.val / 4) :: b64char (a.val % 4 * 16 + b.val / 16)
      :: b64char (b.val % 16 * 4 + c.val / 64) :: b64char (c.val % 64) :: base64Encode rest

/-- Decoding of the 4-character quanta of padded base64; as in Go's non-strict mode the unused low
bits of a padded quantum are not checked. -/
def base64Quanta : Bytes → Option Bytes
  | [] => some []
  | [a, b, c, d] =>
    match b64val a, b64val b with
    | some va, some vb =>
      if c = 61 ∧ d = 61 then some [Fin.ofNat (va * 4 + vb / 16)]
      else match b64val c with
        | none => none
        | some vc =>
          if d = 61 then some [Fin.ofNat (va * 4 + vb / 16), Fin.ofNat (vb % 16 * 16 + vc / 4)]
          else match b64val d with
            | none => none
            | some vd =>
              some [Fin.ofNat (va * 4 + vb / 16), Fin.ofNat (vb % 16 * 16 + vc / 4),
                Fin.ofNat (vc % 4 * 64 + vd)]
    | _, _ => none
  | a :: b :: c :: d :: rest =>
    match b64val a, b64val b, b64val c, b64val d, base64Quanta rest with
    | some va, some vb, some vc, some vd, some r =>
      some (Fin.ofNat (va * 4 + vb / 16) :: Fin.ofNat (vb % 16 * 16 + vc / 4)
        :: Fin.ofNat (vc % 4 * 64 + vd) :: r)
    | _, _, _, _, _ => none
  | _ => none

/-- Function `base64.StdEncoding.DecodeString`: carriage returns and newlines are ignored. -/
def base64Decode (s : Bytes) : Option Bytes :=
  base64Quanta (s.filter (fun c => decide (c ≠ 13 ∧ c ≠ 10)))

/-- Function `strings.Split(line, "\t")`. -/
def splitTab : Bytes → List Bytes
  | [] => [[]]
  | c :: cs =>
    if c = 9 then [] :: splitTab cs
    else match splitTab cs with
      | p :: ps => (c :: p) :: ps
      | [] => [[c]]

/-- Function `strings.TrimRight(line, "\n")`. -/
def trimRightNL (line : Bytes) : Bytes :=
  (line.reverse.dropWhile (fun c => decide (c = 10))).reverse

/-- Method `ReadString` of `bufio.Reader` with delimiter newline: the bytes up to and including the
first newline, the unread rest, and whether the end of file came first (`err != nil`). -/
def readString : Bytes → Bytes × Bytes × Bool
  | [] => ([], [], true)
  | c :: cs =>
    if c = 10 then ([c], cs, false)
    else match readString cs with
      | (l, r, e) => (c :: l, r, e)

/-- Whether the byte `x` lies in `lo..hi`. -/
def byteIn (lo hi : Nat) (x : Fin 256) : Bool := decide (lo ≤ x.val ∧ x.val ≤ hi)

/-- Whether `b0` and the bytes after it start a valid two-byte UTF-8 encoding. -/
def utf8Two (b0 : Fin 256) : Bytes → Bool
  | b1 :: _ => byteIn 194 223 b0 && byteIn 128 191 b1
  | _ => false

/-- Whether `b0` and the bytes after it start a valid three-byte UTF-8 encoding (no overlong
form, no surrogate). -/
def utf8Three (b0 : Fin 256) : Bytes → Bool
  | b1 :: b2 :: _ =>
    ((decide (b0.val = 224) && byteIn 160 191 b1) || (decide (b0.val = 237) && byteIn 128 159 b1)
      || ((byteIn 225 236 b0 || byteIn 238 239 b0) && byteIn 128 191 b1)) && byteIn 128 191 b2
  | _ => false

/-- Whether `b0` and the bytes after it start a valid four-byte UTF-8 encoding (no overlong
form, at most U+10FFFF). -/
def utf8Four (b0 : Fin 256) : Bytes → Bool
  | b1 :: b2 :: b3 :: _ =>
    ((decide (b0.val = 240) && byteIn 144 191 b1) || (byteIn 241 243 b0 && byteIn 128 191 b1)
      || (decide (b0.val = 244) && byteIn 128 143 b1)) && byteIn 128 191 b2 && byteIn 128 191 b3
  | _ => false

/-- Width of the UTF-8 encoding at the head of `s` as `utf8.DecodeRune` accepts it, or 0 when the
head is not a valid encoding (the decoder then yields `RuneError` of width 1). -/
def utf8Width (s : Bytes) : Nat :=
  match s with
  | [] => 0
  | b0 :: r =>
    if b0.val < 128 then 1
    else if utf8Two b0 r then 2
    else if utf8Three b0 r then 3
    else if utf8Four b0 r then 4
    else 0

/-- Multi-byte encodings of the non-ASCII runes of the `space` table of package fmt. -/
def wideSpaces : List Bytes :=
  [[194, 133], [194, 160], [225, 154, 128], [226, 128, 128], [226, 128, 129], [226, 128, 130],
   [226, 128, 131], [226, 128, 132], [226, 128, 133], [226, 128, 134], [226, 128, 135],
   [226, 128, 136], [226, 128, 137], [226, 128, 138], [226, 128, 168], [226, 128, 169],
   [226, 128, 175], [226, 129, 159], [227, 128, 128]]

/-- Length of the first entry of `ps` that `s` starts with, or 0. -/
def leadLen (ps : List Bytes) (s : Bytes) : Nat :=
  match ps.find? (fun p => p.isPrefixOf s) with
  | some p => p.length
  | none => 0

/-- Method `SkipSpace` of the scan state of package fmt, as run by `Sscanf`: white space is
skipped, a newline is an error. -/
def skipSpace : Nat → Bytes → Option Bytes
  | 0, s => some s
  | _, [] => some []
  | fuel + 1, c :: cs =>
    if c = 10 then none
    else if c = 32 ∨ (9 ≤ c.val ∧ c.val ≤ 13) then skipSpace fuel cs
    else if leadLen wideSpaces (c :: cs) = 0 then some (c :: cs)
    else skipSpace fuel ((c :: cs).drop (leadLen wideSpaces (c :: cs)))

/-- Value of a run of ASCII digits. -/
def digitsVal (ds : Bytes) : Nat := ds.foldl (fun acc d => acc * 10 + (d.val - 48)) 0

/-- Limit `hugeWid` of package fmt: a scan reads at most this many runes of its input. -/
def hugeWid : Nat := 1073741824

/-- The first `n` runes of `s`, as the rune reader of package fmt decodes them: a byte that starts
no valid UTF-8 encoding is one rune. -/
def takeRunes : Nat → Bytes → Bytes
  | 0, _ => []
  | _, [] => []
  | n + 1, c :: cs =>
    (c :: cs).take (if utf8Width (c :: cs) = 0 then 1 else utf8Width (c :: cs))
      ++ takeRunes n ((c :: cs).drop (if utf8Width (c :: cs) = 0 then 1 else utf8Width (c :: cs)))

/-- Call `fmt.Sscanf(s, "%d", &ts)` with `ts` an `int64`: of the first `hugeWid` runes, leading
space is skipped, then an optional sign and a run of the digits `0` to `9` are handed to
`strconv.ParseInt(tok, 10, 64)`; what follows the digits is not read. -/
def sscanInt (s : Bytes) : Option Int :=
  match skipSpace (takeRunes hugeWid s).length (takeRunes hugeWid s) with
  | none => none
  | some t =>
    let neg := decide (t.head? = some 45)
    let t1 := if t.head? = some 45 ∨ t.head? = some 43 then t.tail else t
    let tok := t1.takeWhile (fun c => decide (48 ≤ c.val ∧ c.val ≤ 57))
    if tok = [] then none
    else
      let v : Int := if neg then -(digitsVal tok : Int) else (digitsVal tok : Int)
      if isInt64 v then some v else none

/-! ## The data directory -/

/-- Steps of the store that perform I/O and can fail. -/
inductive IOStep where
  | mkdirAll
  | manifestSave
  | walOpen
  | walAppend
  | segOpen
  | segWrite
  | idxWrite
  | walFlush
  | walTruncate
  | walSeek
  | walClose
deriving DecidableEq, Repr

/-- The fault oracle under which every I/O step succeeds. -/
def noFail : IOStep → Bool := fun _ => false

/-- Content of a directory: file name and content, at most one entry per name in use. -/
def fileRead {α : Type} : List (Bytes × α) → Bytes → Option α
  | [], _ => none
  | (n, c) :: fs, name => if n = name then some c else fileRead fs name

/-- Create or replace a file. -/
def fileWrite {α : Type} : List (Bytes × α) → Bytes → α → List (Bytes × α)
  | [], name, c => [(name, c)]
  | (n, c0) :: fs, name, c => if n = name then (n, c) :: fs else (n, c0) :: fileWrite fs name c

/-- Type `index` of sstable.go: the `Offsets` map, key to `int64` offset. -/
abbrev index := List (Bytes × Int)

/-- The data directory: `manifest.json` (its segment list; the JSON text is not modelled),
`wal.log`, and under `sst/` the segment files and their `.index.json` sidecars (kept as the
decoded `index`; the JSON text is not modelled), both by segment name. -/
structure Disk where
  manifest : Option (List Bytes)
  wal : Option Bytes
  sst : List (Bytes × Bytes)
  idx : List (Bytes × index)
deriving DecidableEq, Repr

/-- A data directory with no files. -/
def Disk.empty : Disk := { manifest := none, wal := none, sst := [], idx := [] }

/-! ## sstable.go -/

/-- Size of the `bufio.Writer` of `sstableWrite` and of the WAL: `1<<20`. -/
def bufSize : Nat := 1048576

/-- A `bufio.Writer` over a file: the bytes that reached the file and the bytes still buffered. -/
structure BufWriter where
  file : Bytes
  buf : Bytes
deriving DecidableEq, Repr

/-- Methods `Write` and `WriteString` of `bufio.Writer` (Go 1.18 and later, where a write larger
than the free space goes straight to the file when the buffer is empty). The loop of the source
runs at most twice, which is unrolled here. -/
def bufWrite (w : BufWriter) (p : Bytes) : BufWriter :=
  if p.length > bufSize - w.buf.length then
    if w.buf.length = 0 then { file := w.file ++ p, buf := [] }
    else
      let n := bufSize - w.buf.length
      let file1 := w.file ++ (w.buf ++ p.take n)
      let p1 := p.drop n
      if p1.length > bufSize then { file := file1 ++ p1, buf := [] }
      else { file := file1, buf := p1 }
  else { w with buf := w.buf ++ p }

/-- The record line of an event: `fmt.Sprintf("%s\t%d\t%s\n", e.Key, e.TS, base64(e.Value))`. -/
def recordLine (e : Event) : Bytes :=
  e.Key ++ 9 :: (fmtInt e.TS ++ 9 :: (base64Encode e.Value ++ [10]))

/-- Body of the loop of `sstableWrite`: `off` is `f.Seek(0, os.SEEK_CUR)`, the position of the
file itself, which does not count the bytes still held by the buffered writer. -/
def writeItem (st : BufWriter × index) (e : Event) : BufWriter × index :=
  let off : Int := (st.1.file.length : Int)
  (bufWrite st.1 (recordLine e), fileWrite st.2 e.Key off)

/-- The buffered writer and the index of `sstableWrite` after the loop over `items`. -/
def writeItems (items : List Event) : BufWriter × index :=
  items.foldl writeItem (bufWrite { file := [], buf := [] } (B "SST1\n"), [])

/-- Function `sstableWrite`. A write error of the data file is `IOStep.segWrite` (taken at the
final `Flush`), one of the sidecar is `IOStep.idxWrite`. -/
def sstableWrite (d : Disk) (path : Bytes) (items : List Event) (fail : IOStep → Bool) :
    Disk × Option GoError :=
  if fail IOStep.segOpen then (d, some GoError.ioFailure)
  else
    let wi := writeItems items
    if fail IOStep.segWrite then
      ({ d with sst := fileWrite d.sst path wi.1.file }, some GoError.ioFailure)
    else
      let d1 := { d with sst := fileWrite d.sst path (wi.1.file ++ wi.1.buf) }
      if fail IOStep.idxWrite then (d1, some GoError.ioFailure)
      else ({ d1 with idx := fileWrite d1.idx path wi.2 }, none)

/-- Function `tryParseLine`. -/
def tryParseLine (line : Bytes) : Event × Bool × Option GoError :=
  match splitTab line with
  | [key, tsPart, valPart] =>
    match sscanInt tsPart with
    | none => (Event.zero, false, some GoError.scanInt)
    | some ts =>
      match base64Decode valPart with
      | none => (Event.zero, false, some GoError.base64Corrupt)
      | some valBytes => ({ Key := key, TS := ts, Value := valBytes }, true, none)
  | _ => (Event.zero, false, none)

/-- Function `parseLine`. -/
def parseLine (line : Bytes) : Event × Bool × Option GoError :=
  match tryParseLine line with
  | (_, _, some err) => (Event.zero, false, some err)
  | (ev, ok, none) => (ev, ok, none)

/-- Function `sstableGet`. -/
def sstableGet (d : Disk) (path key : Bytes) : Event × Bool × Option GoError :=
  match fileRead d.idx path with
  | none => (Event.zero, false, some GoError.notExist)
  | some idx =>
    match fileRead idx key with
    | none => (Event.zero, false, none)
    | some off =>
      match fileRead d.sst path with
      | none => (Event.zero, false, some GoError.notExist)
      | some data =>
        if off < 0 then (Event.zero, false, some GoError.ioFailure)
        else
          match readString (data.drop off.toNat) with
          | (_, _, true) => (Event.zero, false, some GoError.eof)
          | (line, _, false) => parseLine (trimRightNL line)

/-- The `for` loop of `sstableRangeTS` over the unread bytes `data`, with `out` the events
collected so far; `fuel` bounds the number of lines read. -/
def scanLoop (lo hi : Int) : Nat → Bytes → List Event → List Event
  | 0, _, out => out
  | fuel + 1, data, out =>
    match readString data with
    | (line, rest, eof) =>
      if eof && decide (line.length = 0) then out
      else
        let line1 := trimRightNL line
        if line1 = [] then out
        else
          match tryParseLine line1 with
          | (ev, true, _) =>
            if ev.TS ≥ lo ∧ ev.TS ≤ hi then scanLoop lo hi fuel rest (out ++ [ev])
            else scanLoop lo hi fuel rest out
          | (_, false, _) => scanLoop lo hi fuel rest out

/-- Function `sstableRangeTS`. -/
def sstableRangeTS (d : Disk) (path : Bytes) (lo hi : Int) : List Event × Option GoError :=
  match fileRead d.sst path with
  | none => ([], some GoError.notExist)
  | some data =>
    match readString data with
    | (_, _, true) => ([], some GoError.eof)
    | (_, rest, false) => (sortByTS (scanLoop lo hi (rest.length + 1) rest []), none)

/-! ## manifest.go -/

/-- Type `manifest` of manifest.go. -/
structure manifest where
  Segments : List Bytes
deriving DecidableEq, Repr

/-- Method `Add`. -/
def manifest.Add (m : manifest) (seg : Bytes) : manifest := { Segments := m.Segments ++ [seg] }

/-- Function `strings.TrimSuffix(s, ".sst")`. -/
def trimSuffixSst (s : Bytes) : Bytes :=
  if (B ".sst").isSuffixOf s then s.take (s.length - 4) else s

/-- Wrap-around of 64-bit signed arithmetic. -/
def wrapInt64 (n : Int) : Int := (n + 9223372036854775808) % 18446744073709551616 - 9223372036854775808

/-- Call `i, _ := strconv.Atoi(n)` on a 64-bit platform: an optional sign and one or more decimal
digits give the number, clamped to the `int64` range on overflow. A byte that is not a digit
gives 0, unless the digits before it already exceed the `uint64` range: the digit loop of
`ParseUint` then has met the range error first, and the result is clamped. -/
def atoi (s : Bytes) : Int :=
  let neg := decide (s.head? = some 45)
  let ds := if s.head? = some 45 ∨ s.head? = some 43 then s.tail else s
  if ds = [] then 0
  else if ds.all (fun c => decide (48 ≤ c.val ∧ c.val ≤ 57)) then
    let v : Int := if neg then -(digitsVal ds : Int) else (digitsVal ds : Int)
    if v > 9223372036854775807 then 9223372036854775807
    else if v < -9223372036854775808 then -9223372036854775808
    else v
  else if digitsVal (ds.takeWhile (fun c => decide (48 ≤ c.val ∧ c.val ≤ 57)))
      ≥ 18446744073709551616 then
    (if neg then -9223372036854775808 else 9223372036854775807)
  else 0

/-- The loop of `nextName`: the largest `Atoi` of a name without its `.sst` suffix, at least 0. -/
def maxSeg (segs : List Bytes) : Int :=
  segs.foldl (fun max s => if atoi (trimSuffixSst s) > max then atoi (trimSuffixSst s) else max) 0

/-- Method `nextName`: `fmt.Sprintf("%06d.sst", max+1)`. -/
def manifest.nextName (m : manifest) : Bytes :=
  fmtInt06 (wrapInt64 (maxSeg m.Segments + 1)) ++ B ".sst"

/-! ## Package encoding/json, as far as wal.go uses it

`wal.Append` writes `json.Marshal(e)` for an `Event`, whose `Value` is a `json.RawMessage`; the
encoder validates and compacts that value with the scanner of the package, which is modelled here
state by state. -/

/-- Step functions of the scanner of encoding/json (scanner.go). -/
inductive JState where
  | beginValueOrEmpty | beginValue | beginStringOrEmpty | beginString | endValue | endTop
  | inString | inStringEsc | inStringEscU | inStringEscU1 | inStringEscU12 | inStringEscU123
  | neg | s1 | s0 | dot | dot0 | e | eSign | e0
  | t | tr | tru | f | fa | fal | fals | n | nu | nul
  | error
deriving DecidableEq, Repr

/-- Entries of the parse stack of the scanner. -/
inductive JParse where
  | objectKey | objectValue | arrayValue
deriving DecidableEq, Repr

/-- What a step reports, as far as `appendCompact` looks at it: `skip` stands for `scanSkipSpace`
and `scanEnd`, `error` for `scanError`, `cont` for every other code. -/
inductive JOp where
  | cont | skip | error
deriving DecidableEq, Repr

/-- The scanner: current step function, parse stack (top first), and the `endTop` flag. -/
structure JScanner where
  step : JState
  stack : List JParse
  endTop : Bool
deriving DecidableEq, Repr

/-- Limit `maxNestingDepth` of the scanner. -/
def maxNestingDepth : Nat := 10000

def jIsSpace (c : Fin 256) : Bool := decide (c = 32 ∨ c = 9 ∨ c = 13 ∨ c = 10)

def jIsDigit (c : Fin 256) : Bool := decide (48 ≤ c.val ∧ c.val ≤ 57)

def jIsHex (c : Fin 256) : Bool :=
  decide ((48 ≤ c.val ∧ c.val ≤ 57) ∨ (97 ≤ c.val ∧ c.val ≤ 102) ∨ (65 ≤ c.val ∧ c.val ≤ 70))

def jError (s : JScanner) : JScanner × JOp := ({ s with step := JState.error }, JOp.error)

def jGoto (s : JScanner) (st : JState) : JScanner × JOp := ({ s with step := st }, JOp.cont)

/-- Method `pushParseState`. -/
def jPush (s : JScanner) (p : JParse) (st : JState) : JScanner × JOp :=
  if s.stack.length + 1 ≤ maxNestingDepth then
    ({ s with step := st, stack := p :: s.stack }, JOp.cont)
  else jError { s with stack := p :: s.stack }

/-- Method `popParseState`. -/
def jPop (s : JScanner) : JScanner :=
  match s.stack.tail with
  | [] => { step := JState.endTop, stack := [], endTop := true }
  | rest => { s with step := JState.endValue, stack := rest }

/-- Function `stateEndTop`. -/
def jEndTop (s : JScanner) (c : Fin 256) : JScanner × JOp :=
  if jIsSpace c then (s, JOp.skip) else ({ s with step := JState.error }, JOp.skip)

/-- Function `stateEndValue`. -/
def jEndValue (s : JScanner) (c : Fin 256) : JScanner × JOp :=
  match s.stack with
  | [] => jEndTop { s with step := JState.endTop, endTop := true } c
  | ps :: rest =>
    if jIsSpace c then ({ s with step := JState.endValue }, JOp.skip)
    else match ps with
      | JParse.objectKey =>
        if c = 58 then ({ s with step := JState.beginValue, stack := JParse.objectValue :: rest }, JOp.cont)
        else jError s
      | JParse.objectValue =>
        if c = 44 then ({ s with step := JState.beginString, stack := JParse.objectKey :: rest }, JOp.cont)
        else if c = 125 then (jPop s, JOp.cont)
        else jError s
      | JParse.arrayValue =>
        if c = 44 then jGoto s JState.beginValue
        else if c = 93 then (jPop s, JOp.cont)
        else jError s

/-- Function `stateBeginValue`. -/
def jBeginValue (s : JScanner) (c : Fin 256) : JScanner × JOp :=
  if jIsSpace c then (s, JOp.skip)
  else if c = 123 then jPush s JParse.objectKey JState.beginStringOrEmpty
  else if c = 91 then jPush s JParse.arrayValue JState.beginValueOrEmpty
  else if c = 34 then jGoto s JState.inString
  else if c = 45 then jGoto s JState.neg
  else if c = 48 then jGoto s JState.s0
  else if c = 116 then jGoto s JState.t
  else if c = 102 then jGoto s JState.f
  else if c = 110 then jGoto s JState.n
  else if 49 ≤ c.val ∧ c.val ≤ 57 then jGoto s JState.s1
  else jError s

/-- Function `stateBeginString`. -/
def jBeginString (s : JScanner) (c : Fin 256) : JScanner × JOp :=
  if jIsSpace c then (s, JOp.skip)
  else if c = 34 then jGoto s JState.inString
  else jError s

/-- Function `state0`. -/
def jState0 (s : JScanner) (c : Fin 256) : JScanner × JOp :=
  if c = 46 then jGoto s JState.dot
  else if c = 101 ∨ c = 69 then jGoto s JState.e
  else jEndValue s c

/-- Function `stateESign`. -/
def jESign (s : JScanner) (c : Fin 256) : JScanner × JOp :=
  if jIsDigit c then jGoto s JState.e0 else jError s

/-- One call `s.step(s, c)` of the scanner. -/
def jStep (s : JScanner) (c : Fin 256) : JScanner × JOp :=
  match s.step with
  | JState.beginValueOrEmpty =>
    if jIsSpace c then (s, JOp.skip)
    else if c = 93 then jEndValue s c
    else jBeginValue s c
  | JState.beginValue => jBeginValue s c
  | JState.beginStringOrEmpty =>
    if jIsSpace c then (s, JOp.skip)
    else if c = 125 then jEndValue { s with stack := JParse.objectValue :: s.stack.tail } c
    else jBeginString s c
  | JState.beginString => jBeginString s c
  | JState.endValue => jEndValue s c
  | JState.endTop => jEndTop s c
  | JState.inString =>
    if c = 34 then jGoto s JState.endValue
    else if c = 92 then jGoto s JState.inStringEsc
    else if c.val < 32 then jError s
    else (s, JOp.cont)
  | JState.inStringEsc =>
    if c = 98 ∨ c = 102 ∨ c = 110 ∨ c = 114 ∨ c = 116 ∨ c = 92 ∨ c = 47 ∨ c = 34 then
      jGoto s JState.inString
    else if c = 117 then jGoto s JState.inStringEscU
    else jError s
  | JState.inStringEscU => if jIsHex c then jGoto s JState.inStringEscU1 else jError s
  | JState.inStringEscU1 => if jIsHex c then jGoto s JState.inStringEscU12 else jError s
  | JState.inStringEscU12 => if jIsHex c then jGoto s JState.inStringEscU123 else jError s
  | JState.inStringEscU123 => if jIsHex c then jGoto s JState.inString else jError s
  | JState.neg =>
    if c = 48 then jGoto s JState.s0
    else if 49 ≤ c.val ∧ c.val ≤ 57 then jGoto s JState.s1
    else jError s
  | JState.s1 => if jIsDigit c then (s, JOp.cont) else jState0 s c
  | JState.s0 => jState0 s c
  | JState.dot => if jIsDigit c then jGoto s JState.dot0 else jError s
  | JState.dot0 =>
    if jIsDigit c then (s, JOp.cont)
    else if c = 101 ∨ c = 69 then jGoto s JState.e
    else jEndValue s c
  | JState.e => if c = 43 ∨ c = 45 then jGoto s JState.eSign else jESign s c
  | JState.eSign => jESign s c
  | JState.e0 => if jIsDigit c then (s, JOp.cont) else jEndValue s c
  | JState.t => if c = 114 then jGoto s JState.tr else jError s
  | JState.tr => if c = 117 then jGoto s JState.tru else jError s
  | JState.tru => if c = 101 then jGoto s JState.endValue else jError s
  | JState.f => if c = 97 then jGoto s JState.fa else jError s
  | JState.fa => if c = 108 then jGoto s JState.fal else jError s
  | JState.fal => if c = 115 then jGoto s JState.fals else jError s
  | JState.fals => if c = 101 then jGoto s JState.endValue else jError s
  | JState.n => if c = 117 then jGoto s JState.nu else jError s
  | JState.nu => if c = 108 then jGoto s JState.nul else jError s
  | JState.nul => if c = 108 then jGoto s JState.endValue else jError s
  | JState.error => (s, JOp.error)

/-- Method `eof` of the scanner: whether the input seen so far is one complete JSON value. -/
def jEof (s : JScanner) : Bool :=
  if s.step = JState.error then false
  else if s.endTop then true
  else (jStep s 32).1.endTop

/-- Lower-case hexadecimal digit. -/
def hexChar (n : Nat) : Fin 256 :=
  if n % 16 < 10 then Fin.ofNat (48 + n % 16) else Fin.ofNat (87 + n % 16)

/-- The loop of `appendCompact(dst, src, true)`: `skipOut` counts the bytes of a U+2028/U+2029
sequence still to be passed over, `out` is the output so far. Insignificant space is dropped,
`<`, `>`, `&` and U+2028, U+2029 are written as `\u` escapes. -/
def compactLoop : Bytes → JScanner → Nat → Bytes → Option (JScanner × Bytes)
  | [], s, _, out => some (s, out)
  | c :: cs, s, skipOut, out =>
    let sep := decide (c = 226 ∧ skipOut = 0 ∧ cs.head? = some 128
      ∧ (cs.tail.head? = some 168 ∨ cs.tail.head? = some 169))
    match jStep s c with
    | (_, JOp.error) => none
    | (s1, op) =>
      if skipOut > 0 then compactLoop cs s1 (skipOut - 1) out
      else if c = 60 ∨ c = 62 ∨ c = 38 then
        compactLoop cs s1 0 (out ++ [92, 117, 48, 48, hexChar (c.val / 16), hexChar c.val])
      else if sep then
        compactLoop cs s1 2 (out ++ [92, 117, 50, 48, 50, hexChar (cs.tail.head?.getD 0).val])
      else if op = JOp.skip then compactLoop cs s1 0 out
      else compactLoop cs s1 0 (out ++ [c])

/-- The compacted form the encoder writes for a `json.RawMessage` holding `src`, or `none` when
`src` is not one valid JSON value (then `json.Marshal` returns an error). -/
def compactJSON (src : Bytes) : Option Bytes :=
  match compactLoop src { step := JState.beginValue, stack := [], endTop := false } 0 [] with
  | none => none
  | some (s, out) => if jEof s then some out else none

/-- Function `utf8.Valid`, with `fuel` at least the length of `s`. -/
def utf8ValidAux : Nat → Bytes → Bool
  | _, [] => true
  | 0, _ :: _ => false
  | fuel + 1, c :: cs =>
    decide (utf8Width (c :: cs) ≠ 0) && utf8ValidAux fuel ((c :: cs).drop (utf8Width (c :: cs)))

/-- Function `utf8.Valid`: the bytes are a sequence of valid UTF-8 encodings. -/
def utf8Valid (s : Bytes) : Bool := utf8ValidAux s.length s

/-- Table `htmlSafeSet` of the encoder: the ASCII bytes written as they are. -/
def htmlSafe (c : Fin 256) : Bool :=
  decide (32 ≤ c.val ∧ c.val < 128 ∧ c ≠ 34 ∧ c ≠ 38 ∧ c ≠ 60 ∧ c ≠ 62 ∧ c ≠ 92)

/-- What the encoder writes for an ASCII byte outside `htmlSafeSet`. -/
def escapeByte (c : Fin 256) : Bytes :=
  if c = 92 ∨ c = 34 then [92, c]
  else if c = 8 then [92, 98]
  else if c = 12 then [92, 102]
  else if c = 10 then [92, 110]
  else if c = 13 then [92, 114]
  else if c = 9 then [92, 116]
  else [92, 117, 48, 48, hexChar (c.val / 16), hexChar c.val]

/-- The loop of `appendString(dst, src, true)` of the encoder: the text between the quotes.
A byte that starts no valid UTF-8 encoding is written as the escape of U+FFFD, and U+2028,
U+2029 as escapes. -/
def quoteBody : Nat → Bytes → Bytes
  | 0, _ => []
  | _, [] => []
  | fuel + 1, c :: cs =>
    if c.val < 128 then
      (if htmlSafe c then [c] else escapeByte c) ++ quoteBody fuel cs
    else if utf8Width (c :: cs) = 0 then
      [92, 117, 102, 102, 102, 100] ++ quoteBody fuel cs
    else if c = 226 ∧ cs.head? = some 128 ∧ (cs.tail.head? = some 168 ∨ cs.tail.head? = some 169) then
      [92, 117, 50, 48, 50, hexChar (cs.tail.head?.getD 0).val] ++ quoteBody fuel (cs.drop 2)
    else
      (c :: cs).take (utf8Width (c :: cs)) ++ quoteBody fuel ((c :: cs).drop (utf8Width (c :: cs)))

/-- A Go string as a JSON string literal. -/
def jsonQuote (k : Bytes) : Bytes := 34 :: (quoteBody k.length k ++ [34])

/-- Function `json.Marshal` on an `Event` (the struct has no field tags, so the member names are
the field names): `none` when it returns an error, which is when `Value` is not valid JSON. An
empty `Value` stands for the nil `RawMessage`, written as `null`. -/
def marshalEvent (e : Event) : Option Bytes :=
  match (if e.Value = [] then some (B "null") else compactJSON e.Value) with
  | none => none
  | some v =>
    some (B "\x7b\"Key\":" ++ (jsonQuote e.Key ++ (B ",\"TS\":" ++ (fmtInt e.TS
      ++ (B ",\"Value\":" ++ (v ++ B "\x7d"))))))

/-- Value of a hexadecimal digit. -/
def hexVal (c : Fin 256) : Option Nat :=
  if 48 ≤ c.val ∧ c.val ≤ 57 then some (c.val - 48)
  else if 97 ≤ c.val ∧ c.val ≤ 102 then some (c.val - 87)
  else if 65 ≤ c.val ∧ c.val ≤ 70 then some (c.val - 55)
  else none

/-- Function `getu4` of the decoder on the four digits after `\u`. -/
def getu4 (s : Bytes) : Option Nat :=
  match s with
  | a :: b :: c :: d :: _ =>
    match hexVal a, hexVal b, hexVal c, hexVal d with
    | some va, some vb, some vc, some vd => some (va * 4096 + vb * 256 + vc * 16 + vd)
    | _, _, _, _ => none
  | _ => none

/-- Function `utf8.EncodeRune` on a code point that is not a surrogate. -/
def utf8Encode (r : Nat) : Bytes :=
  if r < 128 then [Fin.ofNat r]
  else if r < 2048 then [Fin.ofNat (192 + r / 64), Fin.ofNat (128 + r % 64)]
  else if r < 65536 then
    [Fin.ofNat (224 + r / 4096), Fin.ofNat (128 + r / 64 % 64), Fin.ofNat (128 + r % 64)]
  else
    [Fin.ofNat (240 + r / 262144), Fin.ofNat (128 + r / 4096 % 64), Fin.ofNat (128 + r / 64 % 64),
      Fin.ofNat (128 + r % 64)]

/-- The loop of `unquoteBytes` of the decoder, started after the opening quote: the decoded
string and the input after the closing quote, or `none` for a malformed literal. -/
def unquoteBody : Nat → Bytes → Option (Bytes × Bytes)
  | 0, _ => none
  | _, [] => none
  | fuel + 1, c :: cs =>
    if c = 34 then some ([], cs)
    else if c = 92 then
      match cs with
      | [] => none
      | x :: r =>
        if x = 117 then
          match getu4 r with
          | none => none
          | some rr =>
            if 55296 ≤ rr ∧ rr < 57344 then
              match (if (r.drop 4).take 2 = [92, 117] then getu4 (r.drop 6) else none) with
              | some rr1 =>
                if rr < 56320 ∧ 56320 ≤ rr1 ∧ rr1 < 57344 then
                  (unquoteBody fuel (r.drop 10)).map
                    (fun p => (utf8Encode ((rr - 55296) * 1024 + (rr1 - 56320) + 65536) ++ p.1, p.2))
                else (unquoteBody fuel (r.drop 4)).map (fun p => ([239, 191, 189] ++ p.1, p.2))
              | none => (unquoteBody fuel (r.drop 4)).map (fun p => ([239, 191, 189] ++ p.1, p.2))
            else (unquoteBody fuel (r.drop 4)).map (fun p => (utf8Encode rr ++ p.1, p.2))
        else
          let d : Option (Fin 256) :=
            if x = 34 ∨ x = 92 ∨ x = 47 then some x
            else if x = 98 then some 8
            else if x = 102 then some 12
            else if x = 110 then some 10
            else if x = 114 then some 13
            else if x = 116 then some 9
            else none
          match d with
          | none => none
          | some b => (unquoteBody fuel r).map (fun p => (b :: p.1, p.2))
    else if c.val < 32 then none
    else if c.val < 128 then (unquoteBody fuel cs).map (fun p => (c :: p.1, p.2))
    else if utf8Width (c :: cs) = 0 then
      (unquoteBody fuel cs).map (fun p => ([239, 191, 189] ++ p.1, p.2))
    else
      (unquoteBody fuel ((c :: cs).drop (utf8Width (c :: cs)))).map
        (fun p => ((c :: cs).take (utf8Width (c :: cs)) ++ p.1, p.2))

/-- Remove the leading bytes `p` from `s`, or `none` when `s` does not start with them. -/
def stripLead : Bytes → Bytes → Option Bytes
  | [], s => some s
  | _ :: _, [] => none
  | a :: p, b :: s => if a = b then stripLead p s else none

/-- A JSON number that is an `int64`, as the decoder stores it into an `int64` field with
`strconv.ParseInt`: an optional minus, then `0` or digits without a leading zero. -/
def jsonInt (tok : Bytes) : Option Int :=
  let neg := decide (tok.head? = some 45)
  let ds := if tok.head? = some 45 then tok.tail else tok
  if ds = [] then none
  else if !(ds.all jIsDigit) then none
  else if ds.head? = some 48 ∧ ds.length > 1 then none
  else
    let v : Int := if neg then -(digitsVal ds : Int) else (digitsVal ds : Int)
    if isInt64 v then some v else none

/-- The loop of `checkValid` of scanner.go: the scanner after the bytes, or `none` when a step
reports `scanError`. -/
def checkLoop : Bytes → JScanner → Option JScanner
  | [], s => some s
  | c :: cs, s =>
    match jStep s c with
    | (_, JOp.error) => none
    | (s1, _) => checkLoop cs s1

/-- Function `checkValid` of scanner.go, which `json.Unmarshal` runs over its whole input before
it decodes: the input is one JSON value, nested at most `maxNestingDepth` deep. -/
def checkValid (data : Bytes) : Bool :=
  match checkLoop data { step := JState.beginValue, stack := [], endTop := false } with
  | none => false
  | some s => jEof s

/-- Function `json.Unmarshal(line, &e)` into a zero `Event`, for a line of the shape
`json.Marshal` gives an `Event`: the three members in order, no insignificant space. `none` stands
for `err != nil`. A line that is not valid JSON (`checkValid`, over the whole line, so that the
enclosing object counts in the nesting depth) is refused as in Go; valid JSON of another shape
(other member order, extra members, space between tokens), which `wal.Append` never writes, is
refused here too, so the function stands for `json.Unmarshal` only on the lines of a WAL that
`wal.Append` wrote. -/
def unmarshalEvent (line : Bytes) : Option Event :=
  if checkValid line = false then none
  else
    match stripLead (B "\x7b\"Key\":\"") line with
    | none => none
    | some r1 =>
      match unquoteBody r1.length r1 with
      | none => none
      | some (key, r2) =>
        match stripLead (B ",\"TS\":") r2 with
        | none => none
        | some r3 =>
          let tok := r3.takeWhile (fun c => jIsDigit c || decide (c = 45))
          match jsonInt tok, stripLead (B ",\"Value\":") (r3.drop tok.length) with
          | some ts, some r5 =>
            if r5.getLast? = some 125 ∧ (compactJSON r5.dropLast).isSome then
              some { Key := key, TS := ts, Value := r5.dropLast }
            else none
          | _, _ => none

/-! ## wal.go -/

/-- Limit of the `bufio.Scanner` of `wal.Replay`: `sc.Buffer(make([]byte, 0, 1<<20), 1<<25)`. -/
def maxTokenSize : Nat := 33554432

/-- Method `Append` on the file content (the file is opened with `O_APPEND` and the writer is
flushed by every call): the error of `json.Marshal` is dropped, so a failed encoding writes an
empty line. -/
def walAppend (file : Bytes) (e : Event) : Bytes :=
  file ++ ((marshalEvent e).getD [] ++ [10])

/-- Function `dropCR` of `bufio.ScanLines`. -/
def dropCR (line : Bytes) : Bytes :=
  if line.getLast? = some 13 then line.dropLast else line

/-- What `wal.Replay` does with one token of the scanner: emit the decoded event unless decoding
fails or the key is empty. -/
def walEmit (tok : Bytes) (out : List Event) : List Event :=
  match unmarshalEvent tok with
  | some e => if e.Key ≠ [] then out ++ [e] else out
  | none => out

/-- The loop `for sc.Scan()` of `wal.Replay` over the unread bytes: the events handed to `emit`,
in order, and `sc.Err()`. A line that does not fit the scanner's buffer stops the scan with
`ErrTooLong`. -/
def walReplayLoop : Nat → Bytes → List Event → List Event × Option GoError
  | 0, _, out => (out, none)
  | fuel + 1, data, out =>
    match readString data with
    | (line, rest, eof) =>
      if eof then
        if line = [] then (out, none)
        else if line.length ≥ maxTokenSize then (out, some GoError.tokenTooLong)
        else (walEmit (dropCR line) out, none)
      else if line.length > maxTokenSize then (out, some GoError.tokenTooLong)
      else walReplayLoop fuel rest (walEmit (dropCR line.dropLast) out)

/-- Method `Replay` of the WAL on the file content. -/
def walReplay (file : Bytes) : List Event × Option GoError :=
  walReplayLoop (file.length + 1) file []

/-! ## store.go -/

/-- Type `Options` of store.go. -/
structure Options where
  DataDir : Bytes
  MemtableMaxItems : Int
deriving DecidableEq, Repr

/-- Type `LSMStore` of store.go: the in-memory part of a store. The files it works on are the
`Disk` passed along with it; the WAL handle holds no data between calls, because every `Append`
flushes its writer. The locks are not modelled: each operation is one atomic step. -/
structure LSMStore where
  opts : Options
  mem : memtable
  manifest : manifest
deriving DecidableEq, Repr

/-- Function `loadOrCreateManifest`. -/
def loadOrCreateManifest (d : Disk) (fail : IOStep → Bool) : Disk × manifest × Option GoError :=
  match d.manifest with
  | some segs => (d, { Segments := segs }, none)
  | none =>
    if fail IOStep.manifestSave then (d, { Segments := [] }, some GoError.ioFailure)
    else ({ d with manifest := some [] }, { Segments := [] }, none)

/-- Function `openWAL`: `O_CREATE|O_RDWR|O_APPEND` creates an empty file when there is none. -/
def openWAL (d : Disk) (fail : IOStep → Bool) : Disk × Option GoError :=
  if fail IOStep.walOpen then (d, some GoError.ioFailure)
  else
    match d.wal with
    | some _ => (d, none)
    | none => ({ d with wal := some [] }, none)

/-- Function `NewLSMStore`: the directory as it is left, and the store or the error. -/
def NewLSMStore (opts : Options) (d : Disk) (fail : IOStep → Bool) :
    Disk × Except GoError LSMStore :=
  let opts1 : Options :=
    if opts.MemtableMaxItems ≤ 0 then { opts with MemtableMaxItems := 50000 } else opts
  if opts1.DataDir = [] then (d, Except.error GoError.dataDirRequired)
  else if fail IOStep.mkdirAll then (d, Except.error GoError.ioFailure)
  else
    match loadOrCreateManifest d fail with
    | (d1, _, some err) => (d1, Except.error err)
    | (d1, mf, none) =>
      match openWAL d1 fail with
      | (d2, some err) => (d2, Except.error err)
      | (d2, none) =>
        match walReplay (d2.wal.getD []) with
        | (_, some err) => (d2, Except.error err)
        | (evs, none) =>
          (d2, Except.ok
            { opts := opts1
              mem := evs.foldl memtable.upsert (newMemtable opts1.MemtableMaxItems)
              manifest := mf })

/-- Method `Rotate` of the WAL. -/
def walRotate (d : Disk) (fail : IOStep → Bool) : Disk × Option GoError :=
  if fail IOStep.walFlush then (d, some GoError.ioFailure)
  else if fail IOStep.walTruncate then (d, some GoError.ioFailure)
  else if fail IOStep.walSeek then ({ d with wal := some [] }, some GoError.ioFailure)
  else ({ d with wal := some [] }, none)

/-- Method `Save` of the manifest (a failed write is taken to leave the old file). -/
def manifestSave (m : manifest) (d : Disk) (fail : IOStep → Bool) : Disk × Option GoError :=
  if fail IOStep.manifestSave then (d, some GoError.ioFailure)
  else ({ d with manifest := some m.Segments }, none)

/-- Method `flushLocked`. -/
def flushLocked (s : LSMStore) (d : Disk) (fail : IOStep → Bool) :
    LSMStore × Disk × Option GoError :=
  let items := s.mem.snapshotSortedByKey
  if items.length = 0 then (s, d, none)
  else
    let segName := s.manifest.nextName
    match sstableWrite d segName items fail with
    | (d1, some err) => (s, d1, some err)
    | (d1, none) =>
      match walRotate d1 fail with
      | (d2, some err) => (s, d2, some err)
      | (d2, none) =>
        let s1 := { s with mem := s.mem.clear }
        let s2 := { s1 with manifest := s1.manifest.Add segName }
        match manifestSave s2.manifest d2 fail with
        | (d3, err) => (s2, d3, err)

/-- Method `Put`. A failed `wal.Append` is taken to leave the file as it was. -/
def Put (s : LSMStore) (d : Disk) (e : Event) (fail : IOStep → Bool) :
    LSMStore × Disk × Option GoError :=
  if e.Key = [] ∨ e.TS = 0 ∨ e.Value.length = 0 then (s, d, some GoError.invalidEvent)
  else if fail IOStep.walAppend then (s, d, some GoError.ioFailure)
  else
    let d1 := { d with wal := some (walAppend (d.wal.getD []) e) }
    let s1 := { s with mem := s.mem.upsert e }
    if s1.mem.full then flushLocked s1 d1 fail
    else (s1, d1, none)

/-- The loop of `Get` over the segment names still to visit, newest first. -/
def getLoop (d : Disk) (key : Bytes) : List Bytes → Event × Bool × Option GoError
  | [] => (Event.zero, false, none)
  | f :: fs =>
    match sstableGet d f key with
    | (_, _, some err) => (Event.zero, false, some err)
    | (ev, true, none) => (ev, true, none)
    | (_, false, none) => getLoop d key fs

/-- Method `Get`. -/
def Get (s : LSMStore) (d : Disk) (key : Bytes) : Event × Bool × Option GoError :=
  match s.mem.get key with
  | (ev, true) => (ev, true, none)
  | (_, false) => getLoop d key s.manifest.Segments.reverse

/-- The loop of `Replay` over the segment names: a segment whose scan fails is passed over. -/
def replayGather (d : Disk) (lo hi : Int) : List Bytes → List Event → List Event
  | [], all => all
  | f :: fs, all =>
    match sstableRangeTS d f lo hi with
    | (_, some _) => replayGather d lo hi fs all
    | (evs, none) => replayGather d lo hi fs (all ++ evs)

/-- Method `Replay`: the complete sequence sent on the channel when the caller never cancels. -/
def Replay (s : LSMStore) (d : Disk) (lo hi : Int) : List Event :=
  sortByTS (replayGather d lo hi s.manifest.Segments (s.mem.rangeByTS lo hi))

/-- Method `Close`. -/
def Close (s : LSMStore) (d : Disk) (fail : IOStep → Bool) : LSMStore × Disk × Option GoError :=
  if s.mem.len > 0 then
    match flushLocked s d fail with
    | (s1, d1, some err) => (s1, d1, some err)
    | (s1, d1, none) => (s1, d1, if fail IOStep.walClose then some GoError.ioFailure else none)
  else (s, d, if fail IOStep.walClose then some GoError.ioFailure else none)

/-! ## Histories -/

/-- A sequence of `Put` calls under which every I/O step succeeds; it stops at the first `Put`
that returns an error, so a result without error means that every `Put` returned success. -/
def putAll (s : LSMStore) (d : Disk) : List Event → LSMStore × Disk × Option GoError
  | [] => (s, d, none)
  | e :: es =>
    match Put s d e noFail with
    | (s1, d1, none) => putAll s1 d1 es
    | (s1, d1, some err) => (s1, d1, some err)

/-- The directory a first `NewLSMStore` leaves: an empty manifest and an empty WAL. -/
def freshDisk : Disk := { manifest := some [], wal := some [], sst := [], idx := [] }

/-- The store a first `NewLSMStore` returns. -/
def freshStore (opts : Options) : LSMStore :=
  { opts := opts, mem := newMemtable opts.MemtableMaxItems, manifest := { Segments := [] } }

/-- An event `Put` accepts: non-empty key, non-zero timestamp, non-empty value. -/
def validEvent (e : Event) : Prop := e.Key ≠ [] ∧ e.TS ≠ 0 ∧ e.Value ≠ []

instance (e : Event) : Decidable (validEvent e) := by unfold validEvent; infer_instance

/-- Fault oracle under which only the manifest save fails. -/
def failManifestSave : IOStep → Bool := fun st => decide (st = IOStep.manifestSave)

/-! ## Vocabulary of the claims about `Replay` -/

/-- The lines of a file: the byte runs between newlines, with the run after the last newline
when it is not empty. -/
def linesOf : Bytes → List Bytes
  | [] => []
  | c :: cs =>
    if c = 10 then [] :: linesOf cs
    else match linesOf cs with
      | [] => [[c]]
      | l :: ls => (c :: l) :: ls

/-- The event a record line decodes to, when `tryParseLine` accepts the line. -/
def decodeLine (l : Bytes) : Option Event :=
  match tryParseLine l with
  | (ev, true, _) => some ev
  | (_, false, _) => none

/-- The decodable records of a segment file: every line after the header line that
`tryParseLine` accepts. -/
def segmentRecords (file : Bytes) : List Event :=
  (linesOf file).tail.filterMap decodeLine

/-- The decodable records of a segment file that stand before its first empty line. -/
def scannedRecords (file : Bytes) : List Event :=
  ((linesOf file).tail.takeWhile (fun l => decide (l ≠ []))).filterMap decodeLine

/-- The decodable records of the segment called `name`; none when the file is missing. -/
def segmentRecordsOf (d : Disk) (name : Bytes) : List Event :=
  match fileRead d.sst name with
  | some file => segmentRecords file
  | none => []

/-- The records before the first empty line of the segment called `name`. -/
def scannedRecordsOf (d : Disk) (name : Bytes) : List Event :=
  match fileRead d.sst name with
  | some file => scannedRecords file
  | none => []

/-- Membership of a timestamp in the closed range of a `Replay`. -/
def inRange (lo hi : Int) (e : Event) : Bool := decide (lo ≤ e.TS) && decide (e.TS ≤ hi)

/-- In the sequence `S` of `Put`s, `e` is the highest-timestamp `Put` for its key, the last one
among those of equal timestamp: no event of the same key before it has a higher timestamp, and
every event of the same key after it has a lower one. -/
def isLatest (S : List Event) (e : Event) : Prop :=
  ∃ S1 S2, S = S1 ++ e :: S2 ∧ (∀ x ∈ S1, x.Key = e.Key → x.TS ≤ e.TS)
    ∧ (∀ x ∈ S2, x.Key = e.Key → x.TS < e.TS)

/-! ## Vocabulary of the claims about the WAL -/

/-- The bytes `wal.Append` writes for an event before the newline: its JSON encoding, or nothing
when `json.Marshal` returns an error. -/
def walRecord (e : Event) : Bytes := (marshalEvent e).getD []

/-- A WAL file made of the given records, each followed by a newline. -/
def walFile (recs : List Bytes) : Bytes := recs.flatMap (fun r => r ++ [10])

/-! ## Vocabulary of the claims about segments -/

/-- The bytes of the segment file `sstableWrite` leaves for `items` when no step fails. -/
def segFile (items : List Event) : Bytes :=
  (writeItems items).1.file ++ (writeItems items).1.buf

/-- A key that the text framing of a segment can carry: no tab and no newline. -/
def plainKey (k : Bytes) : Prop := ∀ x ∈ k, x ≠ 9 ∧ x ≠ 10

instance (k : Bytes) : Decidable (plainKey k) := by unfold plainKey; infer_instance

/-- The name `nextName` gives the segment number `i`. -/
def segName (i : Nat) : Bytes := fmtInt06 (i : Int) ++ B ".sst"

/-- The names of the segments 1 to `k`, oldest first. -/
def segNames (k : Nat) : List Bytes := (List.range k).map (fun i => segName (i + 1))

/-- The records `Replay` can scan in the segments the manifest lists, oldest segment first. -/
def segPart (s : LSMStore) (d : Disk) : List Event :=
  s.manifest.Segments.flatMap (scannedRecordsOf d)

/-- The events a store holds: the memtable's entries, then the records of its segments. -/
def stored (s : LSMStore) (d : Disk) : List Event := s.mem.data ++ segPart s d

/-! ## Vocabulary of the claims about the memtable -/

/-- What `upsert(e)` does to the entry `c` of the map: an event of the same key replaces it
unless its timestamp is lower. -/
def upsertEntry (c e : Event) : Event :=
  if e.Key = c.Key then (if e.TS ≥ c.TS then e else c) else c

/-! ## api/http.go: `parseRange` -/

/-- Errors of `parseRange`: a missing bound, a bound `strconv.ParseInt` rejects for its syntax
or for its range, and `to < from`. -/
inductive RangeError where
  | missing
  | notNumber
  | outOfRange
  | toBeforeFrom
deriving DecidableEq, Repr

/-- Function `strconv.ParseInt(s, 10, 64)`: an optional sign and one or more decimal digits;
a syntax error returns 0, a range error the nearest `int64`. The digit loop of `ParseUint`
reports the range error as soon as the digits read exceed the `uint64` range, before it looks at
the bytes after them. -/
def parseInt64 (s : Bytes) : Int × Option RangeError :=
  if s = [] then (0, some RangeError.notNumber)
  else
    let neg := decide (s.head? = some 45)
    let ds := if s.head? = some 43 ∨ s.head? = some 45 then s.tail else s
    if ds = [] then (0, some RangeError.notNumber)
    else if ds.all (fun c => decide (48 ≤ c.val ∧ c.val ≤ 57)) then
      if neg = false ∧ digitsVal ds ≥ 9223372036854775808 then
        (9223372036854775807, some RangeError.outOfRange)
      else if neg = true ∧ digitsVal ds > 9223372036854775808 then
        (-9223372036854775808, some RangeError.outOfRange)
      else (if neg then -(digitsVal ds : Int) else (digitsVal ds : Int), none)
    else if digitsVal (ds.takeWhile (fun c => decide (48 ≤ c.val ∧ c.val ≤ 57)))
        ≥ 18446744073709551616 then
      (if neg then -9223372036854775808 else 9223372036854775807, some RangeError.outOfRange)
    else (0, some RangeError.notNumber)

/-- Function `parseRange` of http.go. -/
def parseRange (fs ts : Bytes) : Int × Int × Option RangeError :=
  if fs = [] ∨ ts = [] then (0, 0, some RangeError.missing)
  else
    match parseInt64 fs with
    | (_, some err) => (0, 0, some err)
    | (f, none) =>
      match parseInt64 ts with
      | (_, some err) => (0, 0, some err)
      | (t, none) => if t < f then (0, 0, some RangeError.toBeforeFrom) else (f, t, none)

/-- The string `s` is the integer `n` written in decimal: an optional sign `+` or `-` followed
by one or more decimal digits. -/
def isNumeral (s : Bytes) (n : Int) : Prop :=
  ∃ ds : Bytes, ds ≠ [] ∧ (∀ c ∈ ds, 48 ≤ c.val ∧ c.val ≤ 57)
    ∧ ((s = ds ∧ n = (digitsVal ds : Int)) ∨ (s = 43 :: ds ∧ n = (digitsVal ds : Int))
      ∨ (s = 45 :: ds ∧ n = -(digitsVal ds : Int)))

/-! ## Histories of `Put`, `Close` and reopen -/

/-- An operation on a store and its data directory: a `Put`, a `Close`, or opening the directory
again with `NewLSMStore` (after a `Close`, or after a kill of the process) with the given
`memtable_max_items`. -/
inductive Op where
  | put (e : Event)
  | close
  | reopen (maxItems : Int)
deriving DecidableEq, Repr

/-- State of a history: the store, the directory, whether the store has been closed, and the
number of flushes that have written a segment so far. -/
structure Run where
  store : LSMStore
  disk : Disk
  closed : Bool
  flushes : Nat
deriving DecidableEq, Repr

/-- Whether `Put(e)` reaches `flushLocked`: the event is accepted and the memtable is full
after the upsert. -/
def putFlushes (s : LSMStore) (e : Event) : Bool :=
  !(decide (e.Key = [] ∨ e.TS = 0 ∨ e.Value.length = 0)) && (s.mem.upsert e).full

/-- One operation in which every I/O step succeeds. On a closed store `Put` and `Close` fail on
the closed WAL file, and an open that returns an error ends the history: these give `none`. -/
def step (st : Run) : Op → Option Run
  | Op.put e =>
    if st.closed then none
    else
      some { store := (Put st.store st.disk e noFail).1
             disk := (Put st.store st.disk e noFail).2.1
             closed := false
             flushes := st.flushes + (if putFlushes st.store e then 1 else 0) }
  | Op.close =>
    if st.closed then none
    else
      match Close st.store st.disk noFail with
      | (s1, d1, none) =>
        some { store := s1, disk := d1, closed := true
               flushes := st.flushes + (if st.store.mem.len > 0 then 1 else 0) }
      | (_, _, some _) => none
  | Op.reopen n =>
    match NewLSMStore { DataDir := st.store.opts.DataDir, MemtableMaxItems := n } st.disk noFail with
    | (d1, Except.ok s1) => some { store := s1, disk := d1, closed := false, flushes := st.flushes }
    | (_, Except.error _) => none

/-- A history: the operations in order, as long as each one succeeds. -/
def run (st : Run) : List Op → Option Run
  | [] => some st
  | op :: ops =>
    match step st op with
    | some st1 => run st1 ops
    | none => none

/-- C1 (evaluation at the failing input): on a fresh store with `memtable_max_items = 1`, the
first valid `Put` fills the memtable and flushes it; the `Get` of the same key that follows
finds nothing, because the sidecar offset recorded for the key is 0 and the line read there is
the header. -/
theorem get_after_flushing_put_not_found :
    NewLSMStore ⟨B "data", 1⟩ Disk.empty noFail = (freshDisk, Except.ok (freshStore ⟨B "data", 1⟩))
      ∧ (Put (freshStore ⟨B "data", 1⟩) freshDisk ⟨B "a", 1, B "\x7b\"v\":1\x7d"⟩ noFail).2.2 = none
      ∧ (Put (freshStore ⟨B "data", 1⟩) freshDisk ⟨B "a", 1, B "\x7b\"v\":1\x7d"⟩ noFail).2.1.idx
          = [(B "000001.sst", [(B "a", 0)])]
      ∧ Get (Put (freshStore ⟨B "data", 1⟩) freshDisk ⟨B "a", 1, B "\x7b\"v\":1\x7d"⟩ noFail).1
          (Put (freshStore ⟨B "data", 1⟩) freshDisk ⟨B "a", 1, B "\x7b\"v\":1\x7d"⟩ noFail).2.1 (B "a")
          = (Event.zero, false, none) :=
  ⟨rfl, by decide, by decide, by decide⟩

theorem flushLocked_noFail_ok (s : LSMStore) (d : Disk) : (flushLocked s d noFail).2.2 = none := by
  unfold flushLocked
  simp only [sstableWrite, walRotate, manifestSave, noFail]
  split <;> simp

/-- C9: with every I/O step succeeding, `Put` returns an error exactly for an empty key, a zero
timestamp or an empty value (so a negative timestamp is accepted), and a rejected `Put`
leaves the store and the directory (WAL, memtable, manifest) as they were, whatever the fault
oracle. -/
theorem put_rejects_exactly_invalid_events (s : LSMStore) (d : Disk) (e : Event) :
    ((Put s d e noFail).2.2 ≠ none ↔ (e.Key = [] ∨ e.TS = 0 ∨ e.Value = []))
      ∧ ((e.Key ≠ [] ∧ e.TS < 0 ∧ e.Value ≠ []) → (Put s d e noFail).2.2 = none)
      ∧ ((e.Key = [] ∨ e.TS = 0 ∨ e.Value = []) →
          ∀ fail, Put s d e fail = (s, d, some GoError.invalidEvent)) := by
  have hlen : e.Value.length = 0 ↔ e.Value = [] := List.length_eq_zero
  have hok : ¬ (e.Key = [] ∨ e.TS = 0 ∨ e.Value = []) → (Put s d e noFail).2.2 = none := by
    intro h
    unfold Put
    rw [if_neg (by rw [hlen]; exact h)]
    simp only [noFail, Bool.false_eq_true, if_false]
    split
    · exact flushLocked_noFail_ok _ _
    · rfl
  refine ⟨⟨?_, ?_⟩, ?_, ?_⟩
  · intro h
    by_contra hc
    exact h (hok hc)
  · intro h
    unfold Put
    rw [if_pos (by rw [hlen]; exact h)]
    simp
  · rintro ⟨hk, ht, hv⟩
    apply hok
    rintro (h | h | h)
    · exact hk h
    · omega
    · exact hv h
  · intro h fail
    unfold Put
    rw [if_pos (by rw [hlen]; exact h)]

/-- Witness for C9: a negative timestamp is accepted, at a concrete event. -/
theorem put_rejects_exactly_invalid_events_witness :
    (Put (freshStore ⟨B "data", 2⟩) freshDisk ⟨B "a", -5, B "1"⟩ noFail).2.2 = none :=
  (put_rejects_exactly_invalid_events (freshStore ⟨B "data", 2⟩) freshDisk ⟨B "a", -5, B "1"⟩).2.1
    ⟨by decide, by decide, by decide⟩

theorem snapshot_length (m : memtable) : m.snapshotSortedByKey.length = m.data.length := by
  unfold memtable.snapshotSortedByKey
  exact List.length_insertionSort _ _

/-- C10 (counterexample): after one `Put` on a fresh store with `memtable_max_items = 2`, a flush
whose manifest save fails returns an error although the memtable has been cleared and the WAL
truncated. -/
theorem flush_error_at_manifest_save_clears_memtable :
    (Put (freshStore ⟨B "data", 2⟩) freshDisk ⟨B "a", 1, B "1"⟩ noFail).1.mem.data
        = [⟨B "a", 1, B "1"⟩]
      ∧ (Put (freshStore ⟨B "data", 2⟩) freshDisk ⟨B "a", 1, B "1"⟩ noFail).2.1.wal
        = some (B "\x7b\"Key\":\"a\",\"TS\":1,\"Value\":1\x7d\n")
      ∧ (flushLocked (Put (freshStore ⟨B "data", 2⟩) freshDisk ⟨B "a", 1, B "1"⟩ noFail).1
          (Put (freshStore ⟨B "data", 2⟩) freshDisk ⟨B "a", 1, B "1"⟩ noFail).2.1
          failManifestSave).2.2 = some GoError.ioFailure
      ∧ (flushLocked (Put (freshStore ⟨B "data", 2⟩) freshDisk ⟨B "a", 1, B "1"⟩ noFail).1
          (Put (freshStore ⟨B "data", 2⟩) freshDisk ⟨B "a", 1, B "1"⟩ noFail).2.1
          failManifestSave).1.mem.data = []
      ∧ (flushLocked (Put (freshStore ⟨B "data", 2⟩) freshDisk ⟨B "a", 1, B "1"⟩ noFail).1
          (Put (freshStore ⟨B "data", 2⟩) freshDisk ⟨B "a", 1, B "1"⟩ noFail).2.1
          failManifestSave).2.1.wal = some [] := by
  decide

/-- C10 (amended): when `flushLocked` on a non-empty memtable returns an error, then (1) if the
failing step is the segment open or write, the sidecar write, or the flush or truncate of the WAL
rotation, the memtable is as before and the WAL file is unchanged; (2) otherwise the WAL has
already been truncated, and the memtable is as before if the seek of the rotation failed, and
has already been cleared if it is the manifest save that failed. -/
theorem flush_error_keeps_memtable_before_truncate (s : LSMStore) (d : Disk) (fail : IOStep → Bool)
    (hne : s.mem.data ≠ []) (herr : (flushLocked s d fail).2.2 ≠ none) :
    ((fail IOStep.segOpen = true ∨ fail IOStep.segWrite = true ∨ fail IOStep.idxWrite = true
        ∨ fail IOStep.walFlush = true ∨ fail IOStep.walTruncate = true) →
      (flushLocked s d fail).1.mem = s.mem ∧ (flushLocked s d fail).2.1.wal = d.wal)
    ∧ (¬ (fail IOStep.segOpen = true ∨ fail IOStep.segWrite = true ∨ fail IOStep.idxWrite = true
        ∨ fail IOStep.walFlush = true ∨ fail IOStep.walTruncate = true) →
      (flushLocked s d fail).2.1.wal = some []
        ∧ (fail IOStep.walSeek = true → (flushLocked s d fail).1.mem = s.mem)
        ∧ (fail IOStep.walSeek = false →
            fail IOStep.manifestSave = true ∧ (flushLocked s d fail).1.mem.data = [])) := by
  have hlen : ¬ (s.mem.snapshotSortedByKey.length = 0) := by
    rw [snapshot_length]
    intro h
    exact hne (List.length_eq_zero.mp h)
  unfold flushLocked at herr ⊢
  simp only [hlen, if_false] at herr ⊢
  simp only [sstableWrite, walRotate, manifestSave] at herr ⊢
  cases h1 : fail IOStep.segOpen <;> cases h2 : fail IOStep.segWrite <;>
    cases h3 : fail IOStep.idxWrite <;> cases h4 : fail IOStep.walFlush <;>
    cases h5 : fail IOStep.walTruncate <;> cases h6 : fail IOStep.walSeek <;>
    cases h7 : fail IOStep.manifestSave <;>
    simp [h1, h2, h3, h4, h5, h6, h7, memtable.clear] at herr ⊢

/-- Witness for C10 (amended): the flush after one `Put`, with the manifest save failing. -/
theorem flush_error_keeps_memtable_before_truncate_witness :
    (flushLocked (Put (freshStore ⟨B "data", 2⟩) freshDisk ⟨B "a", 1, B "1"⟩ noFail).1
        (Put (freshStore ⟨B "data", 2⟩) freshDisk ⟨B "a", 1, B "1"⟩ noFail).2.1
        failManifestSave).2.1.wal = some [] :=
  ((flush_error_keeps_memtable_before_truncate
      (Put (freshStore ⟨B "data", 2⟩) freshDisk ⟨B "a", 1, B "1"⟩ noFail).1
      (Put (freshStore ⟨B "data", 2⟩) freshDisk ⟨B "a", 1, B "1"⟩ noFail).2.1
      failManifestSave (by decide) (by decide)).2 (by decide)).1

/-! ### Memtable lemmas -/

theorem mapLookup_key {d : List Event} {k : Bytes} {x : Event} (h : mapLookup d k = some x) :
    x.Key = k ∧ x ∈ d := by
  induction d with
  | nil => simp [mapLookup] at h
  | cons y ys ih =>
    unfold mapLookup at h
    split at h
    · rename_i hk
      cases h
      exact ⟨hk, List.mem_cons_self _ _⟩
    · exact ⟨(ih h).1, List.mem_cons_of_mem _ (ih h).2⟩

theorem mapLookup_mapStore_same (d : List Event) (e : Event) :
    mapLookup (mapStore d e) e.Key = some e := by
  induction d with
  | nil => simp [mapStore, mapLookup]
  | cons y ys ih =>
    unfold mapStore
    split
    · simp [mapLookup]
    · rename_i hk
      simp [mapLookup, hk, ih]

theorem mapLookup_mapStore_other (d : List Event) (e : Event) (k : Bytes) (hk : k ≠ e.Key) :
    mapLookup (mapStore d e) k = mapLookup d k := by
  induction d with
  | nil => simp [mapStore, mapLookup, Ne.symm hk]
  | cons y ys ih =>
    unfold mapStore
    split
    · rename_i hy
      have : ¬ y.Key = k := fun h => hk (h.symm.trans hy)
      simp [mapLookup, Ne.symm hk, this]
    · by_cases hyk : y.Key = k
      · simp [mapLookup, hyk]
      · simp [mapLookup, hyk, ih]

theorem mem_mapStore {d : List Event} {e x : Event} (h : x ∈ mapStore d e) : x ∈ d ∨ x = e := by
  induction d with
  | nil => simp [mapStore] at h; exact Or.inr h
  | cons y ys ih =>
    unfold mapStore at h
    split at h
    · rcases List.mem_cons.mp h with h | h
      · exact Or.inr h
      · exact Or.inl (List.mem_cons_of_mem _ h)
    · rcases List.mem_cons.mp h with h | h
      · exact Or.inl (h ▸ List.mem_cons_self _ _)
      · rcases ih h with h | h
        · exact Or.inl (List.mem_cons_of_mem _ h)
        · exact Or.inr h

theorem mapStore_ne_nil (d : List Event) (e : Event) : mapStore d e ≠ [] := by
  cases d with
  | nil => simp [mapStore]
  | cons y ys => unfold mapStore; split <;> simp

theorem upsert_maxItems (m : memtable) (e : Event) : (m.upsert e).maxItems = m.maxItems := by
  unfold memtable.upsert
  split
  · rfl
  · split <;> rfl

theorem lookup_upsert_same (m : memtable) (e : Event) :
    mapLookup (m.upsert e).data e.Key =
      match mapLookup m.data e.Key with
      | none => some e
      | some cur => if e.TS ≥ cur.TS then some e else some cur := by
  unfold memtable.upsert
  cases h : mapLookup m.data e.Key with
  | none => simp [mapLookup_mapStore_same]
  | some cur =>
    by_cases ht : e.TS ≥ cur.TS
    · simp [ht, mapLookup_mapStore_same]
    · simp [ht, h]

theorem lookup_upsert_other (m : memtable) (e : Event) (k : Bytes) (hk : k ≠ e.Key) :
    mapLookup (m.upsert e).data k = mapLookup m.data k := by
  unfold memtable.upsert
  split
  · exact mapLookup_mapStore_other _ _ _ hk
  · split
    · exact mapLookup_mapStore_other _ _ _ hk
    · rfl

theorem mem_upsert {m : memtable} {e x : Event} (h : x ∈ (m.upsert e).data) :
    x ∈ m.data ∨ x = e := by
  unfold memtable.upsert at h
  split at h
  · exact mem_mapStore h
  · split at h
    · exact mem_mapStore h
    · exact Or.inl h

theorem upsert_data_ne_nil (m : memtable) (e : Event) : (m.upsert e).data ≠ [] := by
  unfold memtable.upsert
  cases h : mapLookup m.data e.Key with
  | none => exact mapStore_ne_nil _ _
  | some cur =>
    by_cases ht : e.TS ≥ cur.TS
    · simp only [ht, if_true]; exact mapStore_ne_nil _ _
    · simp only [ht, if_false]
      intro hnil
      rw [hnil] at h
      simp [mapLookup] at h

theorem lookup_foldl_upsert_other (L : List Event) (m : memtable) (k : Bytes)
    (h : ∀ x ∈ L, x.Key ≠ k) :
    mapLookup (L.foldl memtable.upsert m).data k = mapLookup m.data k := by
  induction L generalizing m with
  | nil => rfl
  | cons y ys ih =>
    simp only [List.foldl_cons]
    rw [ih _ (fun x hx => h x (List.mem_cons_of_mem _ hx))]
    exact lookup_upsert_other _ _ _ (Ne.symm (h y (List.mem_cons_self _ _)))

/-! ### `Put` and `putAll` when every I/O step succeeds -/

/-- A successful flush of a non-empty memtable: memtable cleared, one name appended. -/
theorem flushLocked_noFail (s : LSMStore) (d : Disk) (hne : s.mem.data ≠ []) :
    (flushLocked s d noFail).1.mem.data = []
      ∧ (flushLocked s d noFail).1.manifest.Segments = s.manifest.Segments ++ [s.manifest.nextName]
      ∧ (flushLocked s d noFail).2.2 = none := by
  have hlen : ¬ (s.mem.snapshotSortedByKey.length = 0) := by
    rw [snapshot_length]
    intro h
    exact hne (List.length_eq_zero.mp h)
  unfold flushLocked
  simp [hlen, sstableWrite, walRotate, manifestSave, noFail, memtable.clear, manifest.Add]

/-- What a `Put` without I/O failure does: an error without effect for an invalid event;
otherwise an upsert, followed by a flush that adds one segment name when the memtable is full. -/
theorem Put_noFail_cases (s : LSMStore) (d : Disk) (e : Event) :
    (¬ validEvent e ∧ Put s d e noFail = (s, d, some GoError.invalidEvent))
    ∨ (validEvent e ∧ (Put s d e noFail).2.2 = none
        ∧ (Put s d e noFail).1.mem = s.mem.upsert e
        ∧ (Put s d e noFail).1.manifest = s.manifest
        ∧ (Put s d e noFail).2.1 = { d with wal := some (walAppend (d.wal.getD []) e) })
    ∨ (validEvent e ∧ (Put s d e noFail).2.2 = none
        ∧ (Put s d e noFail).1.mem.data = []
        ∧ (Put s d e noFail).1.manifest.Segments = s.manifest.Segments ++ [s.manifest.nextName]) := by
  have hlen : e.Value.length = 0 ↔ e.Value = [] := List.length_eq_zero
  by_cases hv : validEvent e
  · right
    have hinv : ¬ (e.Key = [] ∨ e.TS = 0 ∨ e.Value.length = 0) := by
      rw [hlen]
      rintro (h | h | h)
      · exact hv.1 h
      · exact hv.2.1 h
      · exact hv.2.2 h
    unfold Put
    rw [if_neg hinv]
    simp only [noFail, Bool.false_eq_true, if_false]
    by_cases hf : (s.mem.upsert e).full = true
    · right
      simp only [hf, if_true]
      have := flushLocked_noFail { s with mem := s.mem.upsert e }
        { d with wal := some (walAppend (d.wal.getD []) e) } (upsert_data_ne_nil _ _)
      exact ⟨hv, this.2.2, this.1, this.2.1⟩
    · left
      rw [if_neg hf]
      exact ⟨hv, rfl, rfl, rfl, rfl⟩
  · left
    refine ⟨hv, ?_⟩
    have hinv : (e.Key = [] ∨ e.TS = 0 ∨ e.Value.length = 0) := by
      rw [hlen]
      unfold validEvent at hv
      by_contra hc
      push_neg at hc
      exact hv hc
    unfold Put
    rw [if_pos hinv]

theorem putAll_cons_ok {s s' : LSMStore} {d d' : Disk} {e : Event} {es : List Event}
    (h : putAll s d (e :: es) = (s', d', none)) :
    (Put s d e noFail).2.2 = none
      ∧ putAll (Put s d e noFail).1 (Put s d e noFail).2.1 es = (s', d', none) := by
  unfold putAll at h
  split at h
  · rename_i s1 d1 hp
    rw [hp]
    exact ⟨rfl, h⟩
  · simp at h

theorem putAll_append_ok {s s' : LSMStore} {d d' : Disk} {L1 L2 : List Event}
    (h : putAll s d (L1 ++ L2) = (s', d', none)) :
    (putAll s d L1).2.2 = none
      ∧ putAll (putAll s d L1).1 (putAll s d L1).2.1 L2 = (s', d', none) := by
  induction L1 generalizing s d with
  | nil => exact ⟨rfl, h⟩
  | cons e es ih =>
    have hc := putAll_cons_ok (List.cons_append _ _ _ ▸ h)
    have hi := ih hc.2
    have hstep : putAll s d (e :: es) = putAll (Put s d e noFail).1 (Put s d e noFail).2.1 es := by
      conv_lhs => unfold putAll
      have h3 : Put s d e noFail = ((Put s d e noFail).1, (Put s d e noFail).2.1, none) := by
        rw [← hc.1]
      rw [h3]
  
    rw [hstep]
    exact hi

theorem Put_ok_segments_le {s : LSMStore} {d : Disk} {e : Event}
    (_h : (Put s d e noFail).2.2 = none) :
    s.manifest.Segments.length ≤ (Put s d e noFail).1.manifest.Segments.length := by
  rcases Put_noFail_cases s d e with h | h | h
  · rw [h.2]
  · rw [h.2.2.2.1]
  · rw [h.2.2.2]; simp

theorem putAll_segments_le {s s' : LSMStore} {d d' : Disk} {L : List Event}
    (h : putAll s d L = (s', d', none)) :
    s.manifest.Segments.length ≤ s'.manifest.Segments.length := by
  induction L generalizing s d with
  | nil => simp [putAll] at h; rw [h.1]
  | cons e es ih =>
    have hc := putAll_cons_ok h
    exact le_trans (Put_ok_segments_le hc.1) (ih hc.2)

/-- Without a flush, a run of successful `Put`s is the run of their upserts. -/
theorem putAll_no_flush {s s' : LSMStore} {d d' : Disk} {L : List Event}
    (h : putAll s d L = (s', d', none))
    (hseg : s'.manifest.Segments.length = s.manifest.Segments.length) :
    s'.mem = L.foldl memtable.upsert s.mem ∧ s'.manifest = s.manifest := by
  induction L generalizing s d with
  | nil => simp [putAll] at h; simp [h.1]
  | cons e es ih =>
    have hc := putAll_cons_ok h
    have hle2 := putAll_segments_le hc.2
    have hle1 := Put_ok_segments_le hc.1
    rcases Put_noFail_cases s d e with hp | hp | hp
    · rw [hp.2] at hc; simp at hc
    · have hi := ih hc.2 (by rw [hp.2.2.2.1]; exact hseg)
      rw [hp.2.2.1, hp.2.2.2.1] at hi
      exact hi
    · exfalso
      rw [hp.2.2.2] at hle2
      simp at hle2
      omega

/-- Every memtable entry after a run of `Put`s was in the memtable before or is one of the events. -/
theorem putAll_mem_sub {s s' : LSMStore} {d d' : Disk} {L : List Event}
    (h : putAll s d L = (s', d', none)) :
    ∀ x ∈ s'.mem.data, x ∈ s.mem.data ∨ x ∈ L := by
  induction L generalizing s d with
  | nil => simp [putAll] at h; intro x hx; rw [← h.1] at hx; exact Or.inl hx
  | cons e es ih =>
    have hc := putAll_cons_ok h
    intro x hx
    rcases ih hc.2 x hx with h1 | h1
    · rcases Put_noFail_cases s d e with hp | hp | hp
      · rw [hp.2] at hc; simp at hc
      · rw [hp.2.2.1] at h1
        rcases mem_upsert h1 with h2 | h2
        · exact Or.inl h2
        · exact Or.inr (h2 ▸ List.mem_cons_self _ _)
      · rw [hp.2.2.1] at h1; simp at h1
    · exact Or.inr (List.mem_cons_of_mem _ h1)

/-- The store and directory of a first open: `NewLSMStore` on an empty directory. -/
theorem NewLSMStore_empty {opts : Options} {d0 : Disk} {s0 : LSMStore}
    (h : NewLSMStore opts Disk.empty noFail = (d0, Except.ok s0)) :
    d0 = freshDisk ∧ s0.mem.data = [] ∧ s0.manifest.Segments = []
      ∧ s0.opts.MemtableMaxItems = s0.mem.maxItems
      ∧ (1 ≤ opts.MemtableMaxItems → s0 = freshStore opts) := by
  have hw : walReplay ([] : Bytes) = ([], none) := by decide
  unfold NewLSMStore at h
  simp only [noFail, loadOrCreateManifest, openWAL, Disk.empty, Bool.false_eq_true, if_false,
    Option.getD_some, hw, List.foldl_nil] at h
  by_cases hdir : (if opts.MemtableMaxItems ≤ 0 then
      ({ opts with MemtableMaxItems := 50000 } : Options) else opts).DataDir = []
  · rw [if_pos hdir] at h
    simp at h
  · rw [if_neg hdir] at h
    simp only [Prod.mk.injEq, Except.ok.injEq] at h
    obtain ⟨h1, h2⟩ := h
    subst h2
    refine ⟨h1.symm, rfl, rfl, rfl, ?_⟩
    intro hN
    have : ¬ opts.MemtableMaxItems ≤ 0 := by omega
    simp [freshStore, this]

theorem Get_of_mem {s : LSMStore} {d : Disk} {k : Bytes} {x : Event}
    (h : mapLookup s.mem.data k = some x) : Get s d k = (x, true, none) := by
  simp [Get, memtable.get, h]

/-- C2 (counterexample): with `memtable_max_items = 2`, `Put{a,5}`, `Put{b,1}` (this one
flushes both to a segment), `Put{a,3}` all succeed on a fresh store, and `Get("a")` returns the
event with timestamp 3 from the memtable, not the one with the higher timestamp 5. -/
theorem get_prefers_memtable_over_flushed_higher_ts :
    NewLSMStore ⟨B "data", 2⟩ Disk.empty noFail = (freshDisk, Except.ok (freshStore ⟨B "data", 2⟩))
      ∧ (putAll (freshStore ⟨B "data", 2⟩) freshDisk
          [⟨B "a", 5, B "1"⟩, ⟨B "b", 1, B "2"⟩, ⟨B "a", 3, B "3"⟩]).2.2 = none
      ∧ Get (putAll (freshStore ⟨B "data", 2⟩) freshDisk
            [⟨B "a", 5, B "1"⟩, ⟨B "b", 1, B "2"⟩, ⟨B "a", 3, B "3"⟩]).1
          (putAll (freshStore ⟨B "data", 2⟩) freshDisk
            [⟨B "a", 5, B "1"⟩, ⟨B "b", 1, B "2"⟩, ⟨B "a", 3, B "3"⟩]).2.1 (B "a")
          = (⟨B "a", 3, B "3"⟩, true, none) :=
  ⟨rfl, by decide, by decide⟩

/-- C2 (amended): on a freshly opened store, let `e1` and then `e2` be `Put` for the same key,
with successful `Put`s of other keys before, between and after them, and suppose that neither
`Put(e2)` nor a later `Put` flushes. Then `Get(key)` returns `e2` if `e2.TS ≥ e1.TS` or if `e1` was
no longer in the memtable when `e2` arrived (it had been flushed), and `e1` otherwise. -/
theorem get_after_two_puts_same_key (opts : Options) (d0 : Disk) (s0 sb s : LSMStore) (db d : Disk)
    (L0 L1 L2 : List Event) (e1 e2 : Event)
    (hopen : NewLSMStore opts Disk.empty noFail = (d0, Except.ok s0))
    (hkey : e1.Key = e2.Key)
    (hother : ∀ x ∈ L0 ++ L1 ++ L2, x.Key ≠ e1.Key)
    (hb : putAll s0 d0 (L0 ++ e1 :: L1) = (sb, db, none))
    (hs : putAll sb db (e2 :: L2) = (s, d, none))
    (hnf : s.manifest = sb.manifest) :
    Get s d e1.Key
      = (if e2.TS ≥ e1.TS ∨ (sb.mem.get e1.Key).2 = false then e2 else e1, true, none) := by
  have hmem := (putAll_no_flush hs (by rw [hnf])).1
  have hL2 : ∀ x ∈ L2, x.Key ≠ e1.Key := fun x hx => hother x (by simp [hx])
  have hlook : mapLookup s.mem.data e1.Key = mapLookup (sb.mem.upsert e2).data e2.Key := by
    rw [hmem, List.foldl_cons, lookup_foldl_upsert_other L2 _ _ hL2, hkey]
  rw [lookup_upsert_same] at hlook
  have hsub := putAll_mem_sub hb
  have he0 := (NewLSMStore_empty hopen).2.1
  cases hsb : mapLookup sb.mem.data e2.Key with
  | none =>
    rw [hsb] at hlook
    have : (sb.mem.get e1.Key).2 = false := by simp [memtable.get, hkey, hsb]
    rw [Get_of_mem hlook]
    simp [this]
  | some cur =>
    rw [hsb] at hlook
    have hcur := mapLookup_key hsb
    have hcur1 : cur = e1 := by
      rcases hsub cur hcur.2 with h | h
      · rw [he0] at h; simp at h
      · rcases List.mem_append.mp h with h | h
        · exact absurd (hcur.1.trans hkey.symm) (hother cur (by simp [h]))
        · rcases List.mem_cons.mp h with h | h
          · exact h
          · exact absurd (hcur.1.trans hkey.symm) (hother cur (by simp [h]))
    have : (sb.mem.get e1.Key).2 = true := by simp [memtable.get, hkey, hsb]
    subst hcur1
    by_cases ht : e2.TS ≥ cur.TS
    · simp only [ht, if_true] at hlook
      rw [Get_of_mem hlook]
      simp [ht]
    · simp only [ht, if_false] at hlook
      rw [Get_of_mem hlook]
      simp [ht, this]

/-- Witness for C2 (amended): `Put{a,5}`, `Put{b,1}`, `Put{a,3}` with `memtable_max_items = 3`
(no flush): `Get("a")` returns the event with timestamp 5. -/
theorem get_after_two_puts_same_key_witness :
    Get (putAll (freshStore ⟨B "data", 3⟩) freshDisk
          [⟨B "a", 5, B "1"⟩, ⟨B "b", 1, B "2"⟩, ⟨B "a", 3, B "3"⟩]).1
        (putAll (freshStore ⟨B "data", 3⟩) freshDisk
          [⟨B "a", 5, B "1"⟩, ⟨B "b", 1, B "2"⟩, ⟨B "a", 3, B "3"⟩]).2.1 (B "a")
      = (⟨B "a", 5, B "1"⟩, true, none) :=
  get_after_two_puts_same_key ⟨B "data", 3⟩ freshDisk (freshStore ⟨B "data", 3⟩)
    (putAll (freshStore ⟨B "data", 3⟩) freshDisk [⟨B "a", 5, B "1"⟩, ⟨B "b", 1, B "2"⟩]).1
    (putAll (freshStore ⟨B "data", 3⟩) freshDisk
          [⟨B "a", 5, B "1"⟩, ⟨B "b", 1, B "2"⟩, ⟨B "a", 3, B "3"⟩]).1
    (putAll (freshStore ⟨B "data", 3⟩) freshDisk [⟨B "a", 5, B "1"⟩, ⟨B "b", 1, B "2"⟩]).2.1
    (putAll (freshStore ⟨B "data", 3⟩) freshDisk
          [⟨B "a", 5, B "1"⟩, ⟨B "b", 1, B "2"⟩, ⟨B "a", 3, B "3"⟩]).2.1
    [] [⟨B "b", 1, B "2"⟩] [] ⟨B "a", 5, B "1"⟩ ⟨B "a", 3, B "3"⟩
    rfl rfl (by decide) (by decide) (by decide) (by decide)

/-- C8 (evaluation at the failing input): `sstableWrite` of two events succeeds and writes their
records at offsets 5 and 14 of the segment file, but the sidecar holds offset 0 for both keys, so
`sstableGet` reads the header line and reports not-found for a key that is in the segment. -/
theorem sstableGet_misses_written_key :
    sstableWrite freshDisk (B "000001.sst") [⟨B "a", 1, B "A"⟩, ⟨B "b", 2, B "B"⟩] noFail
        = ({ freshDisk with
              sst := [(B "000001.sst", B "SST1\na\t1\tQQ==\nb\t2\tQg==\n")]
              idx := [(B "000001.sst", [(B "a", 0), (B "b", 0)])] }, none)
      ∧ sstableGet (sstableWrite freshDisk (B "000001.sst")
            [⟨B "a", 1, B "A"⟩, ⟨B "b", 2, B "B"⟩] noFail).1 (B "000001.sst") (B "a")
          = (Event.zero, false, none)
      ∧ sstableGet (sstableWrite freshDisk (B "000001.sst")
            [⟨B "a", 1, B "A"⟩, ⟨B "b", 2, B "B"⟩] noFail).1 (B "000001.sst") (B "b")
          = (Event.zero, false, none) := by
  decide

/-- C4 (evaluation at the failing input): `Put(e)`, `Close`, reopen on the same directory all
succeed, the reopened store lists the segment `000001.sst`, and `Get(e.Key)` finds nothing. -/
theorem get_after_close_and_reopen_not_found :
    (Put (freshStore ⟨B "data", 10⟩) freshDisk ⟨B "a", 1, B "\x7b\"v\":1\x7d"⟩ noFail).2.2 = none
      ∧ (Close (Put (freshStore ⟨B "data", 10⟩) freshDisk ⟨B "a", 1, B "\x7b\"v\":1\x7d"⟩ noFail).1
          (Put (freshStore ⟨B "data", 10⟩) freshDisk ⟨B "a", 1, B "\x7b\"v\":1\x7d"⟩ noFail).2.1
          noFail).2.2 = none
      ∧ NewLSMStore ⟨B "data", 10⟩
          (Close (Put (freshStore ⟨B "data", 10⟩) freshDisk ⟨B "a", 1, B "\x7b\"v\":1\x7d"⟩ noFail).1
            (Put (freshStore ⟨B "data", 10⟩) freshDisk ⟨B "a", 1, B "\x7b\"v\":1\x7d"⟩ noFail).2.1
            noFail).2.1 noFail
          = ({ manifest := some [B "000001.sst"], wal := some []
               sst := [(B "000001.sst", B "SST1\na\t1\teyJ2IjoxfQ==\n")]
               idx := [(B "000001.sst", [(B "a", 0)])] },
             Except.ok ⟨⟨B "data", 10⟩, ⟨10, []⟩, ⟨[B "000001.sst"]⟩⟩)
      ∧ Get ⟨⟨B "data", 10⟩, ⟨10, []⟩, ⟨[B "000001.sst"]⟩⟩
          { manifest := some [B "000001.sst"], wal := some []
            sst := [(B "000001.sst", B "SST1\na\t1\teyJ2IjoxfQ==\n")]
            idx := [(B "000001.sst", [(B "a", 0)])] } (B "a")
          = (Event.zero, false, none) :=
  ⟨by decide, by decide, rfl, by decide⟩

/-! ### The orders of the two sorts -/

theorem keyLt_irrefl (a : Bytes) : keyLt a a = false := by
  induction a with
  | nil => rfl
  | cons x xs ih => simp [keyLt, ih]

theorem keyLt_trichotomy (a b : Bytes) :
    (keyLt a b = true ∧ keyLt b a = false) ∨ (a = b) ∨ (keyLt a b = false ∧ keyLt b a = true) := by
  induction a generalizing b with
  | nil =>
    cases b with
    | nil => exact Or.inr (Or.inl rfl)
    | cons y ys => exact Or.inl ⟨rfl, rfl⟩
  | cons x xs ih =>
    cases b with
    | nil => exact Or.inr (Or.inr ⟨rfl, rfl⟩)
    | cons y ys =>
      rcases Nat.lt_trichotomy x.val y.val with h | h | h
      · left
        have h2 : ¬ y.val < x.val := by omega
        simp [keyLt, h, h2]
      · have hxy : x = y := Fin.ext h
        subst hxy
        rcases ih ys with h1 | h1 | h1
        · left; simp [keyLt, h1]
        · right; left; rw [h1]
        · right; right; simp [keyLt, h1]
      · right; right
        have h2 : ¬ x.val < y.val := by omega
        simp [keyLt, h, h2]

theorem keyLt_trans {a b c : Bytes} (h1 : keyLt a b = true) (h2 : keyLt b c = true) :
    keyLt a c = true := by
  induction a generalizing b c with
  | nil =>
    cases c with
    | nil => cases b <;> simp [keyLt] at h2
    | cons z zs => rfl
  | cons x xs ih =>
    cases b with
    | nil => simp [keyLt] at h1
    | cons y ys =>
      cases c with
      | nil => simp [keyLt] at h2
      | cons z zs =>
        simp only [keyLt] at h1 h2 ⊢
        by_cases hxy : x.val < y.val
        · by_cases hyz : y.val < z.val
          · have : x.val < z.val := by omega
            simp [this]
          · by_cases hzy : z.val < y.val
            · simp [hyz, hzy] at h2
            · have : x.val < z.val := by omega
              simp [this]
        · by_cases hyx : y.val < x.val
          · simp [hxy, hyx] at h1
          · simp only [hxy, hyx, if_false] at h1
            by_cases hyz : y.val < z.val
            · have : x.val < z.val := by omega
              simp [this]
            · by_cases hzy : z.val < y.val
              · simp [hyz, hzy] at h2
              · simp only [hyz, hzy, if_false] at h2
                have h3 : ¬ x.val < z.val := by omega
                have h4 : ¬ z.val < x.val := by omega
                simp only [h3, h4, if_false]
                exact ih h1 h2

theorem keyLt_asymm {a b : Bytes} (h : keyLt a b = true) : keyLt b a = false := by
  rcases keyLt_trichotomy a b with h1 | h1 | h1
  · exact h1.2
  · subst h1; rw [keyLt_irrefl] at h; cases h
  · rw [h1.1] at h; cases h

/-- The order of `sortByTS`, spelled out: smaller timestamp first, ties by key. -/
theorem tsLe_iff (a b : Event) :
    tsLe a b ↔ a.TS < b.TS ∨ (a.TS = b.TS ∧ keyLt b.Key a.Key = false) := by
  unfold tsLe tsLess
  by_cases h : b.TS = a.TS
  · simp [h]
  · simp only [h, if_false, decide_eq_false_iff_not, not_lt]
    constructor
    · intro h1; left; omega
    · rintro (h1 | h1)
      · omega
      · exact absurd h1.1.symm h

theorem keyLe_false_trans {a b c : Bytes} (h1 : keyLt b a = false) (h2 : keyLt c b = false) :
    keyLt c a = false := by
  by_contra hc
  have hca : keyLt c a = true := by simpa using hc
  rcases keyLt_trichotomy a b with h | h | h
  · have := keyLt_trans hca h.1
    rw [this] at h2; cases h2
  · subst h; rw [hca] at h2; cases h2
  · rw [h.2] at h1; cases h1

theorem tsLe_total (a b : Event) : tsLe a b ∨ tsLe b a := by
  rw [tsLe_iff, tsLe_iff]
  rcases lt_trichotomy a.TS b.TS with h | h | h
  · exact Or.inl (Or.inl h)
  · rcases keyLt_trichotomy a.Key b.Key with h1 | h1 | h1
    · exact Or.inl (Or.inr ⟨h, h1.2⟩)
    · exact Or.inl (Or.inr ⟨h, by rw [h1]; exact keyLt_irrefl _⟩)
    · exact Or.inr (Or.inr ⟨h.symm, h1.1⟩)
  · exact Or.inr (Or.inl h)

theorem tsLe_trans (a b c : Event) : tsLe a b → tsLe b c → tsLe a c := by
  rw [tsLe_iff, tsLe_iff, tsLe_iff]
  rintro (h1 | h1) (h2 | h2)
  · left; omega
  · left; omega
  · left; omega
  · right; exact ⟨h1.1.trans h2.1, keyLe_false_trans h1.2 h2.2⟩

theorem sortByTS_sorted (v : List Event) : List.Sorted tsLe (sortByTS v) := by
  haveI : IsTotal Event tsLe := ⟨tsLe_total⟩
  haveI : IsTrans Event tsLe := ⟨tsLe_trans⟩
  exact List.sorted_insertionSort tsLe v

theorem sortByTS_perm (v : List Event) : (sortByTS v).Perm v :=
  List.perm_insertionSort tsLe v

/-! ### Reading a segment line by line -/

theorem linesOf_eq_nil {data : Bytes} (h : linesOf data = []) : data = [] := by
  cases data with
  | nil => rfl
  | cons c cs =>
    unfold linesOf at h
    split at h
    · simp at h
    · split at h <;> simp at h

/-- What `ReadString` returns, in terms of the lines of the unread bytes. -/
theorem readString_spec (data : Bytes) (hne : data ≠ []) :
    ∃ content rest, (∀ c ∈ content, c ≠ 10) ∧ linesOf data = content :: linesOf rest
      ∧ rest.length < data.length
      ∧ ((readString data = (content ++ [10], rest, false))
          ∨ (readString data = (content, rest, true) ∧ content ≠ [] ∧ rest = [])) := by
  induction data with
  | nil => exact absurd rfl hne
  | cons c cs ih =>
    by_cases hc : c = 10
    · refine ⟨[], cs, by simp, ?_, by simp, Or.inl ?_⟩
      · simp [linesOf, hc]
      · simp [readString, hc]
    · by_cases hcs : cs = []
      · subst hcs
        refine ⟨[c], [], by simpa using hc, ?_, by simp, Or.inr ⟨?_, by simp, rfl⟩⟩
        · simp [linesOf, hc]
        · simp [readString, hc]
      · obtain ⟨content, rest, h1, h2, h3, h4⟩ := ih hcs
        refine ⟨c :: content, rest, ?_, ?_, ?_, ?_⟩
        · intro x hx
          rcases List.mem_cons.mp hx with h | h
          · rw [h]; exact hc
          · exact h1 x h
        · simp [linesOf, hc, h2]
        · simp; omega
        · rcases h4 with h4 | h4
          · left; simp [readString, hc, h4]
          · right; simp [readString, hc, h4.1, h4.2.2]

theorem dropWhile_nl_reverse (content : Bytes) (h : ∀ c ∈ content, c ≠ 10) :
    (content.reverse.dropWhile (fun c => decide (c = 10))) = content.reverse := by
  cases hr : content.reverse with
  | nil => rfl
  | cons x xs =>
    have hx : x ∈ content := by
      have : x ∈ content.reverse := by rw [hr]; exact List.mem_cons_self _ _
      exact List.mem_reverse.mp this
    simp [List.dropWhile, h x hx]

theorem trimRightNL_content (content : Bytes) (h : ∀ c ∈ content, c ≠ 10) :
    trimRightNL content = content := by
  unfold trimRightNL
  rw [dropWhile_nl_reverse content h, List.reverse_reverse]

theorem trimRightNL_line (content : Bytes) (h : ∀ c ∈ content, c ≠ 10) :
    trimRightNL (content ++ [10]) = content := by
  unfold trimRightNL
  rw [List.reverse_append]
  simp only [List.reverse_cons, List.reverse_nil, List.nil_append, List.singleton_append,
    List.dropWhile_cons, decide_True, if_true]
  rw [dropWhile_nl_reverse content h, List.reverse_reverse]

/-- The records the loop of `sstableRangeTS` collects: those in range among the decodable lines
before the first empty line. -/
theorem scanLoop_eq (lo hi : Int) (fuel : Nat) (data : Bytes) (out : List Event)
    (hfuel : data.length < fuel) :
    scanLoop lo hi fuel data out
      = out ++ (((linesOf data).takeWhile (fun l => decide (l ≠ []))).filterMap decodeLine).filter
          (inRange lo hi) := by
  induction fuel generalizing data out with
  | zero => omega
  | succ fuel ih =>
    by_cases hd : data = []
    · subst hd
      simp [scanLoop, readString, linesOf]
    · obtain ⟨content, rest, h1, h2, h3, h4⟩ := readString_spec data hd
      have hrec : ∀ out1, scanLoop lo hi fuel rest out1 = out1 ++
          (((linesOf rest).takeWhile (fun l => decide (l ≠ []))).filterMap decodeLine).filter
            (inRange lo hi) := fun out1 => ih rest out1 (by omega)
      have hline : ∀ line eof, readString data = (line, rest, eof) →
          trimRightNL line = content → (eof && decide (line.length = 0)) = false →
          scanLoop lo hi (fuel + 1) data out = out ++
            (((linesOf data).takeWhile (fun l => decide (l ≠ []))).filterMap decodeLine).filter
              (inRange lo hi) := by
        intro line eof hrs htrim hnot
        unfold scanLoop
        rw [hrs]
        simp only [hnot, Bool.false_eq_true, if_false, htrim]
        rw [h2]
        by_cases hce : content = []
        · simp [hce]
        · simp only [hce, if_false, List.takeWhile_cons, ne_eq, not_false_eq_true,
            decide_True, if_true, List.filterMap_cons]
          cases hp : tryParseLine content with
          | mk ev r =>
            cases r with
            | mk ok err =>
              cases ok with
              | true =>
                have hdl : decodeLine content = some ev := by simp [decodeLine, hp]
                simp only [hdl, List.filter_cons]
                by_cases hr : ev.TS ≥ lo ∧ ev.TS ≤ hi
                · have hin : inRange lo hi ev = true := by simp [inRange, hr.1, hr.2]
                  simp only [hr, and_self, if_true, hrec, hin]
                  simp
                · have hin : inRange lo hi ev = false := by
                    unfold inRange
                    rw [Bool.and_eq_false_iff]
                    by_cases h5 : lo ≤ ev.TS
                    · right
                      simp only [decide_eq_false_iff_not]
                      exact fun h6 => hr ⟨h5, h6⟩
                    · left; simpa using h5
                  simp only [hr, if_false, hrec, hin]
                  simp
              | false =>
                have hdl : decodeLine content = none := by simp [decodeLine, hp]
                simp only [hdl, hrec]
      rcases h4 with h4 | h4
      · exact hline _ _ h4 (trimRightNL_line content h1) (by simp)
      · refine hline _ _ h4.1 (trimRightNL_content content h1) ?_
        have : content.length ≠ 0 := fun h => h4.2.1 (List.length_eq_zero.mp h)
        simp [this]

/-- The events a segment contributes to a `Replay`: the records of `sstableRangeTS`, or nothing
when it returns an error. -/
theorem sstableRangeTS_perm (d : Disk) (f : Bytes) (lo hi : Int) :
    ((sstableRangeTS d f lo hi).2 = none →
        (sstableRangeTS d f lo hi).1.Perm ((scannedRecordsOf d f).filter (inRange lo hi)))
      ∧ ((sstableRangeTS d f lo hi).2 ≠ none →
        (scannedRecordsOf d f).filter (inRange lo hi) = []) := by
  unfold sstableRangeTS scannedRecordsOf
  cases hf : fileRead d.sst f with
  | none => simp
  | some data =>
    simp only
    by_cases hd : data = []
    · subst hd
      simp [readString, scannedRecords, linesOf]
    · obtain ⟨content, rest, h1, h2, h3, h4⟩ := readString_spec data hd
      rcases h4 with h4 | h4
      · rw [h4]
        simp only [ne_eq, not_true_eq_false, false_implies, and_true, true_implies]
        refine (sortByTS_perm _).trans ?_
        rw [scanLoop_eq lo hi _ rest [] (by omega)]
        simp [scannedRecords, h2]
      · rw [h4.1]
        simp [scannedRecords, h2, h4.2.2, linesOf]

theorem replayGather_perm (d : Disk) (lo hi : Int) (segs : List Bytes) (acc : List Event) :
    (replayGather d lo hi segs acc).Perm
      (acc ++ (segs.flatMap (scannedRecordsOf d)).filter (inRange lo hi)) := by
  induction segs generalizing acc with
  | nil => simp [replayGather]
  | cons f fs ih =>
    have hp := sstableRangeTS_perm d f lo hi
    unfold replayGather
    rw [List.flatMap_cons, List.filter_append]
    cases hr : sstableRangeTS d f lo hi with
    | mk evs err =>
      rw [hr] at hp
      cases err with
      | none =>
        simp only
        refine (ih _).trans ?_
        rw [List.append_assoc]
        exact List.Perm.append_left _ (List.Perm.append_right _ (hp.1 rfl))
      | some e =>
        simp only
        rw [hp.2 (by simp)]
        simpa using ih acc

/-- The sequence of `Replay` as a multiset: the events in range among the memtable's entries and
the scanned records of the listed segments. -/
theorem Replay_perm (s : LSMStore) (d : Disk) (lo hi : Int) :
    (Replay s d lo hi).Perm
      ((s.mem.data ++ s.manifest.Segments.flatMap (scannedRecordsOf d)).filter (inRange lo hi)) := by
  unfold Replay
  refine (sortByTS_perm _).trans ((replayGather_perm _ _ _ _ _).trans ?_)
  rw [List.filter_append]
  refine List.Perm.append_right _ ?_
  unfold memtable.rangeByTS
  refine (sortByTS_perm _).trans ?_
  have : (fun e : Event => decide (e.TS ≥ lo) && decide (e.TS ≤ hi)) = inRange lo hi := by
    funext e; simp [inRange]
  rw [this]

/-- The sequence of `Replay` is ascending by timestamp, ties ascending by key. -/
theorem Replay_pairwise (s : LSMStore) (d : Disk) (lo hi : Int) :
    List.Pairwise (fun a b => a.TS < b.TS ∨ (a.TS = b.TS ∧ keyLt b.Key a.Key = false))
      (Replay s d lo hi) := by
  have hs : List.Sorted tsLe (Replay s d lo hi) := sortByTS_sorted _
  exact List.Pairwise.imp (fun {a b} h => (tsLe_iff a b).mp h) hs

/-- C6 (amended): for every store state and range, the complete sequence delivered by `Replay`
is in ascending timestamp order with ties in ascending key order, and is, as a multiset, exactly
the events with `lo ≤ ts ≤ hi` among the memtable's entries and, for every segment listed in the
manifest, the decodable records that stand before the segment's first empty line; so
`Replay(t, t)` delivers exactly those stored events whose timestamp is `t`. -/
theorem replay_delivers_scanned_events_in_range (s : LSMStore) (d : Disk) (lo hi t : Int) :
    List.Pairwise (fun a b => a.TS < b.TS ∨ (a.TS = b.TS ∧ keyLt b.Key a.Key = false))
        (Replay s d lo hi)
      ∧ (Replay s d lo hi).Perm
          ((s.mem.data ++ s.manifest.Segments.flatMap (scannedRecordsOf d)).filter (inRange lo hi))
      ∧ (∀ e, e ∈ Replay s d t t ↔
          (e ∈ s.mem.data ++ s.manifest.Segments.flatMap (scannedRecordsOf d) ∧ e.TS = t)) := by
  refine ⟨Replay_pairwise s d lo hi, Replay_perm s d lo hi, ?_⟩
  intro e
  rw [(Replay_perm s d t t).mem_iff, List.mem_filter]
  simp only [inRange, Bool.and_eq_true, decide_eq_true_eq]
  constructor
  · rintro ⟨h1, h2, h3⟩; exact ⟨h1, by omega⟩
  · rintro ⟨h1, h2⟩; exact ⟨h1, by omega, by omega⟩

/-- C6 (counterexample): with `memtable_max_items = 2`, `Put` of a key that is one newline
character and then of key `b` succeed and flush both to `000001.sst`. The record of `b` is a
decodable record of that segment with timestamp 2, yet `Replay(1, 2)` delivers nothing: the
scan stops at the empty line the newline key leaves. -/
theorem replay_omits_records_after_empty_line :
    (putAll (freshStore ⟨B "data", 2⟩) freshDisk [⟨[10], 1, B "1"⟩, ⟨B "b", 2, B "2"⟩]).2.2 = none
      ∧ (putAll (freshStore ⟨B "data", 2⟩) freshDisk
          [⟨[10], 1, B "1"⟩, ⟨B "b", 2, B "2"⟩]).1.manifest.Segments = [B "000001.sst"]
      ∧ (putAll (freshStore ⟨B "data", 2⟩) freshDisk
          [⟨[10], 1, B "1"⟩, ⟨B "b", 2, B "2"⟩]).2.1.sst
          = [(B "000001.sst", B "SST1\n\n\t1\tMQ==\nb\t2\tMg==\n")]
      ∧ segmentRecordsOf (putAll (freshStore ⟨B "data", 2⟩) freshDisk
          [⟨[10], 1, B "1"⟩, ⟨B "b", 2, B "2"⟩]).2.1 (B "000001.sst")
          = [⟨[], 1, B "1"⟩, ⟨B "b", 2, B "2"⟩]
      ∧ Replay (putAll (freshStore ⟨B "data", 2⟩) freshDisk
            [⟨[10], 1, B "1"⟩, ⟨B "b", 2, B "2"⟩]).1
          (putAll (freshStore ⟨B "data", 2⟩) freshDisk
            [⟨[10], 1, B "1"⟩, ⟨B "b", 2, B "2"⟩]).2.1 1 2 = [] := by
  decide

/-- A record line forged by a key: with `memtable_max_items = 1`, one `Put` of the key
`k\na\t1_0\tQQ==\nz` with timestamp 5 leaves a segment whose second line is `a\t1_0\tQQ==`.
`Sscanf` reads the digit before the underscore, so `Replay(0, 9)` delivers the event `{a, 1, A}`
and then `{z, 5, 1}`. -/
theorem replay_reads_record_forged_by_key :
    (putAll (freshStore ⟨B "data", 1⟩) freshDisk [⟨B "k\na\t1_0\tQQ==\nz", 5, B "1"⟩]).2.1.sst
        = [(B "000001.sst", B "SST1\nk\na\t1_0\tQQ==\nz\t5\tMQ==\n")]
      ∧ Replay (putAll (freshStore ⟨B "data", 1⟩) freshDisk
            [⟨B "k\na\t1_0\tQQ==\nz", 5, B "1"⟩]).1
          (putAll (freshStore ⟨B "data", 1⟩) freshDisk
            [⟨B "k\na\t1_0\tQQ==\nz", 5, B "1"⟩]).2.1 0 9
          = [⟨B "a", 1, B "A"⟩, ⟨B "z", 5, B "1"⟩] := by
  decide

/-! ### The memtable after a run of upserts -/

theorem mapStore_map_key (d : List Event) (e : Event) :
    (mapStore d e).map Event.Key = d.map Event.Key
      ∨ ((mapStore d e).map Event.Key = d.map Event.Key ++ [e.Key] ∧ e.Key ∉ d.map Event.Key) := by
  induction d with
  | nil => right; simp [mapStore]
  | cons y ys ih =>
    unfold mapStore
    by_cases hy : y.Key = e.Key
    · left; simp [hy]
    · rcases ih with h | h
      · left; simp [hy, h]
      · right
        simp only [hy, if_false, List.map_cons, h.1, List.cons_append, true_and]
        intro hmem
        rcases List.mem_cons.mp hmem with h2 | h2
        · exact hy h2.symm
        · exact h.2 h2

theorem mapStore_nodup {d : List Event} (e : Event) (h : (d.map Event.Key).Nodup) :
    ((mapStore d e).map Event.Key).Nodup := by
  rcases mapStore_map_key d e with h1 | h1
  · rw [h1]; exact h
  · rw [h1.1]
    exact List.Nodup.append h (List.nodup_singleton _) (by simpa using h1.2)

theorem upsert_nodup {m : memtable} (e : Event) (h : (m.data.map Event.Key).Nodup) :
    ((m.upsert e).data.map Event.Key).Nodup := by
  unfold memtable.upsert
  split
  · exact mapStore_nodup e h
  · split
    · exact mapStore_nodup e h
    · exact h

theorem mapLookup_of_mem {d : List Event} {x : Event} (hnd : (d.map Event.Key).Nodup)
    (hx : x ∈ d) : mapLookup d x.Key = some x := by
  induction d with
  | nil => simp at hx
  | cons y ys ih =>
    rw [List.map_cons, List.nodup_cons] at hnd
    rcases List.mem_cons.mp hx with h | h
    · subst h; simp [mapLookup]
    · have hne : y.Key ≠ x.Key := by
        intro hk
        exact hnd.1 (hk ▸ List.mem_map_of_mem Event.Key h)
      simp [mapLookup, hne, ih hnd.2 h]

theorem isLatest_snoc_new {S : List Event} {x : Event}
    (h : ∀ y ∈ S, y.Key = x.Key → y.TS ≤ x.TS) : isLatest (S ++ [x]) x :=
  ⟨S, [], rfl, h, by simp⟩

theorem isLatest_snoc_old {S : List Event} {e x : Event} (h : isLatest S e)
    (hx : x.Key = e.Key → x.TS < e.TS) : isLatest (S ++ [x]) e := by
  obtain ⟨S1, S2, h1, h2, h3⟩ := h
  refine ⟨S1, S2 ++ [x], by simp [h1], h2, ?_⟩
  intro y hy
  rcases List.mem_append.mp hy with h | h
  · exact h3 y h
  · simp at h; subst h; exact hx

theorem isLatest_bound {S : List Event} {e : Event} (h : isLatest S e) :
    e ∈ S ∧ ∀ y ∈ S, y.Key = e.Key → y.TS ≤ e.TS := by
  obtain ⟨S1, S2, h1, h2, h3⟩ := h
  subst h1
  refine ⟨by simp, ?_⟩
  intro y hy hk
  rcases List.mem_append.mp hy with h | h
  · exact h2 y h hk
  · rcases List.mem_cons.mp h with h | h
    · rw [h]
    · exact le_of_lt (h3 y h hk)

/-- After the upserts of `S` into an empty memtable, the keys are distinct, every key of `S` has
an entry, and the entry of a key is the latest event of `S` for that key. -/
theorem foldl_upsert_latest (S : List Event) (m0 : memtable) (h0 : m0.data = []) :
    ((S.foldl memtable.upsert m0).data.map Event.Key).Nodup
      ∧ (∀ k e, mapLookup (S.foldl memtable.upsert m0).data k = some e → isLatest S e)
      ∧ (∀ x ∈ S, ∃ e, mapLookup (S.foldl memtable.upsert m0).data x.Key = some e) := by
  induction S using List.reverseRecOn with
  | nil => simp [h0, mapLookup]
  | append_singleton S x ih =>
    obtain ⟨ih1, ih2, ih3⟩ := ih
    rw [List.foldl_append, List.foldl_cons, List.foldl_nil]
    generalize S.foldl memtable.upsert m0 = m at ih1 ih2 ih3
    have hsame := lookup_upsert_same m x
    refine ⟨upsert_nodup x ih1, ?_, ?_⟩
    · intro k e hl
      by_cases hk : k = x.Key
      · subst hk
        rw [hsame] at hl
        cases hm : mapLookup m.data x.Key with
        | none =>
          rw [hm] at hl
          simp only [Option.some.injEq] at hl
          subst hl
          apply isLatest_snoc_new
          intro y hy hyk
          obtain ⟨e', he'⟩ := ih3 y hy
          rw [hyk, hm] at he'
          cases he'
        | some cur =>
          rw [hm] at hl
          have hcur := ih2 _ _ hm
          have hck := (mapLookup_key hm).1
          by_cases ht : x.TS ≥ cur.TS
          · simp only [ht, if_true, Option.some.injEq] at hl
            subst hl
            apply isLatest_snoc_new
            intro y hy hyk
            have := (isLatest_bound hcur).2 y hy (hyk.trans hck.symm)
            omega
          · simp only [ht, if_false, Option.some.injEq] at hl
            subst hl
            exact isLatest_snoc_old hcur (fun _ => by omega)
      · rw [lookup_upsert_other m x k hk] at hl
        have hek := (mapLookup_key hl).1
        exact isLatest_snoc_old (ih2 k e hl) (fun h => absurd (hek.symm.trans h.symm) hk)
    · intro y hy
      rcases List.mem_append.mp hy with h | h
      · by_cases hk : y.Key = x.Key
        · rw [hk, hsame]
          cases mapLookup m.data x.Key with
          | none => exact ⟨x, rfl⟩
          | some cur => by_cases ht : x.TS ≥ cur.TS <;> simp [ht]
        · rw [lookup_upsert_other m x y.Key hk]
          exact ih3 y h
      · simp at h
        subst h
        rw [hsame]
        cases mapLookup m.data y.Key with
        | none => exact ⟨y, rfl⟩
        | some cur => by_cases ht : y.TS ≥ cur.TS <;> simp [ht]

/-- C5 (counterexample): with `memtable_max_items = 1`, `Put{a,1}` and `Put{a,2}` succeed and
are flushed to two segments; `Replay(1, 2)` delivers two events for the key `a`. -/
theorem replay_delivers_key_once_per_segment :
    (putAll (freshStore ⟨B "data", 1⟩) freshDisk [⟨B "a", 1, B "1"⟩, ⟨B "a", 2, B "2"⟩]).2.2 = none
      ∧ Replay (putAll (freshStore ⟨B "data", 1⟩) freshDisk
            [⟨B "a", 1, B "1"⟩, ⟨B "a", 2, B "2"⟩]).1
          (putAll (freshStore ⟨B "data", 1⟩) freshDisk
            [⟨B "a", 1, B "1"⟩, ⟨B "a", 2, B "2"⟩]).2.1 1 2
          = [⟨B "a", 1, B "1"⟩, ⟨B "a", 2, B "2"⟩] := by
  decide

/-! ### Decimal numbers -/

theorem digitsVal_snoc (ds : Bytes) (d : Fin 256) :
    digitsVal (ds ++ [d]) = digitsVal ds * 10 + (d.val - 48) := by
  simp [digitsVal, List.foldl_append]

theorem digitChar_val (n : Nat) : (digitChar n).val = 48 + n % 10 := by
  unfold digitChar
  have : n % 10 < 10 := Nat.mod_lt _ (by decide)
  simp [Fin.ofNat, Fin.val_mk]
  omega

/-- Shape of the digits `natDigitsAux` puts in front of its accumulator. -/
theorem natDigitsAux_spec (fuel n : Nat) (acc : Bytes) (h : n < fuel) :
    ∃ ds, natDigitsAux fuel n acc = ds ++ acc ∧ ds ≠ []
      ∧ (∀ c ∈ ds, 48 ≤ c.val ∧ c.val ≤ 57) ∧ digitsVal ds = n
      ∧ (ds.head? = some 48 → ds = [48]) := by
  induction fuel generalizing n acc with
  | zero => omega
  | succ fuel ih =>
    unfold natDigitsAux
    by_cases h10 : n < 10
    · refine ⟨[digitChar n], by simp [h10], by simp, ?_, ?_, ?_⟩
      · intro c hc
        simp at hc
        rw [hc, digitChar_val]
        omega
      · simp [digitsVal, digitChar_val]
        omega
      · intro _; simp at *
        assumption
    · obtain ⟨ds, h1, h2, h3, h4, h5⟩ := ih (n / 10) (digitChar n :: acc) (by omega)
      refine ⟨ds ++ [digitChar n], by simp [h10, h1], by simp, ?_, ?_, ?_⟩
      · intro c hc
        rcases List.mem_append.mp hc with hc | hc
        · exact h3 c hc
        · simp at hc
          rw [hc, digitChar_val]
          omega
      · rw [digitsVal_snoc, h4, digitChar_val]
        omega
      · intro hh
        exfalso
        have hds : ds.head? = some 48 := by
          cases ds with
          | nil => exact absurd rfl h2
          | cons a as => simpa using hh
        have := h5 hds
        rw [this] at h4
        simp [digitsVal] at h4
        omega

theorem fmtNat_spec (n : Nat) :
    fmtNat n ≠ [] ∧ (∀ c ∈ fmtNat n, 48 ≤ c.val ∧ c.val ≤ 57) ∧ digitsVal (fmtNat n) = n
      ∧ ((fmtNat n).head? = some 48 → fmtNat n = [48]) := by
  obtain ⟨ds, h1, h2, h3, h4, h5⟩ := natDigitsAux_spec (n + 1) n [] (by omega)
  unfold fmtNat
  rw [h1, List.append_nil]
  exact ⟨h2, h3, h4, h5⟩

theorem fmtNat_head (n : Nat) : ∃ c cs, fmtNat n = c :: cs ∧ 48 ≤ c.val ∧ c.val ≤ 57 := by
  obtain ⟨h1, h2, _, _⟩ := fmtNat_spec n
  cases hf : fmtNat n with
  | nil => exact absurd hf h1
  | cons c cs => exact ⟨c, cs, rfl, h2 c (by rw [hf]; exact List.mem_cons_self _ _)⟩

/-! ### UTF-8 widths -/

theorem byteIn_ge {lo hi : Nat} {x : Fin 256} (h : byteIn lo hi x = true) : lo ≤ x.val := by
  simp [byteIn] at h
  exact h.1

/-- A valid multi-byte encoding: its width, its bytes (all at least 128), and the fact that the
width is decided by these bytes alone. -/
theorem utf8Width_cases (b0 : Fin 256) (r : Bytes) (h : 128 ≤ b0.val)
    (hw : utf8Width (b0 :: r) ≠ 0) :
    ∃ w t, t ≠ [] ∧ w = t.length + 1 ∧ utf8Width (b0 :: r) = w ∧ (b0 :: r).take w = b0 :: t
      ∧ (∀ x ∈ t, 128 ≤ x.val) ∧ ∀ X, utf8Width (b0 :: (t ++ X)) = w := by
  have hlt : ¬ b0.val < 128 := by omega
  unfold utf8Width at hw ⊢
  simp only [hlt, if_false] at hw ⊢
  by_cases c2 : utf8Two b0 r = true
  · rcases r with _ | ⟨b1, r1⟩
    · simp [utf8Two] at c2
    · have h1 : byteIn 128 191 b1 = true := by
        simp only [utf8Two, Bool.and_eq_true] at c2
        exact c2.2
      refine ⟨2, [b1], by simp, rfl, by simp [c2], by simp, ?_, ?_⟩
      · intro x hx
        simp at hx
        rw [hx]
        exact byteIn_ge h1
      · intro X
        have e2 : utf8Two b0 (b1 :: X) = true := c2
        simp [e2]
  · simp only [c2, Bool.false_eq_true, if_false] at hw ⊢
    by_cases c3 : utf8Three b0 r = true
    · rcases r with _ | ⟨b1, _ | ⟨b2, r2⟩⟩
      · simp [utf8Three] at c3
      · simp [utf8Three] at c3
      · have c3' := c3
        simp only [utf8Three, Bool.and_eq_true, Bool.or_eq_true] at c3'
        have h1 : 128 ≤ b1.val := by
          rcases c3'.1 with (hh | hh) | hh
          · have := byteIn_ge hh.2; omega
          · have := byteIn_ge hh.2; omega
          · have := byteIn_ge hh.2; omega
        refine ⟨3, [b1, b2], by simp, rfl, by simp [c3], by simp, ?_, ?_⟩
        · intro x hx
          simp at hx
          rcases hx with hx | hx
          · rw [hx]; exact h1
          · rw [hx]; exact byteIn_ge c3'.2
        · intro X
          have e3 : utf8Three b0 (b1 :: b2 :: X) = true := c3
          have e2 : utf8Two b0 (b1 :: b2 :: X) = utf8Two b0 (b1 :: b2 :: r2) := rfl
          simp [e2, c2, e3]
    · simp only [c3, Bool.false_eq_true, if_false] at hw ⊢
      by_cases c4 : utf8Four b0 r = true
      · rcases r with _ | ⟨b1, _ | ⟨b2, _ | ⟨b3, r3⟩⟩⟩
        · simp [utf8Four] at c4
        · simp [utf8Four] at c4
        · simp [utf8Four] at c4
        · have c4' := c4
          simp only [utf8Four, Bool.and_eq_true, Bool.or_eq_true] at c4'
          have h1 : 128 ≤ b1.val := by
            rcases c4'.1.1 with (hh | hh) | hh
            · have := byteIn_ge hh.2; omega
            · have := byteIn_ge hh.2; omega
            · have := byteIn_ge hh.2; omega
          refine ⟨4, [b1, b2, b3], by simp, rfl, by simp [c4], by simp, ?_, ?_⟩
          · intro x hx
            simp at hx
            rcases hx with hx | hx | hx
            · rw [hx]; exact h1
            · rw [hx]; exact byteIn_ge c4'.1.2
            · rw [hx]; exact byteIn_ge c4'.2
          · intro X
            have e4 : utf8Four b0 (b1 :: b2 :: b3 :: X) = true := c4
            have e3 : utf8Three b0 (b1 :: b2 :: b3 :: X) = utf8Three b0 (b1 :: b2 :: b3 :: r3) :=
              rfl
            have e2 : utf8Two b0 (b1 :: b2 :: b3 :: X) = utf8Two b0 (b1 :: b2 :: b3 :: r3) := rfl
            simp [e2, e3, c2, c3, e4]
      · simp [c4] at hw

/-! ### JSON string literals -/

theorem hexVal_hexChar (n : Nat) : hexVal (hexChar n) = some (n % 16) := by
  have h : n % 16 < 16 := Nat.mod_lt _ (by decide)
  unfold hexChar
  generalize n % 16 = m at h
  interval_cases m <;> decide

theorem hexChar_ne_nl (n : Nat) : hexChar n ≠ 10 ∧ hexChar n ≠ 13 := by
  have h : n % 16 < 16 := Nat.mod_lt _ (by decide)
  unfold hexChar
  generalize n % 16 = m at h
  interval_cases m <;> decide

theorem unquote_plain (c : Fin 256) (f : Nat) (cs : Bytes) (h1 : c ≠ 34) (h2 : c ≠ 92)
    (h3 : 32 ≤ c.val) (h4 : c.val < 128) :
    unquoteBody (f + 1) (c :: cs) = (unquoteBody f cs).map (fun p => (c :: p.1, p.2)) := by
  have h5 : ¬ c.val < 32 := by omega
  simp only [unquoteBody, h1, h2, h5, h4, if_false, if_true]

theorem unquote_short (x b : Fin 256) (f : Nat) (r : Bytes) (hx : x ≠ 117)
    (hd : (if x = 34 ∨ x = 92 ∨ x = 47 then some x
          else if x = 98 then some 8
          else if x = 102 then some 12
          else if x = 110 then some 10
          else if x = 114 then some 13
          else if x = 116 then some 9
          else none) = some b) :
    unquoteBody (f + 1) (92 :: x :: r) = (unquoteBody f r).map (fun p => (b :: p.1, p.2)) := by
  rw [unquoteBody]
  have h1 : ¬ ((92 : Fin 256) = 34) := by decide
  simp only [h1, if_false, if_true, hx]
  rw [hd]

theorem unquote_u00 (h1 h2 : Fin 256) (a b : Nat) (f : Nat) (r : Bytes)
    (ha : hexVal h1 = some a) (hb : hexVal h2 = some b) (hlt : a * 16 + b < 128) :
    unquoteBody (f + 1) (92 :: 117 :: 48 :: 48 :: h1 :: h2 :: r)
      = (unquoteBody f r).map (fun p => (Fin.ofNat (a * 16 + b) :: p.1, p.2)) := by
  rw [unquoteBody]
  have e1 : ¬ ((92 : Fin 256) = 34) := by decide
  have e0 : hexVal 48 = some 0 := by decide
  have hg : getu4 (48 :: 48 :: h1 :: h2 :: r) = some (a * 16 + b) := by
    simp [getu4, e0, ha, hb]
  have hs : ¬ (55296 ≤ a * 16 + b ∧ a * 16 + b < 57344) := by omega
  simp only [e1, if_false, if_true, hg, hs, utf8Encode, hlt, List.drop_succ_cons, List.drop_zero,
    List.singleton_append]

theorem unquote_ascii_step (c : Fin 256) (hc : c.val < 128) (f : Nat) (tail : Bytes) :
    unquoteBody (f + 1) ((if htmlSafe c then [c] else escapeByte c) ++ tail)
      = (unquoteBody f tail).map (fun p => (c :: p.1, p.2)) := by
  by_cases hs : htmlSafe c = true
  · simp only [hs, if_true, List.singleton_append]
    simp only [htmlSafe, decide_eq_true_eq] at hs
    exact unquote_plain c f tail hs.2.2.1 hs.2.2.2.2.2.2 hs.1 hc
  · simp only [hs, Bool.false_eq_true, if_false]
    unfold escapeByte
    by_cases h1 : c = 92 ∨ c = 34
    · simp only [h1, if_true, List.cons_append, List.nil_append]
      refine unquote_short c c f tail ?_ ?_
      · rcases h1 with h | h <;> rw [h] <;> decide
      · rcases h1 with h | h <;> rw [h] <;> decide
    · simp only [h1, if_false]
      by_cases h8 : c = 8
      · subst h8; exact unquote_short 98 8 f tail (by decide) (by decide)
      · by_cases h12 : c = 12
        · subst h12; exact unquote_short 102 12 f tail (by decide) (by decide)
        · by_cases h10 : c = 10
          · subst h10; exact unquote_short 110 10 f tail (by decide) (by decide)
          · by_cases h13 : c = 13
            · subst h13; exact unquote_short 114 13 f tail (by decide) (by decide)
            · by_cases h9 : c = 9
              · subst h9; exact unquote_short 116 9 f tail (by decide) (by decide)
              · simp only [h8, h12, h10, h13, h9, if_false, List.cons_append, List.nil_append]
                have := unquote_u00 (hexChar (c.val / 16)) (hexChar c.val) _ _ f tail
                  (hexVal_hexChar _) (hexVal_hexChar _) (by omega)
                rw [this]
                clear this
                have hcv : c.val / 16 % 16 * 16 + c.val % 16 = c.val := by omega
                have : (Fin.ofNat (c.val / 16 % 16 * 16 + c.val % 16) : Fin 256) = c := by
                  rw [hcv]
                  apply Fin.ext
                  simp [Fin.ofNat]
                rw [this]

theorem unquote_wide (c : Fin 256) (t X : Bytes) (f : Nat) (hc : 128 ≤ c.val)
    (hw : utf8Width (c :: (t ++ X)) = t.length + 1) :
    unquoteBody (f + 1) (c :: (t ++ X))
      = (unquoteBody f X).map (fun p => (c :: t ++ p.1, p.2)) := by
  have h1 : c ≠ 34 := by intro h; subst h; exact absurd hc (by decide)
  have h2 : c ≠ 92 := by intro h; subst h; exact absurd hc (by decide)
  have h3 : ¬ c.val < 32 := by omega
  have h4 : ¬ c.val < 128 := by omega
  have h5 : ¬ (t.length + 1 = 0) := by omega
  simp only [unquoteBody, h1, h2, h3, h4, if_false, hw, h5, List.drop_succ_cons,
    List.take_succ_cons, List.drop_left, List.take_left, List.cons_append]

theorem unquote_sep (x : Fin 256) (hx : x = 168 ∨ x = 169) (f : Nat) (r : Bytes) :
    unquoteBody (f + 1) (92 :: 117 :: 50 :: 48 :: 50 :: hexChar x.val :: r)
      = (unquoteBody f r).map (fun p => (226 :: 128 :: x :: p.1, p.2)) := by
  have e1 : ¬ ((92 : Fin 256) = 34) := by decide
  rcases hx with h | h <;> subst h
  · have hg : getu4 (50 :: 48 :: 50 :: hexChar (168 : Fin 256).val :: r) = some 8232 := by
      simp [getu4, hexVal_hexChar]; decide
    have hs : ¬ (55296 ≤ 8232 ∧ 8232 < 57344) := by omega
    have he : utf8Encode 8232 = [226, 128, 168] := by decide
    simp only [unquoteBody, e1, if_false, if_true, hg, hs, he, List.drop_succ_cons, List.drop_zero,
      List.cons_append, List.nil_append]
  · have hg : getu4 (50 :: 48 :: 50 :: hexChar (169 : Fin 256).val :: r) = some 8233 := by
      simp [getu4, hexVal_hexChar]; decide
    have hs : ¬ (55296 ≤ 8233 ∧ 8233 < 57344) := by omega
    have he : utf8Encode 8233 = [226, 128, 169] := by decide
    simp only [unquoteBody, e1, if_false, if_true, hg, hs, he, List.drop_succ_cons, List.drop_zero,
      List.cons_append, List.nil_append]

theorem quoteBody_nil (n : Nat) : quoteBody n [] = [] := by
  cases n <;> rfl

theorem escapeByte_length (c : Fin 256) : 1 ≤ (escapeByte c).length := by
  unfold escapeByte
  split_ifs <;> simp

/-- Decoding a string literal the encoder wrote gives back the string, when the string is valid
UTF-8. -/
theorem unquote_quote (n : Nat) : ∀ (k rest : Bytes) (f : Nat), k.length ≤ n →
    utf8ValidAux n k = true → (quoteBody n k).length < f →
    unquoteBody f (quoteBody n k ++ 34 :: rest) = some (k, rest) := by
  induction n with
  | zero =>
    intro k rest f hk _ hf
    have : k = [] := List.length_eq_zero.mp (by omega)
    subst this
    cases f with
    | zero => omega
    | succ f => simp [quoteBody, unquoteBody]
  | succ m ih =>
    intro k rest f hk hv hf
    cases k with
    | nil =>
      cases f with
      | zero => omega
      | succ f => simp [quoteBody, unquoteBody]
    | cons c cs =>
      cases f with
      | zero => omega
      | succ f =>
        simp only [utf8ValidAux, Bool.and_eq_true, decide_eq_true_eq] at hv
        simp only [List.length_cons] at hk
        by_cases hc : c.val < 128
        · have hw : utf8Width (c :: cs) = 1 := by simp [utf8Width, hc]
          rw [hw] at hv
          simp only [List.drop_succ_cons, List.drop_zero] at hv
          have hq : quoteBody (m + 1) (c :: cs)
              = (if htmlSafe c then [c] else escapeByte c) ++ quoteBody m cs := by
            simp [quoteBody, hc]
          rw [hq] at hf ⊢
          rw [List.append_assoc, unquote_ascii_step c hc]
          have hlen : (quoteBody m cs).length < f := by
            have : 1 ≤ (if htmlSafe c = true then [c] else escapeByte c).length := by
              split_ifs
              · simp
              · exact escapeByte_length c
            simp only [List.length_append] at hf
            omega
          rw [ih cs rest f (by omega) hv.2 hlen]
          rfl
        · have hc' : 128 ≤ c.val := by omega
          obtain ⟨w, t, ht0, hwt, hw, htake, htge, hX⟩ := utf8Width_cases c cs hc' hv.1
          rw [hw] at hv
          have hsplit : c :: cs = (c :: t) ++ (c :: cs).drop w := by
            rw [← htake, List.take_append_drop]
          have hcs : cs = t ++ (c :: cs).drop w := by
            have := hsplit
            simp only [List.cons_append, List.cons.injEq, true_and] at this
            exact this
          have hdlen : ((c :: cs).drop w).length ≤ m := by
            simp only [List.length_drop, List.length_cons]
            omega
          by_cases hsep : c = 226 ∧ cs.head? = some 128
              ∧ (cs.tail.head? = some 168 ∨ cs.tail.head? = some 169)
          · obtain ⟨h226, h128, hx⟩ := hsep
            rcases cs with _ | ⟨b1, _ | ⟨b2, cs2⟩⟩
            · simp at h128
            · simp at hx
            · simp only [List.head?_cons, Option.some.injEq, List.tail_cons] at h128 hx
              subst h226 h128
              have hw3 : utf8Width ((226 : Fin 256) :: 128 :: b2 :: cs2) = 3 := by
                rcases hx with h | h <;> subst h <;> rfl
              rw [hw3] at hw
              subst hw
              simp only [List.drop_succ_cons, List.drop_zero] at hv hdlen
              have hq : quoteBody (m + 1) ((226 : Fin 256) :: 128 :: b2 :: cs2)
                  = [92, 117, 50, 48, 50, hexChar b2.val] ++ quoteBody m cs2 := by
                have e1 : ¬ ((226 : Fin 256).val < 128) := by decide
                simp [quoteBody, e1, hw3, hx]
              rw [hq] at hf ⊢
              have hlen : (quoteBody m cs2).length < f := by
                simp only [List.length_append, List.length_cons, List.length_nil] at hf
                omega
              simp only [List.cons_append, List.nil_append]
              rw [unquote_sep b2 hx, ih cs2 rest f hdlen hv.2 hlen]
              rfl
          · have hq : quoteBody (m + 1) (c :: cs)
                = (c :: t) ++ quoteBody m ((c :: cs).drop w) := by
              have hw0 : ¬ (utf8Width (c :: cs) = 0) := by rw [hw]; omega
              simp only [quoteBody, hc, if_false, hw0, hsep, hw, htake, hv.1]
            rw [hq] at hf ⊢
            have hlen : (quoteBody m ((c :: cs).drop w)).length < f := by
              simp only [List.length_append, List.length_cons] at hf
              omega
            have hwX := (hX (quoteBody m ((c :: cs).drop w) ++ 34 :: rest)).trans hwt
            simp only [List.cons_append, List.append_assoc]
            rw [unquote_wide c t _ f hc' hwX, ih _ rest f hdlen hv.2 hlen]
            simp only [Option.map_some']
            rw [← hsplit]

/-! ### The bytes of a WAL record -/

theorem escapeByte_no_nl (c : Fin 256) : ∀ x ∈ escapeByte c, x ≠ 10 ∧ x ≠ 13 := by
  unfold escapeByte
  have hh := hexChar_ne_nl (c.val / 16)
  have hh2 := hexChar_ne_nl c.val
  split_ifs with h1 h2 h3 h4 h5 h6
  · simp only [List.forall_mem_cons, List.not_mem_nil, false_implies, implies_true, and_true]
    rcases h1 with h | h <;> subst h <;> and_intros <;> decide
  all_goals
    simp only [List.forall_mem_cons, List.not_mem_nil, false_implies, implies_true, and_true]
    and_intros <;> first | decide | exact hh.1 | exact hh.2 | exact hh2.1 | exact hh2.2

theorem quoteBody_no_nl (n : Nat) : ∀ (k : Bytes) (x : Fin 256), x ∈ quoteBody n k →
    x ≠ 10 ∧ x ≠ 13 := by
  induction n with
  | zero => intro k x hx; simp [quoteBody] at hx
  | succ m ih =>
    intro k x hx
    cases k with
    | nil => simp [quoteBody] at hx
    | cons c cs =>
      unfold quoteBody at hx
      by_cases hc : c.val < 128
      · simp only [hc, if_true] at hx
        rcases List.mem_append.mp hx with h | h
        · by_cases hs : htmlSafe c = true
          · simp only [hs, if_true, List.mem_singleton] at h
            subst h
            simp only [htmlSafe, decide_eq_true_eq] at hs
            constructor <;> (intro h; rw [h] at hs; exact absurd hs.1 (by decide))
          · simp only [hs, Bool.false_eq_true, if_false] at h
            exact escapeByte_no_nl c x h
        · exact ih cs x h
      · simp only [hc, if_false] at hx
        have hh := hexChar_ne_nl ((cs.tail.head?.getD 0).val)
        split_ifs at hx with h1 h2
        · rcases List.mem_append.mp hx with h | h
          · have : ∀ y ∈ ([92, 117, 102, 102, 102, 100] : Bytes), y ≠ 10 ∧ y ≠ 13 := by
              simp only [List.forall_mem_cons, List.not_mem_nil, false_implies, implies_true,
                and_true]
              and_intros <;> decide
            exact this x h
          · exact ih cs x h
        · rcases List.mem_append.mp hx with h | h
          · have : ∀ y ∈ [92, 117, 50, 48, 50, hexChar ((cs.tail.head?.getD 0).val)],
                y ≠ 10 ∧ y ≠ 13 := by
              simp only [List.forall_mem_cons, List.not_mem_nil, false_implies, implies_true,
                and_true]
              and_intros <;> first | decide | exact hh.1 | exact hh.2
            exact this x h
          · exact ih _ x h
        · rcases List.mem_append.mp hx with h | h
          · obtain ⟨w, t, _, _, hw, htake, htge, _⟩ := utf8Width_cases c cs (by omega) h1
            rw [hw, htake] at h
            have hx128 : 128 ≤ x.val := by
              rcases List.mem_cons.mp h with h | h
              · rw [h]; omega
              · exact htge x h
            constructor <;> (intro h; rw [h] at hx128; exact absurd hx128 (by decide))
          · exact ih _ x h

theorem fmtInt_bytes (n : Int) (x : Fin 256) (hx : x ∈ fmtInt n) :
    (48 ≤ x.val ∧ x.val ≤ 57) ∨ x = 45 := by
  unfold fmtInt at hx
  split_ifs at hx
  · rcases List.mem_cons.mp hx with h | h
    · exact Or.inr h
    · exact Or.inl ((fmtNat_spec _).2.1 x h)
  · exact Or.inl ((fmtNat_spec _).2.1 x hx)

theorem jStep_nl (s : JScanner) (c : Fin 256) (hc : c = 10 ∨ c = 13) :
    (jStep s c).2 ≠ JOp.cont := by
  obtain ⟨st, stack, et⟩ := s
  rcases hc with h | h <;> subst h <;> cases st <;> cases stack <;>
    simp +decide [jStep, jBeginValue, jBeginString, jESign, jEndValue, jEndTop, jState0, jError,
      jGoto, jIsSpace, jIsDigit, jIsHex]

theorem lit_key : B "\x7b\"Key\":" = [123, 34, 75, 101, 121, 34, 58] := rfl

theorem lit_ts : B ",\"TS\":" = [44, 34, 84, 83, 34, 58] := rfl

theorem lit_value : B ",\"Value\":" = [44, 34, 86, 97, 108, 117, 101, 34, 58] := rfl

theorem lit_close : B "\x7d" = [125] := rfl

theorem lit_null : B "null" = [110, 117, 108, 108] := rfl

theorem no_nl_of_all (l : Bytes) (h : l.all (fun y => decide (y ≠ 10 ∧ y ≠ 13)) = true) :
    ∀ y ∈ l, y ≠ 10 ∧ y ≠ 13 := by
  intro y hy
  have := List.all_eq_true.mp h y hy
  simpa using this

theorem compactLoop_no_nl (src : Bytes) : ∀ (s : JScanner) (k : Nat) (out : Bytes)
    (s' : JScanner) (res : Bytes), compactLoop src s k out = some (s', res) →
    (∀ x ∈ out, x ≠ 10 ∧ x ≠ 13) → ∀ x ∈ res, x ≠ 10 ∧ x ≠ 13 := by
  induction src with
  | nil =>
    intro s k out s' res h hout
    simp only [compactLoop, Option.some.injEq, Prod.mk.injEq] at h
    rw [← h.2]
    exact hout
  | cons c cs ih =>
    intro s k out s' res h hout
    have hh1 := hexChar_ne_nl (c.val / 16)
    have hh2 := hexChar_ne_nl c.val
    have hh3 := hexChar_ne_nl ((cs.tail.head?.getD 0).val)
    have hl1 : ∀ x ∈ [92, 117, 48, 48, hexChar (c.val / 16), hexChar c.val],
        x ≠ 10 ∧ x ≠ 13 := by
      simp only [List.forall_mem_cons, List.not_mem_nil, false_implies, implies_true, and_true]
      and_intros <;> first | decide | exact hh1.1 | exact hh1.2 | exact hh2.1 | exact hh2.2
    have hl2 : ∀ x ∈ [92, 117, 50, 48, 50, hexChar ((cs.tail.head?.getD 0).val)],
        x ≠ 10 ∧ x ≠ 13 := by
      simp only [List.forall_mem_cons, List.not_mem_nil, false_implies, implies_true, and_true]
      and_intros <;> first | decide | exact hh3.1 | exact hh3.2
    have hesc1 : ∀ x ∈ out ++ [92, 117, 48, 48, hexChar (c.val / 16), hexChar c.val],
        x ≠ 10 ∧ x ≠ 13 := by
      intro x hx
      rcases List.mem_append.mp hx with h | h
      · exact hout x h
      · exact hl1 x h
    have hesc2 : ∀ x ∈ out ++ [92, 117, 50, 48, 50, hexChar ((cs.tail.head?.getD 0).val)],
        x ≠ 10 ∧ x ≠ 13 := by
      intro x hx
      rcases List.mem_append.mp hx with h | h
      · exact hout x h
      · exact hl2 x h
    unfold compactLoop at h
    cases hj : jStep s c with
    | mk s1 op =>
      rw [hj] at h
      have hcont : op = JOp.cont → ∀ x ∈ out ++ [c], x ≠ 10 ∧ x ≠ 13 := by
        intro hop x hx
        rcases List.mem_append.mp hx with h | h
        · exact hout x h
        · simp only [List.mem_singleton] at h
          subst h
          constructor
          · intro h10
            have := jStep_nl s x (Or.inl h10)
            rw [hj] at this
            exact this hop
          · intro h13
            have := jStep_nl s x (Or.inr h13)
            rw [hj] at this
            exact this hop
      cases op with
      | error => simp at h
      | cont =>
        simp only at h
        split_ifs at h
        all_goals first
          | exact ih _ _ _ _ _ h hout
          | exact ih _ _ _ _ _ h hesc1
          | exact ih _ _ _ _ _ h hesc2
          | exact ih _ _ _ _ _ h (hcont rfl)
      | skip =>
        simp only at h
        split_ifs at h
        all_goals first
          | exact ih _ _ _ _ _ h hout
          | exact ih _ _ _ _ _ h hesc1
          | exact ih _ _ _ _ _ h hesc2

theorem compactJSON_no_nl {src v : Bytes} (h : compactJSON src = some v) :
    ∀ x ∈ v, x ≠ 10 ∧ x ≠ 13 := by
  unfold compactJSON at h
  cases hc : compactLoop src { step := JState.beginValue, stack := [], endTop := false } 0 [] with
  | none => rw [hc] at h; simp at h
  | some p =>
    obtain ⟨s', res⟩ := p
    rw [hc] at h
    simp only at h
    split_ifs at h
    simp only [Option.some.injEq] at h
    subst h
    exact compactLoop_no_nl src _ _ _ _ _ hc (by simp)

/-- The bytes `wal.Append` writes before the newline: the encoding of the event, or nothing when
`json.Marshal` fails. -/
theorem walRecord_no_nl (e : Event) : ∀ x ∈ (marshalEvent e).getD [], x ≠ 10 ∧ x ≠ 13 := by
  unfold marshalEvent
  have hlit : ∀ l : Bytes, (∀ x ∈ l, x ≠ 10 ∧ x ≠ 13) →
      ∀ x ∈ B "\x7b\"Key\":" ++ (jsonQuote e.Key ++ (B ",\"TS\":" ++ (fmtInt e.TS
        ++ (B ",\"Value\":" ++ (l ++ B "\x7d"))))), x ≠ 10 ∧ x ≠ 13 := by
    intro l hl x hx
    have hB1 : ∀ y ∈ B "\x7b\"Key\":", y ≠ 10 ∧ y ≠ 13 := no_nl_of_all _ rfl
    have hB2 : ∀ y ∈ B ",\"TS\":", y ≠ 10 ∧ y ≠ 13 := no_nl_of_all _ rfl
    have hB3 : ∀ y ∈ B ",\"Value\":", y ≠ 10 ∧ y ≠ 13 := no_nl_of_all _ rfl
    have hB4 : ∀ y ∈ B "\x7d", y ≠ 10 ∧ y ≠ 13 := no_nl_of_all _ rfl
    simp only [List.mem_append, jsonQuote, List.mem_cons, List.mem_singleton] at hx
    rcases hx with h | (h | h | h) | h | h | h | h | h
    · exact hB1 x h
    · subst h; decide
    · exact quoteBody_no_nl _ _ x h
    · rcases h with h | h
      · subst h; decide
      · simp at h
    · exact hB2 x h
    · rcases fmtInt_bytes _ x h with h1 | h1
      · constructor <;> (intro h2; rw [h2] at h1; revert h1; decide)
      · subst h1; decide
    · exact hB3 x h
    · exact hl x h
    · exact hB4 x h
  by_cases hv : e.Value = []
  · simp only [hv, if_true]
    exact hlit _ (no_nl_of_all _ rfl)
  · simp only [hv, if_false]
    cases hc : compactJSON e.Value with
    | none => simp
    | some v =>
      simp only [Option.getD_some]
      exact hlit v (compactJSON_no_nl hc)

/-! ### The validity check of `json.Unmarshal` on a WAL record -/

theorem checkLoop_append (a b : Bytes) : ∀ s : JScanner,
    checkLoop (a ++ b) s = (checkLoop a s).bind (checkLoop b) := by
  induction a with
  | nil => intro s; rfl
  | cons c cs ih =>
    intro s
    simp only [List.cons_append, checkLoop]
    rcases hj : jStep s c with ⟨s1, op⟩
    cases op <;> simp [ih]

/-- Inside a string literal the scanner passes over every byte from 32 on that is neither the
quote nor the backslash. -/
theorem jStep_inString_plain (st : List JParse) (et : Bool) (c : Fin 256)
    (h1 : c ≠ 34) (h2 : c ≠ 92) (h3 : 32 ≤ c.val) :
    jStep ⟨JState.inString, st, et⟩ c = (⟨JState.inString, st, et⟩, JOp.cont) := by
  have h4 : ¬ c.val < 32 := by omega
  simp only [jStep, h1, h2, h4, if_false]

theorem checkLoop_inString_plain (l : Bytes) (st : List JParse) (et : Bool)
    (h : ∀ c ∈ l, c ≠ 34 ∧ c ≠ 92 ∧ 32 ≤ c.val) :
    checkLoop l ⟨JState.inString, st, et⟩ = some ⟨JState.inString, st, et⟩ := by
  induction l with
  | nil => rfl
  | cons c cs ih =>
    have hc := h c (List.mem_cons_self _ _)
    simp only [checkLoop, jStep_inString_plain st et c hc.1 hc.2.1 hc.2.2]
    exact ih (fun x hx => h x (List.mem_cons_of_mem _ hx))

theorem jIsHex_hexChar (n : Nat) : jIsHex (hexChar n) = true := by
  have h : n % 16 < 16 := Nat.mod_lt _ (by decide)
  unfold hexChar
  generalize n % 16 = m at h
  interval_cases m <;> decide

/-- The scanner passes over a `\u` escape whose last two digits come from `hexChar`. -/
theorem checkLoop_u_escape (a b : Fin 256) (m n : Nat) (st : List JParse) (et : Bool)
    (ha : jIsHex a = true) (hb : jIsHex b = true) :
    checkLoop [92, 117, a, b, hexChar m, hexChar n] ⟨JState.inString, st, et⟩
      = some ⟨JState.inString, st, et⟩ := by
  have e1 : jStep ⟨JState.inString, st, et⟩ 92 = (⟨JState.inStringEsc, st, et⟩, JOp.cont) := rfl
  have e2 : jStep ⟨JState.inStringEsc, st, et⟩ 117 = (⟨JState.inStringEscU, st, et⟩, JOp.cont) :=
    rfl
  have e3 : jStep ⟨JState.inStringEscU, st, et⟩ a
      = (⟨JState.inStringEscU1, st, et⟩, JOp.cont) := by
    simp only [jStep, ha, if_true, jGoto]
  have e4 : jStep ⟨JState.inStringEscU1, st, et⟩ b
      = (⟨JState.inStringEscU12, st, et⟩, JOp.cont) := by
    simp only [jStep, hb, if_true, jGoto]
  have e5 : jStep ⟨JState.inStringEscU12, st, et⟩ (hexChar m)
      = (⟨JState.inStringEscU123, st, et⟩, JOp.cont) := by
    simp only [jStep, jIsHex_hexChar, if_true, jGoto]
  have e6 : jStep ⟨JState.inStringEscU123, st, et⟩ (hexChar n)
      = (⟨JState.inString, st, et⟩, JOp.cont) := by
    simp only [jStep, jIsHex_hexChar, if_true, jGoto]
  simp only [checkLoop, e1, e2, e3, e4, e5, e6]

theorem checkLoop_escapeByte (c : Fin 256) (st : List JParse) (et : Bool) :
    checkLoop (escapeByte c) ⟨JState.inString, st, et⟩ = some ⟨JState.inString, st, et⟩ := by
  unfold escapeByte
  split_ifs with h1 h2 h3 h4 h5 h6
  · rcases h1 with h | h <;> subst h <;> rfl
  · rfl
  · rfl
  · rfl
  · rfl
  · rfl
  · exact checkLoop_u_escape 48 48 _ _ st et (by decide) (by decide)

/-- The scanner, inside a string literal, passes over the text the encoder writes for a string
and is inside the literal after it. -/
theorem checkLoop_quoteBody (n : Nat) : ∀ (k : Bytes) (st : List JParse) (et : Bool),
    checkLoop (quoteBody n k) ⟨JState.inString, st, et⟩ = some ⟨JState.inString, st, et⟩ := by
  induction n with
  | zero => intro k st et; cases k <;> rfl
  | succ m ih =>
    intro k st et
    cases k with
    | nil => rfl
    | cons c cs =>
      unfold quoteBody
      by_cases hc : c.val < 128
      · simp only [hc, if_true]
        rw [checkLoop_append]
        by_cases hs : htmlSafe c = true
        · simp only [hs, if_true]
          simp only [htmlSafe, decide_eq_true_eq] at hs
          rw [checkLoop_inString_plain [c] st et (by
            intro x hx
            simp only [List.mem_singleton] at hx
            subst hx
            exact ⟨hs.2.2.1, hs.2.2.2.2.2.2, hs.1⟩)]
          exact ih cs st et
        · simp only [hs, Bool.false_eq_true, if_false]
          rw [checkLoop_escapeByte]
          exact ih cs st et
      · simp only [hc, if_false]
        split_ifs with h1 h2
        · have e : ([92, 117, 102, 102, 102, 100] : Bytes)
              = [92, 117, 102, 102, hexChar 15, hexChar 13] := rfl
          rw [checkLoop_append, e,
            checkLoop_u_escape 102 102 15 13 st et (by decide) (by decide)]
          exact ih cs st et
        · rw [checkLoop_append]
          have e : ([92, 117, 50, 48, 50, hexChar (cs.tail.head?.getD 0).val] : Bytes)
              = [92, 117, 50, 48, hexChar 2, hexChar (cs.tail.head?.getD 0).val] := rfl
          rw [e, checkLoop_u_escape 50 48 _ _ st et (by decide) (by decide)]
          exact ih _ st et
        · obtain ⟨w, t, _, _, hw, htake, htge, _⟩ := utf8Width_cases c cs (by omega) h1
          rw [checkLoop_append, hw, htake]
          rw [checkLoop_inString_plain (c :: t) st et (by
            intro x hx
            have hx128 : 128 ≤ x.val := by
              rcases List.mem_cons.mp hx with h | h
              · rw [h]; omega
              · exact htge x h
            refine ⟨?_, ?_, by omega⟩ <;>
              (intro h; rw [h] at hx128; exact absurd hx128 (by decide)))]
          exact ih _ st et

theorem checkLoop_digits (ds : Bytes) (st : List JParse) (et : Bool)
    (h : ∀ c ∈ ds, 48 ≤ c.val ∧ c.val ≤ 57) :
    checkLoop ds ⟨JState.s1, st, et⟩ = some ⟨JState.s1, st, et⟩ := by
  induction ds with
  | nil => rfl
  | cons c cs ih =>
    have hc := h c (List.mem_cons_self _ _)
    have e : jStep ⟨JState.s1, st, et⟩ c = (⟨JState.s1, st, et⟩, JOp.cont) := by
      simp [jStep, jIsDigit, hc]
    simp only [checkLoop, e]
    exact ih (fun x hx => h x (List.mem_cons_of_mem _ hx))

/-- The first digit of a number without a leading zero takes the scanner from the start of a
value, or from after a minus sign, to the state of a number. -/
theorem jStep_first_digit (c : Fin 256) (st : List JParse) (et : Bool)
    (h : 48 ≤ c.val ∧ c.val ≤ 57) :
    (jStep ⟨JState.beginValue, st, et⟩ c
        = (⟨if c = 48 then JState.s0 else JState.s1, st, et⟩, JOp.cont))
      ∧ (jStep ⟨JState.neg, st, et⟩ c
        = (⟨if c = 48 then JState.s0 else JState.s1, st, et⟩, JOp.cont)) := by
  obtain ⟨v, hv⟩ := c
  simp only at h
  obtain ⟨h1, h2⟩ := h
  interval_cases v <;> exact ⟨rfl, rfl⟩

/-- The scanner reads the decimal text of an integer as a number. -/
theorem checkLoop_fmtInt (n : Int) (st : List JParse) (et : Bool) :
    ∃ q, (q = JState.s0 ∨ q = JState.s1)
      ∧ checkLoop (fmtInt n) ⟨JState.beginValue, st, et⟩ = some ⟨q, st, et⟩ := by
  obtain ⟨h1, h2, _, h4⟩ := fmtNat_spec n.natAbs
  obtain ⟨c, cs, hcs, hc⟩ := fmtNat_head n.natAbs
  have hrest : ∀ x ∈ cs, 48 ≤ x.val ∧ x.val ≤ 57 :=
    fun x hx => h2 x (by rw [hcs]; exact List.mem_cons_of_mem _ hx)
  have hzero : c = 48 → cs = [] := by
    intro h0
    have := h4 (by rw [hcs, h0]; rfl)
    rw [hcs] at this
    exact (by simpa using this : c = 48 ∧ cs = []).2
  have htail : ∃ q, (q = JState.s0 ∨ q = JState.s1)
      ∧ checkLoop cs ⟨if c = 48 then JState.s0 else JState.s1, st, et⟩ = some ⟨q, st, et⟩ := by
    by_cases h0 : c = 48
    · rw [hzero h0, if_pos h0]
      exact ⟨JState.s0, Or.inl rfl, rfl⟩
    · rw [if_neg h0]
      exact ⟨JState.s1, Or.inr rfl, checkLoop_digits cs st et hrest⟩
  obtain ⟨q, hq, hrun⟩ := htail
  refine ⟨q, hq, ?_⟩
  unfold fmtInt
  split_ifs
  · have e1 : jStep ⟨JState.beginValue, st, et⟩ 45 = (⟨JState.neg, st, et⟩, JOp.cont) := rfl
    rw [hcs]
    simp only [checkLoop, e1, (jStep_first_digit c st et hc).2]
    exact hrun
  · rw [hcs]
    simp only [checkLoop, (jStep_first_digit c st et hc).1]
    exact hrun

/-- The scanner of `checkValid`, after the part of a WAL record before the value, is at the
start of a member value of the top-level object. -/
theorem checkLoop_record_lead (k : Bytes) (ts : Int) :
    checkLoop (B "\x7b\"Key\":" ++ (jsonQuote k ++ (B ",\"TS\":" ++ (fmtInt ts
        ++ B ",\"Value\":")))) { step := JState.beginValue, stack := [], endTop := false }
      = some ⟨JState.beginValue, [JParse.objectValue], false⟩ := by
  have e1 : checkLoop (B "\x7b\"Key\":")
      { step := JState.beginValue, stack := [], endTop := false }
      = some ⟨JState.beginValue, [JParse.objectValue], false⟩ := rfl
  have e2 : checkLoop (jsonQuote k) ⟨JState.beginValue, [JParse.objectValue], false⟩
      = some ⟨JState.endValue, [JParse.objectValue], false⟩ := by
    unfold jsonQuote
    have s1 : jStep ⟨JState.beginValue, [JParse.objectValue], false⟩ 34
        = (⟨JState.inString, [JParse.objectValue], false⟩, JOp.cont) := rfl
    simp only [checkLoop, s1]
    rw [checkLoop_append, checkLoop_quoteBody]
    rfl
  have e3 : checkLoop (B ",\"TS\":") ⟨JState.endValue, [JParse.objectValue], false⟩
      = some ⟨JState.beginValue, [JParse.objectValue], false⟩ := rfl
  obtain ⟨q, hq, e4⟩ := checkLoop_fmtInt ts [JParse.objectValue] false
  have e5 : checkLoop (B ",\"Value\":") ⟨q, [JParse.objectValue], false⟩
      = some ⟨JState.beginValue, [JParse.objectValue], false⟩ := by
    rcases hq with h | h <;> subst h <;> rfl
  rw [checkLoop_append, e1, Option.some_bind, checkLoop_append, e2, Option.some_bind,
    checkLoop_append, e3, Option.some_bind, checkLoop_append, e4, Option.some_bind, e5]

/-- The validity check of `json.Unmarshal` accepts the WAL record of key `k`, timestamp `ts` and
value text `v` exactly when it accepts the one-member object `{"Value":v}`. -/
theorem checkValid_record (k : Bytes) (ts : Int) (v : Bytes) :
    checkValid (B "\x7b\"Key\":" ++ (jsonQuote k ++ (B ",\"TS\":" ++ (fmtInt ts
        ++ (B ",\"Value\":" ++ (v ++ B "\x7d"))))))
      = checkValid (B "\x7b\"Value\":" ++ (v ++ B "\x7d")) := by
  have hlead := checkLoop_record_lead k ts
  have hshort : checkLoop (B "\x7b\"Value\":")
      { step := JState.beginValue, stack := [], endTop := false }
      = some ⟨JState.beginValue, [JParse.objectValue], false⟩ := rfl
  have hsplit : B "\x7b\"Key\":" ++ (jsonQuote k ++ (B ",\"TS\":" ++ (fmtInt ts
        ++ (B ",\"Value\":" ++ (v ++ B "\x7d")))))
      = (B "\x7b\"Key\":" ++ (jsonQuote k ++ (B ",\"TS\":" ++ (fmtInt ts
        ++ B ",\"Value\":")))) ++ (v ++ B "\x7d") := by
    simp only [List.append_assoc]
  unfold checkValid
  rw [hsplit, checkLoop_append, hlead, checkLoop_append, hshort]

theorem stripLead_append (p s : Bytes) : stripLead p (p ++ s) = some s := by
  induction p with
  | nil => cases s <;> rfl
  | cons a p ih => simp [stripLead, ih]

theorem takeWhile_append_stop {p : Fin 256 → Bool} (l1 l2 : Bytes) (h1 : ∀ x ∈ l1, p x = true)
    (h2 : ∀ y, l2.head? = some y → p y = false) : (l1 ++ l2).takeWhile p = l1 := by
  induction l1 with
  | nil =>
    cases l2 with
    | nil => rfl
    | cons y ys => simp [List.takeWhile, h2 y rfl]
  | cons a l ih =>
    simp only [List.cons_append, List.takeWhile_cons, h1 a (List.mem_cons_self _ _), if_true]
    rw [ih (fun x hx => h1 x (List.mem_cons_of_mem _ hx))]

theorem jsonInt_fmtInt (n : Int) (h : isInt64 n) : jsonInt (fmtInt n) = some n := by
  obtain ⟨h1, h2, h3, h4⟩ := fmtNat_spec n.natAbs
  have hhead : (fmtNat n.natAbs).head? ≠ some 45 := by
    cases hf : fmtNat n.natAbs with
    | nil => simp
    | cons a as =>
      have := h2 a (by rw [hf]; exact List.mem_cons_self _ _)
      simp only [List.head?_cons, ne_eq, Option.some.injEq]
      intro ha
      rw [ha] at this
      revert this
      decide
  have hall : (fmtNat n.natAbs).all jIsDigit = true := by
    rw [List.all_eq_true]
    intro x hx
    simp [jIsDigit, h2 x hx]
  have hzero : ¬ ((fmtNat n.natAbs).head? = some 48 ∧ (fmtNat n.natAbs).length > 1) := by
    rintro ⟨ha, hb⟩
    rw [h4 ha] at hb
    simp at hb
  unfold jsonInt fmtInt
  by_cases hn : n < 0
  · simp only [hn, if_true, List.head?_cons, decide_True, List.tail_cons, h1, if_false, hall,
      Bool.not_true, Bool.false_eq_true, hzero, h3]
    have : -(n.natAbs : Int) = n := by omega
    rw [this]
    simp [h]
  · simp only [hn, if_false, hhead, decide_False, h1, hall, Bool.not_true, Bool.false_eq_true,
      hzero, h3]
    have : (n.natAbs : Int) = n := by omega
    rw [this]
    simp [h]

/-- Decoding the line `json.Marshal` writes for key `k`, timestamp `ts` and compacted value `v`:
the decoder returns these three, provided the whole line passes the validity check, which it
does exactly when the object `{"Value":v}` does, and `v` is itself valid JSON. -/
theorem unmarshal_record (k : Bytes) (ts : Int) (v : Bytes) (hk : utf8Valid k = true)
    (hts : isInt64 ts) :
    unmarshalEvent (B "\x7b\"Key\":" ++ (jsonQuote k ++ (B ",\"TS\":" ++ (fmtInt ts
        ++ (B ",\"Value\":" ++ (v ++ B "\x7d"))))))
      = if checkValid (B "\x7b\"Value\":" ++ (v ++ B "\x7d")) = true ∧ (compactJSON v).isSome
          then some { Key := k, TS := ts, Value := v } else none := by
  have hrec : B "\x7b\"Key\":" ++ (jsonQuote k ++ (B ",\"TS\":" ++ (fmtInt ts
        ++ (B ",\"Value\":" ++ (v ++ B "\x7d")))))
      = B "\x7b\"Key\":\"" ++ (quoteBody k.length k ++ 34 :: (B ",\"TS\":" ++ (fmtInt ts
        ++ (B ",\"Value\":" ++ (v ++ B "\x7d"))))) := by
    have e1 : B "\x7b\"Key\":\"" = B "\x7b\"Key\":" ++ [34] := rfl
    rw [e1]
    simp [jsonQuote]
  unfold unmarshalEvent
  rw [checkValid_record]
  by_cases hcv : checkValid (B "\x7b\"Value\":" ++ (v ++ B "\x7d")) = true
  swap
  · simp [hcv]
  rw [if_neg (by simp [hcv])]
  rw [hrec, stripLead_append]
  simp only
  rw [unquote_quote k.length k _ _ (le_refl _) hk (by simp)]
  simp only
  rw [stripLead_append]
  simp only
  have htok : (fmtInt ts ++ (B ",\"Value\":" ++ (v ++ B "\x7d"))).takeWhile
      (fun c => jIsDigit c || decide (c = 45)) = fmtInt ts := by
    apply takeWhile_append_stop
    · intro x hx
      rcases fmtInt_bytes ts x hx with h | h
      · simp [jIsDigit, h]
      · simp [h]
    · intro y hy
      rw [lit_value] at hy
      simp only [List.cons_append, List.head?_cons, Option.some.injEq] at hy
      subst hy
      decide
  rw [htok, jsonInt_fmtInt ts hts, List.drop_left, stripLead_append]
  simp only
  have hlast : (v ++ B "\x7d").getLast? = some 125 := by
    rw [lit_close]; simp
  have hdrop : (v ++ B "\x7d").dropLast = v := by
    rw [lit_close]; simp
  rw [hlast, hdrop]
  simp [hcv]

/-! ### Replaying the WAL -/

theorem readString_line (r rest : Bytes) (h : ∀ x ∈ r, x ≠ 10) :
    readString (r ++ 10 :: rest) = (r ++ [10], rest, false) := by
  induction r with
  | nil => simp [readString]
  | cons a r ih =>
    have ha : a ≠ 10 := h a (List.mem_cons_self _ _)
    simp [readString, ha, ih (fun x hx => h x (List.mem_cons_of_mem _ hx))]

theorem dropCR_of_no_cr (r : Bytes) (h : ∀ x ∈ r, x ≠ 13) : dropCR r = r := by
  unfold dropCR
  split_ifs with hl
  · exfalso
    have := List.mem_of_getLast?_eq_some hl
    exact h 13 this rfl
  · rfl

theorem walEmit_append (tok : Bytes) (out : List Event) : walEmit tok out = out ++ walEmit tok [] := by
  unfold walEmit
  cases unmarshalEvent tok with
  | none => simp
  | some e => by_cases hk : e.Key ≠ [] <;> simp [hk]

/-- The loop of `wal.Replay` over a file of newline-terminated records that each fit the
scanner: every record is decoded in order and no error is returned. -/
theorem walReplayLoop_records (recs : List Bytes) : ∀ (fuel : Nat) (out : List Event),
    (∀ r ∈ recs, (∀ x ∈ r, x ≠ 10 ∧ x ≠ 13) ∧ r.length < maxTokenSize) →
    (walFile recs).length < fuel →
    walReplayLoop fuel (walFile recs) out
      = (out ++ recs.flatMap (fun r => walEmit r []), none) := by
  induction recs with
  | nil =>
    intro fuel out _ hf
    cases fuel with
    | zero => simp [walFile] at hf
    | succ fuel => simp [walFile, walReplayLoop, readString]
  | cons r rs ih =>
    intro fuel out hr hf
    cases fuel with
    | zero => omega
    | succ fuel =>
      have hr1 := hr r (List.mem_cons_self _ _)
      have hfile : walFile (r :: rs) = r ++ 10 :: walFile rs := by
        simp [walFile]
      rw [hfile] at hf ⊢
      unfold walReplayLoop
      rw [readString_line r _ (fun x hx => (hr1.1 x hx).1)]
      have hlen : ¬ ((r ++ [10]).length > maxTokenSize) := by
        simp only [List.length_append, List.length_singleton]
        omega
      simp only [Bool.false_eq_true, if_false, hlen, List.dropLast_concat]
      rw [dropCR_of_no_cr r (fun x hx => (hr1.1 x hx).2)]
      rw [ih fuel _ (fun r' hr' => hr r' (List.mem_cons_of_mem _ hr')) (by
        simp only [List.length_append, List.length_cons] at hf
        omega)]
      rw [walEmit_append r out]
      simp [List.append_assoc]

theorem walRecord_unmarshal_compact (e : Event) (hk : utf8Valid e.Key = true) (hts : isInt64 e.TS)
    (hv : compactJSON e.Value = some e.Value)
    (hd : checkValid (B "\x7b\"Value\":" ++ (e.Value ++ B "\x7d")) = true) :
    unmarshalEvent (walRecord e) = some e := by
  have hne : e.Value ≠ [] := by
    intro h
    rw [h] at hv
    have : compactJSON [] = none := by decide
    rw [this] at hv
    cases hv
  unfold walRecord marshalEvent
  simp only [hne, if_false, hv, Option.getD_some]
  rw [unmarshal_record e.Key e.TS e.Value hk hts, hv, if_pos ⟨hd, rfl⟩]

/-- C7 (amended): for every event with a non-empty valid UTF-8 key, a timestamp in the `int64`
range and a value that is a JSON document in the compact form `json.Marshal` writes and that is
still valid JSON as the member of an enclosing object (`json.Unmarshal` checks the whole record,
where the value lies one level deeper, against its nesting limit of 10000), whose record fits the
scanner of `wal.Replay`, after `wal.Append(e)` on an empty WAL `wal.Replay` emits exactly one
event, equal to `e` in key, timestamp and value bytes, and returns no error. -/
theorem wal_append_replay_roundtrip (e : Event) (hkey : e.Key ≠ []) (hk : utf8Valid e.Key = true)
    (hts : isInt64 e.TS) (hv : compactJSON e.Value = some e.Value)
    (hd : checkValid (B "\x7b\"Value\":" ++ (e.Value ++ B "\x7d")) = true)
    (hlen : (walAppend [] e).length ≤ maxTokenSize) :
    walReplay (walAppend [] e) = ([e], none) := by
  have hfile : walAppend [] e = walFile [walRecord e] := by
    simp [walAppend, walFile, walRecord]
  have hl : (walRecord e).length < maxTokenSize := by
    rw [hfile] at hlen
    simp only [walFile, List.flatMap_cons, List.flatMap_nil, List.append_nil, List.length_append,
      List.length_singleton] at hlen
    omega
  unfold walReplay
  rw [hfile, walReplayLoop_records [walRecord e] _ [] (by
    intro r hr
    simp only [List.mem_singleton] at hr
    subst hr
    exact ⟨walRecord_no_nl e, hl⟩) (by omega)]
  simp [walEmit, walRecord_unmarshal_compact e hk hts hv hd, hkey]

/-- Witness for C7 (amended): the event `{a, 1, {"v":1}}`. -/
theorem wal_append_replay_roundtrip_witness :
    walReplay (walAppend [] ⟨B "a", 1, B "\x7b\"v\":1\x7d"⟩)
      = ([⟨B "a", 1, B "\x7b\"v\":1\x7d"⟩], none) :=
  wal_append_replay_roundtrip ⟨B "a", 1, B "\x7b\"v\":1\x7d"⟩ (by decide) (by decide) (by decide)
    (by decide) (by decide) (by decide)

/-- C7 (counterexample): the event `{a, 1, A}` is valid for `Put` (non-empty key, non-zero
timestamp, non-empty value), but its value is not JSON: `wal.Append` writes an empty line and
`wal.Replay` emits no event. And for the value `{"v": 1}`, JSON that is not in compact form,
`wal.Replay` emits an event whose value is `{"v":1}`, other bytes than were appended. -/
theorem wal_drops_event_with_non_json_value :
    validEvent ⟨B "a", 1, B "A"⟩
      ∧ walAppend [] ⟨B "a", 1, B "A"⟩ = [10]
      ∧ walReplay (walAppend [] ⟨B "a", 1, B "A"⟩) = ([], none)
      ∧ walReplay (walAppend [] ⟨B "a", 1, B "\x7b\"v\": 1\x7d"⟩)
          = ([⟨B "a", 1, B "\x7b\"v\":1\x7d"⟩], none) := by
  decide

/-! ### The nesting limit: a value that `json.Marshal` accepts and `json.Unmarshal` refuses -/

theorem jStep_open_bracket (q : JState) (st : List JParse) (et : Bool)
    (hq : q = JState.beginValue ∨ q = JState.beginValueOrEmpty) :
    jStep ⟨q, st, et⟩ 91
      = if st.length + 1 ≤ maxNestingDepth then
          (⟨JState.beginValueOrEmpty, JParse.arrayValue :: st, et⟩, JOp.cont)
        else (⟨JState.error, JParse.arrayValue :: st, et⟩, JOp.error) := by
  rcases hq with h | h <;> subst h <;>
    simp +decide [jStep, jBeginValue, jPush, jError, jIsSpace]

theorem jStep_close_bracket (q : JState) (st : List JParse) (et : Bool)
    (hq : q = JState.endValue ∨ q = JState.beginValueOrEmpty) :
    jStep ⟨q, JParse.arrayValue :: st, et⟩ 93
      = (jPop ⟨q, JParse.arrayValue :: st, et⟩, JOp.cont) := by
  rcases hq with h | h <;> subst h <;>
    simp +decide [jStep, jEndValue, jIsSpace]

theorem compactLoop_plain_step (c : Fin 256) (cs : Bytes) (s s1 : JScanner) (out : Bytes)
    (hs : jStep s c = (s1, JOp.cont)) (h1 : c ≠ 226) (h2 : c ≠ 60 ∧ c ≠ 62 ∧ c ≠ 38) :
    compactLoop (c :: cs) s 0 out = compactLoop cs s1 0 (out ++ [c]) := by
  conv_lhs => unfold compactLoop
  simp [hs, h1, h2]

/-- The encoder copies a run of opening brackets within the nesting limit. -/
theorem compactLoop_open_run (rest : Bytes) (et : Bool) : ∀ (n : Nat) (st : List JParse)
    (out : Bytes), st.length + n ≤ maxNestingDepth →
    compactLoop (List.replicate n 91 ++ rest) ⟨JState.beginValueOrEmpty, st, et⟩ 0 out
      = compactLoop rest
          ⟨JState.beginValueOrEmpty, List.replicate n JParse.arrayValue ++ st, et⟩ 0
          (out ++ List.replicate n 91) := by
  intro n
  induction n with
  | zero => intro st out _; simp
  | succ n ih =>
    intro st out h
    rw [List.replicate_succ, List.cons_append,
      compactLoop_plain_step 91 _ _ ⟨JState.beginValueOrEmpty, JParse.arrayValue :: st, et⟩ out
        (by rw [jStep_open_bracket _ _ _ (Or.inr rfl), if_pos (by omega)]) (by decide)
        (by decide),
      ih (JParse.arrayValue :: st) _ (by simp only [List.length_cons]; omega)]
    have e1 : List.replicate n JParse.arrayValue ++ JParse.arrayValue :: st
        = List.replicate (n + 1) JParse.arrayValue ++ st := by
      rw [List.replicate_succ', List.append_assoc]; rfl
    have e2 : out ++ [91] ++ List.replicate n (91 : Fin 256)
        = out ++ (91 :: List.replicate n 91) := by simp
    rw [e1, e2]

/-- The encoder copies a run of closing brackets that leaves the stack non-empty. -/
theorem compactLoop_close_run (rest : Bytes) (et : Bool) : ∀ (n : Nat) (st : List JParse)
    (out : Bytes), st ≠ [] →
    compactLoop (List.replicate n 93 ++ rest)
        ⟨JState.endValue, List.replicate n JParse.arrayValue ++ st, et⟩ 0 out
      = compactLoop rest ⟨JState.endValue, st, et⟩ 0 (out ++ List.replicate n 93) := by
  intro n
  induction n with
  | zero => intro st out _; simp
  | succ n ih =>
    intro st out h
    have hne : List.replicate n JParse.arrayValue ++ st ≠ [] := by simp [h]
    have hpop : jPop ⟨JState.endValue,
        JParse.arrayValue :: (List.replicate n JParse.arrayValue ++ st), et⟩
        = ⟨JState.endValue, List.replicate n JParse.arrayValue ++ st, et⟩ := by
      unfold jPop
      simp only [List.tail_cons]
    rw [List.replicate_succ, List.cons_append, List.replicate_succ, List.cons_append,
      compactLoop_plain_step 93 _ _ ⟨JState.endValue, List.replicate n JParse.arrayValue ++ st, et⟩
        out (by rw [jStep_close_bracket _ _ _ (Or.inl rfl), hpop]) (by decide) (by decide),
      ih st _ h]
    simp

/-- The validity check passes over a run of opening brackets within the nesting limit. -/
theorem checkLoop_open_run (rest : Bytes) (et : Bool) : ∀ (n : Nat) (st : List JParse),
    st.length + n ≤ maxNestingDepth →
    checkLoop (List.replicate n 91 ++ rest) ⟨JState.beginValueOrEmpty, st, et⟩
      = checkLoop rest
          ⟨JState.beginValueOrEmpty, List.replicate n JParse.arrayValue ++ st, et⟩ := by
  intro n
  induction n with
  | zero => intro st _; simp
  | succ n ih =>
    intro st h
    rw [List.replicate_succ, List.cons_append]
    simp only [checkLoop]
    rw [jStep_open_bracket _ _ _ (Or.inr rfl), if_pos (by omega)]
    simp only
    rw [ih (JParse.arrayValue :: st) (by simp only [List.length_cons]; omega)]
    have e1 : List.replicate n JParse.arrayValue ++ JParse.arrayValue :: st
        = List.replicate (n + 1) JParse.arrayValue ++ st := by
      rw [List.replicate_succ', List.append_assoc]; rfl
    rw [e1]

/-- The array nested `k + 2` deep, within the nesting limit, is a JSON document in compact form
for `json.Marshal`: the encoder checks a `RawMessage` on its own. -/
theorem compactJSON_nested (k : Nat) (hk : k + 2 ≤ maxNestingDepth) :
    compactJSON (List.replicate (k + 2) 91 ++ List.replicate (k + 2) 93)
      = some (List.replicate (k + 2) 91 ++ List.replicate (k + 2) 93) := by
  have h1 : (List.replicate (k + 2) 91 : Bytes) = 91 :: List.replicate (k + 1) 91 := rfl
  have h2 : (List.replicate (k + 2) 93 : Bytes) = 93 :: (List.replicate k 93 ++ [93]) := by
    rw [← List.replicate_succ', ← List.replicate_succ]
  have h3 : List.replicate (k + 1) JParse.arrayValue ++ [JParse.arrayValue]
      = JParse.arrayValue :: (List.replicate k JParse.arrayValue ++ [JParse.arrayValue]) := by
    rw [← List.replicate_succ', ← List.replicate_succ', ← List.replicate_succ]
  have hpop : jPop ⟨JState.beginValueOrEmpty,
      JParse.arrayValue :: (List.replicate k JParse.arrayValue ++ [JParse.arrayValue]), false⟩
      = ⟨JState.endValue, List.replicate k JParse.arrayValue ++ [JParse.arrayValue], false⟩ := by
    unfold jPop
    simp only [List.tail_cons]
    cases hr : List.replicate k JParse.arrayValue ++ [JParse.arrayValue] with
    | nil => simp at hr
    | cons a l => rfl
  have hout : (([] : Bytes) ++ [91] ++ List.replicate (k + 1) 91 ++ [93] ++ List.replicate k 93
      ++ [93]) = 91 :: List.replicate (k + 1) 91 ++ 93 :: (List.replicate k 93 ++ [93]) := by
    simp
  unfold compactJSON
  rw [h1, List.cons_append,
    compactLoop_plain_step 91 _ _ ⟨JState.beginValueOrEmpty, [JParse.arrayValue], false⟩ []
      (by rw [jStep_open_bracket _ _ _ (Or.inl rfl)]; rfl) (by decide) (by decide),
    compactLoop_open_run _ false (k + 1) [JParse.arrayValue] _ (by
      simp only [List.length_singleton]; omega), h2, h3,
    compactLoop_plain_step 93 _ _
      ⟨JState.endValue, List.replicate k JParse.arrayValue ++ [JParse.arrayValue], false⟩ _
      (by rw [jStep_close_bracket _ _ _ (Or.inr rfl), hpop]) (by decide) (by decide),
    compactLoop_close_run _ false k [JParse.arrayValue] _ (by simp),
    compactLoop_plain_step 93 [] _ ⟨JState.endTop, [], true⟩ _
      (by rw [jStep_close_bracket _ _ _ (Or.inl rfl)]; rfl) (by decide) (by decide), hout]
  simp [compactLoop, jEof]

/-- The validity check of `json.Unmarshal` refuses the WAL record of a value that starts with as
many opening brackets as the nesting limit allows: inside the record's object the last of them
is one level too deep. -/
theorem checkValid_nested (k : Nat) (hk : k + 2 = maxNestingDepth) (rest : Bytes) :
    checkValid (B "\x7b\"Value\":" ++ (List.replicate (k + 2) 91 ++ rest)) = false := by
  have hshort : checkLoop (B "\x7b\"Value\":")
      { step := JState.beginValue, stack := [], endTop := false }
      = some ⟨JState.beginValue, [JParse.objectValue], false⟩ := rfl
  have h1 : (List.replicate (k + 2) 91 : Bytes) = 91 :: (List.replicate k 91 ++ [91]) := by
    rw [← List.replicate_succ', ← List.replicate_succ]
  have hlen : ¬ ((List.replicate k JParse.arrayValue
      ++ [JParse.arrayValue, JParse.objectValue]).length + 1 ≤ maxNestingDepth) := by
    simp only [List.length_append, List.length_replicate, List.length_cons, List.length_nil]
    omega
  unfold checkValid
  rw [checkLoop_append, hshort, Option.some_bind, h1, List.cons_append]
  simp only [checkLoop]
  rw [jStep_open_bracket _ _ _ (Or.inl rfl), if_pos (by decide)]
  simp only
  rw [List.append_assoc, checkLoop_open_run _ false k _ (by
    simp only [List.length_cons, List.length_nil]; omega)]
  simp only [List.singleton_append, checkLoop]
  rw [jStep_open_bracket _ _ _ (Or.inr rfl), if_neg hlen]

/-- The WAL at the nesting limit, for any depth `k + 2` equal to the limit: `wal.Append` writes
the record of the array nested that deep, and `wal.Replay` emits no event for it. -/
theorem wal_drops_value_nested (k : Nat) (hk : k + 2 = maxNestingDepth) :
    walAppend [] ⟨B "a", 1, List.replicate (k + 2) 91 ++ List.replicate (k + 2) 93⟩
        = B "\x7b\"Key\":\"a\",\"TS\":1,\"Value\":"
            ++ (List.replicate (k + 2) 91 ++ List.replicate (k + 2) 93) ++ B "\x7d\n"
      ∧ walReplay (walAppend [] ⟨B "a", 1,
          List.replicate (k + 2) 91 ++ List.replicate (k + 2) 93⟩) = ([], none) := by
  have hne : (List.replicate (k + 2) 91 ++ List.replicate (k + 2) 93 : Bytes) ≠ [] := by
    rw [List.replicate_succ]
    simp
  have hrec : walRecord ⟨B "a", 1, List.replicate (k + 2) 91 ++ List.replicate (k + 2) 93⟩
      = B "\x7b\"Key\":" ++ (jsonQuote (B "a") ++ (B ",\"TS\":" ++ (fmtInt 1
        ++ (B ",\"Value\":" ++ ((List.replicate (k + 2) 91 ++ List.replicate (k + 2) 93)
          ++ B "\x7d"))))) := by
    unfold walRecord marshalEvent
    simp only [hne, if_false, compactJSON_nested k (le_of_eq hk), Option.getD_some]
  have hfile : walAppend [] ⟨B "a", 1, List.replicate (k + 2) 91 ++ List.replicate (k + 2) 93⟩
      = walFile [walRecord ⟨B "a", 1,
          List.replicate (k + 2) 91 ++ List.replicate (k + 2) 93⟩] := by
    simp [walAppend, walFile, walRecord]
  have hu : unmarshalEvent
      (walRecord ⟨B "a", 1, List.replicate (k + 2) 91 ++ List.replicate (k + 2) 93⟩)
      = none := by
    rw [hrec]
    unfold unmarshalEvent
    rw [checkValid_record, List.append_assoc, checkValid_nested k hk]
    rfl
  have e1 : B "\x7b\"Key\":" ++ (jsonQuote (B "a") ++ (B ",\"TS\":" ++ (fmtInt 1
      ++ B ",\"Value\":"))) = B "\x7b\"Key\":\"a\",\"TS\":1,\"Value\":" := by decide
  have e2 : B "\x7b\"Key\":" ++ (jsonQuote (B "a") ++ (B ",\"TS\":" ++ (fmtInt 1
      ++ (B ",\"Value\":" ++ ((List.replicate (k + 2) 91 ++ List.replicate (k + 2) 93)
        ++ B "\x7d")))))
      = (B "\x7b\"Key\":" ++ (jsonQuote (B "a") ++ (B ",\"TS\":" ++ (fmtInt 1
        ++ B ",\"Value\":")))) ++ ((List.replicate (k + 2) 91 ++ List.replicate (k + 2) 93)
        ++ B "\x7d") := by
    simp only [List.append_assoc]
  have hl : (walRecord ⟨B "a", 1,
      List.replicate (k + 2) 91 ++ List.replicate (k + 2) 93⟩).length < maxTokenSize := by
    have e3 : (B "\x7b\"Key\":\"a\",\"TS\":1,\"Value\":").length = 26 := by decide
    have e4 : (B "\x7d").length = 1 := by decide
    rw [hrec, e2, e1, List.length_append, e3, List.length_append, List.length_append,
      List.length_replicate, List.length_replicate, e4]
    unfold maxNestingDepth at hk
    unfold maxTokenSize
    omega
  constructor
  · rw [hfile]
    simp only [walFile, List.flatMap_cons, List.flatMap_nil, List.append_nil]
    rw [hrec, e2, e1]
    have e5 : B "\x7d\n" = B "\x7d" ++ [10] := by decide
    rw [e5]
    simp only [List.append_assoc]
  · unfold walReplay
    rw [hfile, walReplayLoop_records [_] _ [] (by
      intro r hr
      simp only [List.mem_singleton] at hr
      subst hr
      exact ⟨walRecord_no_nl _, hl⟩) (by omega)]
    simp [walEmit, hu]

/-- At the nesting limit the WAL loses an event whose value is valid JSON in compact form: for
the array nested 10000 deep `wal.Append` writes the record (20027 bytes and a newline), and
`wal.Replay` emits no event for it and returns no error. -/
theorem wal_drops_value_nested_10000 :
    walAppend [] ⟨B "a", 1, List.replicate 10000 91 ++ List.replicate 10000 93⟩
        = B "\x7b\"Key\":\"a\",\"TS\":1,\"Value\":"
            ++ (List.replicate 10000 91 ++ List.replicate 10000 93) ++ B "\x7d\n"
      ∧ walReplay (walAppend [] ⟨B "a", 1, List.replicate 10000 91 ++ List.replicate 10000 93⟩)
          = ([], none) :=
  wal_drops_value_nested 9998 rfl

/-! ### The WAL of a running store, and reopening -/

theorem b64val_b64char (n : Nat) (h : n < 64) : b64val (b64char n) = some n := by
  interval_cases n <;> decide

theorem b64char_plain (n : Nat) (h : n < 64) :
    b64char n ≠ 61 ∧ b64char n ≠ 9 ∧ b64char n ≠ 10 ∧ b64char n ≠ 13 := by
  interval_cases n <;> decide

theorem base64Encode_plain (v : Bytes) :
    ∀ x ∈ base64Encode v, x ≠ 9 ∧ x ≠ 10 ∧ x ≠ 13 := by
  induction v using base64Encode.induct with
  | case1 => simp [base64Encode]
  | case2 a =>
    have h1 := b64char_plain (a.val / 4) (by omega)
    have h2 := b64char_plain (a.val % 4 * 16) (by omega)
    simp only [base64Encode, List.forall_mem_cons, List.not_mem_nil, false_implies, implies_true,
      and_true]
    exact ⟨h1.2, h2.2, by decide, by decide⟩
  | case3 a b =>
    have h1 := b64char_plain (a.val / 4) (by omega)
    have h2 := b64char_plain (a.val % 4 * 16 + b.val / 16) (by omega)
    have h3 := b64char_plain (b.val % 16 * 4) (by omega)
    simp only [base64Encode, List.forall_mem_cons, List.not_mem_nil, false_implies, implies_true,
      and_true]
    exact ⟨h1.2, h2.2, h3.2, by decide⟩
  | case4 a b c rest ih =>
    have h1 := b64char_plain (a.val / 4) (by omega)
    have h2 := b64char_plain (a.val % 4 * 16 + b.val / 16) (by omega)
    have h3 := b64char_plain (b.val % 16 * 4 + c.val / 64) (by omega)
    have h4 := b64char_plain (c.val % 64) (by omega)
    simp only [base64Encode, List.forall_mem_cons]
    exact ⟨h1.2, h2.2, h3.2, h4.2, ih⟩

theorem byte_of_parts (a : Fin 256) (n : Nat) (h : n = a.val) : (Fin.ofNat n : Fin 256) = a := by
  subst h
  apply Fin.ext
  simp [Fin.ofNat]

theorem base64Quanta_encode (v : Bytes) : base64Quanta (base64Encode v) = some v := by
  induction v using base64Encode.induct with
  | case1 => rfl
  | case2 a =>
    have ha := a.isLt
    simp only [base64Encode, base64Quanta, b64val_b64char (a.val / 4) (by omega),
      b64val_b64char (a.val % 4 * 16) (by omega), and_self, if_true]
    rw [byte_of_parts a _ (by omega)]
  | case3 a b =>
    have ha := a.isLt
    have hb := b.isLt
    have h3 := b64char_plain (b.val % 16 * 4) (by omega)
    have e61 : ¬ ((61 : Fin 256) = 61 ∧ False) := by simp
    simp only [base64Encode, base64Quanta, b64val_b64char (a.val / 4) (by omega),
      b64val_b64char (a.val % 4 * 16 + b.val / 16) (by omega),
      b64val_b64char (b.val % 16 * 4) (by omega), h3.1, false_and, if_false, if_true]
    rw [byte_of_parts a _ (by omega), byte_of_parts b _ (by omega)]
  | case4 a b c rest ih =>
    have ha := a.isLt
    have hb := b.isLt
    have hc := c.isLt
    have h3 := b64char_plain (b.val % 16 * 4 + c.val / 64) (by omega)
    have h4 := b64char_plain (c.val % 64) (by omega)
    have v1 := b64val_b64char (a.val / 4) (by omega)
    have v2 := b64val_b64char (a.val % 4 * 16 + b.val / 16) (by omega)
    have v3 := b64val_b64char (b.val % 16 * 4 + c.val / 64) (by omega)
    have v4 := b64val_b64char (c.val % 64) (by omega)
    rw [base64Encode]
    cases hr : base64Encode rest with
    | nil =>
      rw [hr] at ih
      have hrest : rest = [] := by
        cases rest with
        | nil => rfl
        | cons x xs =>
          exfalso
          rcases xs with _ | ⟨y, _ | ⟨z, zs⟩⟩ <;> simp [base64Encode] at hr
      subst hrest
      simp only [base64Quanta, v1, v2, v3, v4, h3.1, h4.1, false_and, if_false]
      rw [byte_of_parts a _ (by omega), byte_of_parts b _ (by omega),
        byte_of_parts c _ (by omega)]
    | cons x xs =>
      rw [hr] at ih
      simp only [base64Quanta, v1, v2, v3, v4, ih]
      rw [byte_of_parts a _ (by omega), byte_of_parts b _ (by omega),
        byte_of_parts c _ (by omega)]

/-- Decoding what `EncodeToString` wrote gives back the bytes. -/
theorem base64Decode_encode (v : Bytes) : base64Decode (base64Encode v) = some v := by
  unfold base64Decode
  have : (base64Encode v).filter (fun c => decide (c ≠ 13 ∧ c ≠ 10)) = base64Encode v := by
    rw [List.filter_eq_self]
    intro x hx
    have := base64Encode_plain v x hx
    simp [this.2.1, this.2.2]
  rw [this, base64Quanta_encode]

/-! ### Record lines of a segment -/

theorem leadLen_wideSpaces_ascii (c : Fin 256) (cs : Bytes) (hc : c.val < 128) :
    leadLen wideSpaces (c :: cs) = 0 := by
  have h : ∀ p ∈ wideSpaces, p.isPrefixOf (c :: cs) = false := by
    intro p hp
    simp only [wideSpaces, List.mem_cons, List.mem_singleton, List.not_mem_nil, or_false] at hp
    have h194 : c ≠ 194 := by intro h; rw [h] at hc; revert hc; decide
    have h225 : c ≠ 225 := by intro h; rw [h] at hc; revert hc; decide
    have h226 : c ≠ 226 := by intro h; rw [h] at hc; revert hc; decide
    have h227 : c ≠ 227 := by intro h; rw [h] at hc; revert hc; decide
    rcases hp with h | h | h | h | h | h | h | h | h | h | h | h | h | h | h | h | h | h | h <;>
      subst h <;> simp [List.isPrefixOf, Ne.symm h194, Ne.symm h225, Ne.symm h226, Ne.symm h227]
  unfold leadLen
  have : wideSpaces.find? (fun p => p.isPrefixOf (c :: cs)) = none := by
    rw [List.find?_eq_none]
    intro p hp
    simp [h p hp]
  rw [this]

theorem skipSpace_digit (c : Fin 256) (cs : Bytes) (fuel : Nat)
    (hc : (48 ≤ c.val ∧ c.val ≤ 57) ∨ c = 45) : skipSpace fuel (c :: cs) = some (c :: cs) := by
  cases fuel with
  | zero => rfl
  | succ fuel =>
    have h10 : c ≠ 10 := by
      rcases hc with h | h
      · intro h2; rw [h2] at h; revert h; decide
      · rw [h]; decide
    have hsp : ¬ (c = 32 ∨ (9 ≤ c.val ∧ c.val ≤ 13)) := by
      rcases hc with h | h
      · rintro (h2 | h2)
        · rw [h2] at h; revert h; decide
        · omega
      · rw [h]; decide
    have hlt : c.val < 128 := by
      rcases hc with h | h
      · omega
      · rw [h]; decide
    simp only [skipSpace, h10, hsp, if_false, leadLen_wideSpaces_ascii c cs hlt, if_true]

theorem takeWhile_all {p : Fin 256 → Bool} (l : Bytes) (h : ∀ x ∈ l, p x = true) :
    l.takeWhile p = l := by
  have := takeWhile_append_stop (p := p) l [] h (by simp)
  simpa using this

theorem natDigitsAux_length (k : Nat) : ∀ (fuel n : Nat) (acc : Bytes), n < 10 ^ (k + 1) →
    (natDigitsAux fuel n acc).length ≤ acc.length + k + 1 := by
  induction k with
  | zero =>
    intro fuel n acc h
    cases fuel with
    | zero => simp [natDigitsAux]
    | succ fuel =>
      have h10 : n < 10 := by simpa using h
      simp [natDigitsAux, h10]
  | succ k ih =>
    intro fuel n acc h
    cases fuel with
    | zero => simp only [natDigitsAux]; omega
    | succ fuel =>
      unfold natDigitsAux
      by_cases h10 : n < 10
      · rw [if_pos h10]
        simp only [List.length_cons]
        omega
      · rw [if_neg h10]
        have hdiv : n / 10 < 10 ^ (k + 1) := by
          rw [Nat.div_lt_iff_lt_mul (by omega)]
          rw [pow_succ] at h
          exact h
        have := ih fuel (n / 10) (digitChar n :: acc) hdiv
        simp only [List.length_cons] at this
        omega

/-- The decimal text of an `int64` has at most 20 bytes. -/
theorem fmtInt_length (n : Int) (h : isInt64 n) : (fmtInt n).length ≤ 20 := by
  unfold isInt64 at h
  have hb : n.natAbs < 10 ^ (18 + 1) := by
    have : n.natAbs ≤ 9223372036854775808 := by omega
    have h2 : (9223372036854775808 : Nat) < 10 ^ (18 + 1) := by norm_num
    omega
  have hl := natDigitsAux_length 18 (n.natAbs + 1) n.natAbs [] hb
  simp only [List.length_nil] at hl
  unfold fmtInt fmtNat
  split_ifs
  · simp only [List.length_cons]; omega
  · omega

/-- A text of at most `n` bytes has at most `n` runes. -/
theorem takeRunes_of_short (n : Nat) : ∀ s : Bytes, s.length ≤ n → takeRunes n s = s := by
  induction n with
  | zero =>
    intro s h
    have : s = [] := List.length_eq_zero.mp (by omega)
    subst this
    rfl
  | succ n ih =>
    intro s h
    cases s with
    | nil => rfl
    | cons c cs =>
      unfold takeRunes
      have hw : 1 ≤ (if utf8Width (c :: cs) = 0 then 1 else utf8Width (c :: cs)) := by
        split_ifs <;> omega
      rw [ih _ (by
        rw [List.length_drop]
        simp only [List.length_cons] at h ⊢
        omega)]
      exact List.take_append_drop _ _

/-- Scanning the decimal text of an `int64` with `%d` gives the number back. -/
theorem sscanInt_fmtInt (n : Int) (h : isInt64 n) : sscanInt (fmtInt n) = some n := by
  obtain ⟨h1, h2, h3, _⟩ := fmtNat_spec n.natAbs
  obtain ⟨c, cs, hcs, hc⟩ := fmtNat_head n.natAbs
  have htok : (fmtNat n.natAbs).takeWhile
      (fun c => decide (48 ≤ c.val ∧ c.val ≤ 57)) = fmtNat n.natAbs := by
    apply takeWhile_all
    intro x hx
    simp [h2 x hx]
  have hc45 : c ≠ 45 := by intro h; rw [h] at hc; revert hc; decide
  have hc43 : c ≠ 43 := by intro h; rw [h] at hc; revert hc; decide
  have hrunes : takeRunes hugeWid (fmtInt n) = fmtInt n := by
    apply takeRunes_of_short
    have := fmtInt_length n h
    unfold hugeWid
    omega
  unfold sscanInt
  rw [hrunes]
  unfold fmtInt
  by_cases hn : n < 0
  · simp only [hn, if_true]
    rw [skipSpace_digit 45 _ _ (Or.inr rfl)]
    simp only [List.head?_cons, decide_True, true_or, if_true, List.tail_cons, htok, h1, if_false,
      h3]
    have : -(n.natAbs : Int) = n := by omega
    rw [this]
    simp [h]
  · simp only [hn, if_false]
    rw [hcs, skipSpace_digit c cs _ (Or.inl hc), ← hcs]
    have hh : (fmtNat n.natAbs).head? = some c := by rw [hcs]; rfl
    have e1 : ¬ (some c = some (45 : Fin 256)) := by simpa using hc45
    have e2 : ¬ (some c = some (43 : Fin 256)) := by simpa using hc43
    simp only [hh, e1, e2, decide_False, or_self, if_false, htok, h1, h3]
    have : (n.natAbs : Int) = n := by omega
    rw [this]
    simp [h]

theorem splitTab_no_tab (l : Bytes) (h : ∀ x ∈ l, x ≠ 9) : splitTab l = [l] := by
  induction l with
  | nil => rfl
  | cons a l ih =>
    have ha : a ≠ 9 := h a (List.mem_cons_self _ _)
    simp [splitTab, ha, ih (fun x hx => h x (List.mem_cons_of_mem _ hx))]

theorem splitTab_append (l rest : Bytes) (h : ∀ x ∈ l, x ≠ 9) :
    splitTab (l ++ 9 :: rest) = l :: splitTab rest := by
  induction l with
  | nil => simp [splitTab]
  | cons a l ih =>
    have ha : a ≠ 9 := h a (List.mem_cons_self _ _)
    simp [splitTab, ha, ih (fun x hx => h x (List.mem_cons_of_mem _ hx))]

/-- The text of a record line without its newline. -/
theorem recordLine_eq (e : Event) :
    recordLine e = (e.Key ++ 9 :: (fmtInt e.TS ++ 9 :: base64Encode e.Value)) ++ [10] := by
  simp [recordLine]

theorem fmtInt_no_tab (n : Int) : ∀ x ∈ fmtInt n, x ≠ 9 ∧ x ≠ 10 := by
  intro x hx
  rcases fmtInt_bytes n x hx with h | h
  · constructor <;> (intro h2; rw [h2] at h; revert h; decide)
  · rw [h]; decide

/-- A record line written by `sstableWrite` is decoded by `tryParseLine` to the event it was
written for, when the key holds no tab and the timestamp is an `int64`. -/
theorem tryParseLine_record (e : Event) (hk : ∀ x ∈ e.Key, x ≠ 9) (hts : isInt64 e.TS) :
    tryParseLine (e.Key ++ 9 :: (fmtInt e.TS ++ 9 :: base64Encode e.Value)) = (e, true, none) := by
  unfold tryParseLine
  rw [splitTab_append _ _ hk, splitTab_append _ _ (fun x hx => (fmtInt_no_tab _ x hx).1),
    splitTab_no_tab _ (fun x hx => (base64Encode_plain _ x hx).1)]
  simp only [sscanInt_fmtInt e.TS hts, base64Decode_encode]

/-- The verb `%d` of `Sscanf` reads an optional sign and decimal digits only: it stops at an
underscore and ignores what follows, so the line `a\t1_0\tQQ==` decodes to the event
`{a, 1, A}`. -/
theorem tryParseLine_digits_then_underscore :
    sscanInt (B "1_0") = some 1
      ∧ sscanInt (B " +7x") = some 7
      ∧ sscanInt (B "_1") = none
      ∧ tryParseLine (B "a\t1_0\tQQ==") = (⟨B "a", 1, B "A"⟩, true, none) := by
  decide

/-! ### The segment file -/

theorem bufWrite_concat (w : BufWriter) (p : Bytes) :
    (bufWrite w p).file ++ (bufWrite w p).buf = w.file ++ w.buf ++ p := by
  unfold bufWrite
  by_cases h1 : p.length > bufSize - w.buf.length
  · by_cases h2 : w.buf.length = 0
    · have : w.buf = [] := List.length_eq_zero.mp h2
      rw [if_pos h1, if_pos h2]
      simp [this]
    · by_cases h3 : (p.drop (bufSize - w.buf.length)).length > bufSize
      · simp only [h1, h2, h3, if_true, if_false, List.append_nil, List.append_assoc]
        rw [List.take_append_drop]
      · simp only [h1, h2, h3, if_true, if_false, List.append_assoc]
        rw [List.take_append_drop]
  · simp [h1]

theorem foldl_writeItem_concat (items : List Event) : ∀ (st : BufWriter × index),
    (items.foldl writeItem st).1.file ++ (items.foldl writeItem st).1.buf
      = st.1.file ++ st.1.buf ++ items.flatMap recordLine := by
  induction items with
  | nil => intro st; simp
  | cons e es ih =>
    intro st
    rw [List.foldl_cons, ih]
    simp only [writeItem, bufWrite_concat, List.flatMap_cons, List.append_assoc]

/-- The segment file is the header followed by the record lines, in the order of the items. -/
theorem segFile_eq (items : List Event) :
    segFile items = B "SST1\n" ++ items.flatMap recordLine := by
  unfold segFile writeItems
  rw [foldl_writeItem_concat, bufWrite_concat]
  simp

theorem linesOf_line (l rest : Bytes) (h : ∀ x ∈ l, x ≠ 10) :
    linesOf (l ++ 10 :: rest) = l :: linesOf rest := by
  induction l with
  | nil => simp [linesOf]
  | cons a l ih =>
    have ha : a ≠ 10 := h a (List.mem_cons_self _ _)
    simp [linesOf, ha, ih (fun x hx => h x (List.mem_cons_of_mem _ hx))]

theorem recordText_no_nl (e : Event) (hk : plainKey e.Key) :
    ∀ x ∈ e.Key ++ 9 :: (fmtInt e.TS ++ 9 :: base64Encode e.Value), x ≠ 10 := by
  intro x hx
  simp only [List.mem_append, List.mem_cons] at hx
  rcases hx with h | h | h | h | h
  · exact (hk x h).2
  · rw [h]; decide
  · exact (fmtInt_no_tab _ x h).2
  · rw [h]; decide
  · exact (base64Encode_plain _ x h).2.1

theorem linesOf_records (items : List Event) (hk : ∀ e ∈ items, plainKey e.Key) :
    linesOf (items.flatMap recordLine)
      = items.map (fun e => e.Key ++ 9 :: (fmtInt e.TS ++ 9 :: base64Encode e.Value)) := by
  induction items with
  | nil => simp [linesOf]
  | cons e es ih =>
    rw [List.flatMap_cons, recordLine_eq, List.append_assoc, List.singleton_append,
      linesOf_line _ _ (recordText_no_nl e (hk e (List.mem_cons_self _ _))),
      ih (fun x hx => hk x (List.mem_cons_of_mem _ hx))]
    rfl

/-- Scanning a segment file written for `items` yields `items`, in order, when every key is free
of tabs and newlines and every timestamp is an `int64`. -/
theorem scannedRecords_segFile (items : List Event) (hk : ∀ e ∈ items, plainKey e.Key)
    (hts : ∀ e ∈ items, isInt64 e.TS) : scannedRecords (segFile items) = items := by
  have hhead : B "SST1\n" = B "SST1" ++ [10] := rfl
  have hh : ∀ x ∈ B "SST1", x ≠ 10 := fun x hx => (no_nl_of_all (B "SST1") rfl x hx).1
  unfold scannedRecords
  rw [segFile_eq, hhead, List.append_assoc, List.singleton_append, linesOf_line _ _ hh,
    List.tail_cons, linesOf_records items hk]
  clear hhead hh
  induction items with
  | nil => rfl
  | cons e es ih =>
    have hne : e.Key ++ 9 :: (fmtInt e.TS ++ 9 :: base64Encode e.Value) ≠ [] := by
      cases e.Key <;> simp
    have hdec : decodeLine (e.Key ++ 9 :: (fmtInt e.TS ++ 9 :: base64Encode e.Value)) = some e := by
      unfold decodeLine
      rw [tryParseLine_record e (fun x hx => (hk e (List.mem_cons_self _ _) x hx).1)
        (hts e (List.mem_cons_self _ _))]
    simp only [List.map_cons, List.takeWhile_cons, hne, ne_eq, not_false_eq_true, decide_True,
      if_true, List.filterMap_cons, hdec]
    rw [ih (fun x hx => hk x (List.mem_cons_of_mem _ hx))
      (fun x hx => hts x (List.mem_cons_of_mem _ hx))]

theorem fileRead_fileWrite_same {α : Type} (fs : List (Bytes × α)) (name : Bytes) (c : α) :
    fileRead (fileWrite fs name c) name = some c := by
  induction fs with
  | nil => simp [fileWrite, fileRead]
  | cons f fs ih =>
    obtain ⟨n, c0⟩ := f
    by_cases h : n = name
    · simp [fileWrite, fileRead, h]
    · simp [fileWrite, fileRead, h, ih]

theorem fileRead_fileWrite_other {α : Type} (fs : List (Bytes × α)) (name other : Bytes) (c : α)
    (h : other ≠ name) : fileRead (fileWrite fs name c) other = fileRead fs other := by
  induction fs with
  | nil => simp [fileWrite, fileRead, Ne.symm h]
  | cons f fs ih =>
    obtain ⟨n, c0⟩ := f
    by_cases hn : n = name
    · have : ¬ n = other := fun h2 => h (h2.symm.trans hn)
      simp [fileWrite, fileRead, hn, this, Ne.symm h]
    · by_cases ho : n = other
      · subst ho
        simp [fileWrite, fileRead, hn]
      · simp [fileWrite, fileRead, hn, ho, ih]

/-! ### Segment names -/

theorem trimSuffixSst_append (x : Bytes) : trimSuffixSst (x ++ B ".sst") = x := by
  unfold trimSuffixSst
  have h : (B ".sst").isSuffixOf (x ++ B ".sst") = true := by
    rw [List.isSuffixOf_iff_suffix]
    exact List.suffix_append _ _
  have hl : (B ".sst").length = 4 := rfl
  rw [if_pos h, List.length_append, hl, Nat.add_sub_cancel, List.take_left]

theorem digitsVal_zeros (k : Nat) (ds : Bytes) :
    digitsVal (List.replicate k 48 ++ ds) = digitsVal ds := by
  unfold digitsVal
  rw [List.foldl_append]
  have : (List.replicate k (48 : Fin 256)).foldl (fun acc d => acc * 10 + (d.val - 48)) 0 = 0 := by
    induction k with
    | zero => rfl
    | succ k ih =>
      rw [List.replicate_succ, List.foldl_cons]
      simpa using ih
  rw [this]

/-- `Atoi` of the number part of a segment name gives the number back. -/
theorem atoi_fmtInt06 (i : Nat) (h : (i : Int) ≤ 9223372036854775807) :
    atoi (fmtInt06 (i : Int)) = (i : Int) := by
  obtain ⟨h1, h2, h3, _⟩ := fmtNat_spec i
  have hnn : ¬ ((i : Int) < 0) := by omega
  have habs : (i : Int).natAbs = i := Int.natAbs_ofNat i
  have hall : ∀ x ∈ List.replicate (6 - (fmtNat i).length) (48 : Fin 256) ++ fmtNat i,
      48 ≤ x.val ∧ x.val ≤ 57 := by
    intro x hx
    rcases List.mem_append.mp hx with h | h
    · rw [(List.mem_replicate.mp h).2]; decide
    · exact h2 x h
  have hne : List.replicate (6 - (fmtNat i).length) (48 : Fin 256) ++ fmtNat i ≠ [] := by
    simp [h1]
  unfold atoi fmtInt06
  simp only [hnn, if_false, habs]
  have hhead : ∀ c, (List.replicate (6 - (fmtNat i).length) (48 : Fin 256) ++ fmtNat i).head?
      = some c → c ≠ 45 ∧ c ≠ 43 := by
    intro c hc
    have := hall c (List.mem_of_mem_head? hc)
    constructor <;> (intro h2; rw [h2] at this; revert this; decide)
  have h45 : ¬ ((List.replicate (6 - (fmtNat i).length) (48 : Fin 256) ++ fmtNat i).head?
      = some 45) := fun hc => (hhead 45 hc).1 rfl
  have h43 : ¬ ((List.replicate (6 - (fmtNat i).length) (48 : Fin 256) ++ fmtNat i).head?
      = some 43) := fun hc => (hhead 43 hc).2 rfl
  have hallb : (List.replicate (6 - (fmtNat i).length) (48 : Fin 256) ++ fmtNat i).all
      (fun c => decide (48 ≤ c.val ∧ c.val ≤ 57)) = true := by
    rw [List.all_eq_true]
    intro x hx
    simp [hall x hx]
  simp only [h45, h43, decide_False, or_self, if_false, hne, hallb, if_true, digitsVal_zeros, h3]
  have e1 : ¬ ((i : Int) > 9223372036854775807) := by omega
  have e2 : ¬ ((i : Int) < -9223372036854775808) := by omega
  simp only [Bool.false_eq_true, if_false, e1, e2]

theorem atoi_segName (i : Nat) (h : (i : Int) ≤ 9223372036854775807) :
    atoi (trimSuffixSst (segName i)) = (i : Int) := by
  unfold segName
  rw [trimSuffixSst_append, atoi_fmtInt06 i h]

theorem maxSeg_snoc (segs : List Bytes) (x : Bytes) :
    maxSeg (segs ++ [x])
      = if atoi (trimSuffixSst x) > maxSeg segs then atoi (trimSuffixSst x) else maxSeg segs := by
  simp [maxSeg, List.foldl_append]

theorem segNames_succ (k : Nat) : segNames (k + 1) = segNames k ++ [segName (k + 1)] := by
  simp [segNames, List.range_succ]

theorem maxSeg_segNames (k : Nat) (h : (k : Int) ≤ 9223372036854775807) :
    maxSeg (segNames k) = (k : Int) := by
  induction k with
  | zero => rfl
  | succ k ih =>
    unfold segNames at ih ⊢
    rw [List.range_succ, List.map_append, List.map_singleton, maxSeg_snoc,
      atoi_segName (k + 1) h, ih (by omega)]
    have : ((k + 1 : Nat) : Int) > (k : Int) := by omega
    simp [this]

theorem nextName_segNames (k : Nat) (h : (k : Int) < 9223372036854775807) :
    manifest.nextName ⟨segNames k⟩ = segName (k + 1) := by
  unfold manifest.nextName
  rw [maxSeg_segNames k (by omega)]
  have : wrapInt64 ((k : Int) + 1) = ((k + 1 : Nat) : Int) := by
    unfold wrapInt64
    omega
  rw [this]
  rfl

theorem segName_fresh (k : Nat) (h : (k : Int) < 9223372036854775807) :
    segName (k + 1) ∉ segNames k := by
  intro hm
  unfold segNames at hm
  obtain ⟨i, hi, heq⟩ := List.mem_map.mp hm
  have hik : i < k := List.mem_range.mp hi
  have h1 := atoi_segName (i + 1) (by omega)
  have h2 := atoi_segName (k + 1) (by omega)
  rw [heq, h2] at h1
  omega

/-- The digit loop of `strconv` reports a number beyond the `uint64` range before it looks at
the bytes after it: digits that overflow, followed by a byte that is no digit, give the clamped
value, and digits that fit give 0. -/
theorem atoi_overflow_before_garbage :
    atoi (B "99999999999999999999x") = 9223372036854775807
      ∧ atoi (B "-99999999999999999999x") = -9223372036854775808
      ∧ atoi (B "18446744073709551615x") = 0
      ∧ atoi (B "12x") = 0
      ∧ parseInt64 (B "99999999999999999999x")
          = (9223372036854775807, some RangeError.outOfRange)
      ∧ parseInt64 (B "12x") = (0, some RangeError.notNumber) := by
  decide

/-! ### What a store holds after a `Put` -/

/-- The store and the directory after a flush in which every step succeeds. -/
theorem flushLocked_noFail_eq (s : LSMStore) (d : Disk) (hne : s.mem.data ≠ []) :
    flushLocked s d noFail
      = ({ s with mem := s.mem.clear, manifest := s.manifest.Add s.manifest.nextName },
         { manifest := some (s.manifest.Segments ++ [s.manifest.nextName])
           wal := some []
           sst := fileWrite d.sst s.manifest.nextName (segFile s.mem.snapshotSortedByKey)
           idx := fileWrite d.idx s.manifest.nextName (writeItems s.mem.snapshotSortedByKey).2 },
         none) := by
  have hlen : ¬ (s.mem.snapshotSortedByKey.length = 0) := by
    rw [snapshot_length]
    intro h
    exact hne (List.length_eq_zero.mp h)
  unfold flushLocked
  simp [hlen, sstableWrite, walRotate, manifestSave, noFail, manifest.Add, segFile]

theorem scannedRecordsOf_congr {d d1 : Disk} (name : Bytes)
    (h : fileRead d1.sst name = fileRead d.sst name) :
    scannedRecordsOf d1 name = scannedRecordsOf d name := by
  unfold scannedRecordsOf
  rw [h]

theorem snapshot_perm (m : memtable) : m.snapshotSortedByKey.Perm m.data :=
  List.perm_insertionSort _ _

/-- A well-formed store: its segments are numbered 1 to `k`, and every memtable entry has a key
the segment framing can carry and an `int64` timestamp. -/
theorem Put_stored (s : LSMStore) (d : Disk) (x : Event) (k : Nat)
    (hk : (k : Int) < 9223372036854775807)
    (hsegs : s.manifest.Segments = segNames k)
    (hmem : ∀ e ∈ s.mem.data, plainKey e.Key ∧ isInt64 e.TS)
    (hx : plainKey x.Key ∧ isInt64 x.TS)
    (hok : (Put s d x noFail).2.2 = none) :
    (stored (Put s d x noFail).1 (Put s d x noFail).2.1).Perm
        ((s.mem.upsert x).data ++ segPart s d)
      ∧ ((Put s d x noFail).1.manifest.Segments = segNames k
          ∨ (Put s d x noFail).1.manifest.Segments = segNames (k + 1))
      ∧ (∀ e ∈ (Put s d x noFail).1.mem.data, plainKey e.Key ∧ isInt64 e.TS) := by
  have hlen : x.Value.length = 0 ↔ x.Value = [] := List.length_eq_zero
  have hup : ∀ e ∈ (s.mem.upsert x).data, plainKey e.Key ∧ isInt64 e.TS := by
    intro e he
    rcases mem_upsert he with h | h
    · exact hmem e h
    · rw [h]; exact hx
  by_cases hinv : (x.Key = [] ∨ x.TS = 0 ∨ x.Value.length = 0)
  · unfold Put at hok
    rw [if_pos hinv] at hok
    simp at hok
  · unfold Put
    rw [if_neg hinv]
    simp only [noFail, Bool.false_eq_true, if_false]
    by_cases hf : (s.mem.upsert x).full = true
    · rw [if_pos hf]
      rw [flushLocked_noFail_eq _ _ (upsert_data_ne_nil _ _)]
      simp only [stored, segPart, memtable.clear, manifest.Add, List.nil_append]
      have hname : s.manifest.nextName = segName (k + 1) := by
        have := nextName_segNames k hk
        rw [← hsegs] at this
        exact this
      refine ⟨?_, Or.inr ?_, by simp⟩
      · rw [List.flatMap_append, List.flatMap_cons, List.flatMap_nil, List.append_nil]
        have hold : s.manifest.Segments.flatMap (scannedRecordsOf
            { manifest := some (s.manifest.Segments ++ [s.manifest.nextName])
              wal := some []
              sst := fileWrite d.sst s.manifest.nextName
                (segFile (s.mem.upsert x).snapshotSortedByKey)
              idx := fileWrite d.idx s.manifest.nextName
                (writeItems (s.mem.upsert x).snapshotSortedByKey).2 })
            = s.manifest.Segments.flatMap (scannedRecordsOf d) := by
          apply List.flatMap_congr
          intro n hn
          apply scannedRecordsOf_congr
          apply fileRead_fileWrite_other
          intro heq
          rw [hsegs, heq, hname] at hn
          exact segName_fresh k hk hn
        have hnew : scannedRecordsOf
            { manifest := some (s.manifest.Segments ++ [s.manifest.nextName])
              wal := some []
              sst := fileWrite d.sst s.manifest.nextName
                (segFile (s.mem.upsert x).snapshotSortedByKey)
              idx := fileWrite d.idx s.manifest.nextName
                (writeItems (s.mem.upsert x).snapshotSortedByKey).2 } s.manifest.nextName
            = (s.mem.upsert x).snapshotSortedByKey := by
          unfold scannedRecordsOf
          simp only [fileRead_fileWrite_same]
          apply scannedRecords_segFile
          · intro e he
            exact (hup e ((snapshot_perm _).mem_iff.mp he)).1
          · intro e he
            exact (hup e ((snapshot_perm _).mem_iff.mp he)).2
        rw [hold, hnew]
        exact (List.perm_append_comm).trans (List.Perm.append_right _ (snapshot_perm _))
      · rw [hsegs, hname, segNames_succ]
    · rw [if_neg hf]
      refine ⟨?_, Or.inl hsegs, hup⟩
      simp only [stored, segPart]
      have : s.manifest.Segments.flatMap (scannedRecordsOf
          { d with wal := some (walAppend (d.wal.getD []) x) })
          = s.manifest.Segments.flatMap (scannedRecordsOf d) := by
        apply List.flatMap_congr
        intro n _
        exact scannedRecordsOf_congr n rfl
      rw [this]

/-! ### One event per key, while no key is held twice -/

theorem mapLookup_none_iff (d : List Event) (k : Bytes) :
    mapLookup d k = none ↔ ∀ e ∈ d, e.Key ≠ k := by
  induction d with
  | nil => simp [mapLookup]
  | cons y ys ih =>
    by_cases hy : y.Key = k
    · simp [mapLookup, hy]
    · simp [mapLookup, hy, ih]

theorem upsert_has_key (m : memtable) (x : Event) :
    ∃ e ∈ (m.upsert x).data, e.Key = x.Key := by
  have h := lookup_upsert_same m x
  cases hm : mapLookup m.data x.Key with
  | none =>
    rw [hm] at h
    exact ⟨x, (mapLookup_key h).2, rfl⟩
  | some cur =>
    rw [hm] at h
    by_cases ht : x.TS ≥ cur.TS
    · simp only [ht, if_true] at h
      exact ⟨x, (mapLookup_key h).2, rfl⟩
    · simp only [ht, if_false] at h
      exact ⟨cur, (mapLookup_key h).2, (mapLookup_key hm).1⟩

theorem upsert_keeps_keys (m : memtable) (x e : Event) (he : e ∈ m.data) :
    ∃ e1 ∈ (m.upsert x).data, e1.Key = e.Key := by
  by_cases hk : e.Key = x.Key
  · obtain ⟨e1, h1, h2⟩ := upsert_has_key m x
    exact ⟨e1, h1, h2.trans hk.symm⟩
  · have hl : mapLookup m.data e.Key ≠ none := by
      rw [Ne, mapLookup_none_iff]
      intro h
      exact h e he rfl
    rw [← lookup_upsert_other m x e.Key hk] at hl
    cases hl2 : mapLookup (m.upsert x).data e.Key with
    | none => exact absurd hl2 hl
    | some e1 => exact ⟨e1, (mapLookup_key hl2).2, (mapLookup_key hl2).1⟩

theorem upsert_keys (m : memtable) (x : Event) :
    (m.upsert x).data.map Event.Key = m.data.map Event.Key
      ∨ (m.upsert x).data.map Event.Key = m.data.map Event.Key ++ [x.Key] := by
  unfold memtable.upsert
  split
  · rcases mapStore_map_key m.data x with h | h
    · exact Or.inl h
    · exact Or.inr h.1
  · split
    · rcases mapStore_map_key m.data x with h | h
      · exact Or.inl h
      · exact Or.inr h.1
    · exact Or.inl rfl

/-- If no key is held twice after an upsert, none was held twice before it. -/
theorem nodup_before_upsert (m : memtable) (x : Event) (G : List Event)
    (h : (((m.upsert x).data ++ G).map Event.Key).Nodup) :
    ((m.data ++ G).map Event.Key).Nodup := by
  rw [List.map_append] at h ⊢
  rcases upsert_keys m x with hk | hk
  · rw [hk] at h; exact h
  · rw [hk] at h
    have hsub : (m.data.map Event.Key ++ G.map Event.Key).Sublist
        ((m.data.map Event.Key ++ [x.Key]) ++ G.map Event.Key) := by
      apply List.Sublist.append _ (List.Sublist.refl _)
      exact List.sublist_append_left _ _
    exact h.sublist hsub

/-- One upsert keeps the description of the events held: each is the latest of the events put
for its key, and every key put is held, as long as no key is held twice. -/
theorem latest_step (S : List Event) (m : memtable) (G : List Event) (x : Event)
    (hnd : (((m.upsert x).data ++ G).map Event.Key).Nodup)
    (h1 : ∀ e ∈ m.data ++ G, isLatest S e)
    (h2 : ∀ y ∈ S, ∃ e ∈ m.data ++ G, e.Key = y.Key) :
    (∀ e ∈ (m.upsert x).data ++ G, isLatest (S ++ [x]) e)
      ∧ (∀ y ∈ S ++ [x], ∃ e ∈ (m.upsert x).data ++ G, e.Key = y.Key) := by
  rw [List.map_append] at hnd
  have hndm : ((m.upsert x).data.map Event.Key).Nodup := (List.nodup_append.mp hnd).1
  have hdisj : ∀ a ∈ (m.upsert x).data, ∀ g ∈ G, a.Key ≠ g.Key := by
    intro a ha g hg heq
    exact (List.nodup_append.mp hnd).2.2 (List.mem_map_of_mem Event.Key ha)
      (heq ▸ List.mem_map_of_mem Event.Key hg)
  obtain ⟨ex, hex, hexk⟩ := upsert_has_key m x
  have hsame := lookup_upsert_same m x
  constructor
  · intro e he
    rcases List.mem_append.mp he with he | he
    · have hl := mapLookup_of_mem hndm he
      by_cases hk : e.Key = x.Key
      · rw [hk, hsame] at hl
        cases hm : mapLookup m.data x.Key with
        | none =>
          rw [hm] at hl
          simp only [Option.some.injEq] at hl
          subst hl
          apply isLatest_snoc_new
          intro y hy hyk
          exfalso
          obtain ⟨e1, he1, he1k⟩ := h2 y hy
          rcases List.mem_append.mp he1 with h | h
          · exact (mapLookup_none_iff _ _).mp hm e1 h (he1k.trans hyk)
          · exact hdisj _ he e1 h (hyk.symm.trans he1k.symm)
        | some cur =>
          rw [hm] at hl
          have hcur := h1 cur (List.mem_append_left _ (mapLookup_key hm).2)
          have hck := (mapLookup_key hm).1
          by_cases ht : x.TS ≥ cur.TS
          · simp only [ht, if_true, Option.some.injEq] at hl
            subst hl
            apply isLatest_snoc_new
            intro y hy hyk
            have := (isLatest_bound hcur).2 y hy (hyk.trans hck.symm)
            omega
          · simp only [ht, if_false, Option.some.injEq] at hl
            subst hl
            exact isLatest_snoc_old hcur (fun _ => by omega)
      · rw [lookup_upsert_other m x e.Key hk] at hl
        exact isLatest_snoc_old (h1 e (List.mem_append_left _ (mapLookup_key hl).2))
          (fun h => absurd h.symm hk)
    · have hne : x.Key ≠ e.Key := fun h => hdisj ex hex e he (hexk.trans h)
      exact isLatest_snoc_old (h1 e (List.mem_append_right _ he)) (fun h => absurd h hne)
  · intro y hy
    rcases List.mem_append.mp hy with hy | hy
    · obtain ⟨e, he, hek⟩ := h2 y hy
      rcases List.mem_append.mp he with h | h
      · obtain ⟨e1, h3, h4⟩ := upsert_keeps_keys m x e h
        exact ⟨e1, List.mem_append_left _ h3, h4.trans hek⟩
      · exact ⟨e, List.mem_append_right _ h, hek⟩
    · simp only [List.mem_singleton] at hy
      subst hy
      exact ⟨ex, List.mem_append_left _ hex, hexk⟩

/-- If a run of successful `Put`s ends with no key held twice, no key was held twice when it
began. -/
theorem putAll_nodup_back (S : List Event) :
    ∀ (s s' : LSMStore) (d d' : Disk) (k : Nat),
      ((k + S.length : Nat) : Int) < 9223372036854775807 →
      s.manifest.Segments = segNames k →
      (∀ e ∈ s.mem.data, plainKey e.Key ∧ isInt64 e.TS) →
      (∀ e ∈ S, plainKey e.Key ∧ isInt64 e.TS) →
      putAll s d S = (s', d', none) →
      ((stored s' d').map Event.Key).Nodup →
      ((stored s d).map Event.Key).Nodup := by
  induction S with
  | nil =>
    intro s s' d d' k _ _ _ _ hput hnd
    simp only [putAll, Prod.mk.injEq, and_true] at hput
    obtain ⟨rfl, rfl⟩ := hput
    exact hnd
  | cons x xs ih =>
    intro s s' d d' k hk hsegs hmem hS hput hnd
    have hc := putAll_cons_ok hput
    simp only [List.length_cons] at hk
    have hkx : (k : Int) < 9223372036854775807 := by omega
    obtain ⟨hperm, hsegs1, hmem1⟩ :=
      Put_stored s d x k hkx hsegs hmem (hS x (List.mem_cons_self _ _)) hc.1
    have hS1 : ∀ e ∈ xs, plainKey e.Key ∧ isInt64 e.TS :=
      fun e he => hS e (List.mem_cons_of_mem _ he)
    have hnd1 : ((stored (Put s d x noFail).1 (Put s d x noFail).2.1).map Event.Key).Nodup := by
      rcases hsegs1 with hsg | hsg
      · exact ih _ s' _ d' k (by omega) hsg hmem1 hS1 hc.2 hnd
      · exact ih _ s' _ d' (k + 1) (by push_cast at hk ⊢; omega) hsg hmem1 hS1 hc.2 hnd
    exact nodup_before_upsert s.mem x (segPart s d) (((hperm.map Event.Key).nodup_iff).mp hnd1)

/-- Along a run of successful `Put`s that ends with no key held twice, the events held stay one
per key: each the latest event put for its key, and every key put is held. -/
theorem putAll_latest (S : List Event) :
    ∀ (P : List Event) (s s' : LSMStore) (d d' : Disk) (k : Nat),
      ((k + S.length : Nat) : Int) < 9223372036854775807 →
      s.manifest.Segments = segNames k →
      (∀ e ∈ s.mem.data, plainKey e.Key ∧ isInt64 e.TS) →
      (∀ e ∈ S, plainKey e.Key ∧ isInt64 e.TS) →
      putAll s d S = (s', d', none) →
      ((stored s' d').map Event.Key).Nodup →
      (∀ e ∈ stored s d, isLatest P e) →
      (∀ y ∈ P, ∃ e ∈ stored s d, e.Key = y.Key) →
      (∀ e ∈ stored s' d', isLatest (P ++ S) e)
        ∧ (∀ y ∈ P ++ S, ∃ e ∈ stored s' d', e.Key = y.Key) := by
  induction S with
  | nil =>
    intro P s s' d d' k _ _ _ _ hput hnd h1 h2
    simp only [putAll, Prod.mk.injEq, and_true] at hput
    obtain ⟨rfl, rfl⟩ := hput
    rw [List.append_nil]
    exact ⟨h1, h2⟩
  | cons x xs ih =>
    intro P s s' d d' k hk hsegs hmem hS hput hnd h1 h2
    have hc := putAll_cons_ok hput
    simp only [List.length_cons] at hk
    have hkx : (k : Int) < 9223372036854775807 := by omega
    obtain ⟨hperm, hsegs1, hmem1⟩ :=
      Put_stored s d x k hkx hsegs hmem (hS x (List.mem_cons_self _ _)) hc.1
    have hS1 : ∀ e ∈ xs, plainKey e.Key ∧ isInt64 e.TS :=
      fun e he => hS e (List.mem_cons_of_mem _ he)
    have key : ∀ k1 : Nat, ((k1 + xs.length : Nat) : Int) < 9223372036854775807 →
        (Put s d x noFail).1.manifest.Segments = segNames k1 →
        (∀ e ∈ stored s' d', isLatest (P ++ x :: xs) e)
          ∧ (∀ y ∈ P ++ x :: xs, ∃ e ∈ stored s' d', e.Key = y.Key) := by
      intro k1 hk1 hsg
      have hnd1 := putAll_nodup_back xs _ s' _ d' k1 hk1 hsg hmem1 hS1 hc.2 hnd
      have hnd2 : (((s.mem.upsert x).data ++ segPart s d).map Event.Key).Nodup :=
        ((hperm.map Event.Key).nodup_iff).mp hnd1
      have hstep := latest_step P s.mem (segPart s d) x hnd2 h1 h2
      have := ih (P ++ [x]) _ s' _ d' k1 hk1 hsg hmem1 hS1 hc.2 hnd
        (fun e he => hstep.1 e (hperm.mem_iff.mp he))
        (fun y hy => by
          obtain ⟨e, he, hek⟩ := hstep.2 y hy
          exact ⟨e, hperm.mem_iff.mpr he, hek⟩)
      rwa [List.append_assoc, List.singleton_append] at this
    rcases hsegs1 with hsg | hsg
    · exact key k (by omega) hsg
    · exact key (k + 1) (by push_cast at hk ⊢; omega) hsg

/-- A boolean check of the side conditions on a list of events: plain keys, int64 timestamps. -/
theorem events_plain_of_all (S : List Event)
    (h : S.all (fun e => e.Key.all (fun x => x != 9 && x != 10) && decide (isInt64 e.TS))
      = true) :
    ∀ e ∈ S, plainKey e.Key ∧ isInt64 e.TS := by
  intro e he
  have h1 := List.all_eq_true.mp h e he
  simp only [Bool.and_eq_true, decide_eq_true_eq, List.all_eq_true, bne_iff_ne] at h1
  exact ⟨fun x hx => h1.1 x hx, h1.2⟩

/-- C5 (amended): let the events of `S` (keys without tab or newline, int64 timestamps, fewer
than 2^63 - 1 of them) be `Put` successfully into a freshly opened store, with any number of
flushes in between, let the store end with no key held twice (by two segments, or by a segment
and the memtable), and let the range contain all timestamps of `S`. Then the sequence of
`Replay` is ascending by timestamp with ties ascending by key, holds no key twice, holds an event
for every key of `S`, and each of its events is the highest-timestamp `Put` of `S` for its key
(the last one among equal timestamps). -/
theorem replay_latest_per_key_when_no_key_held_twice (opts : Options) (d0 d : Disk)
    (s0 s : LSMStore) (S : List Event) (lo hi : Int)
    (hopen : NewLSMStore opts Disk.empty noFail = (d0, Except.ok s0))
    (hput : putAll s0 d0 S = (s, d, none))
    (hplain : ∀ e ∈ S, plainKey e.Key ∧ isInt64 e.TS)
    (hlen : (S.length : Int) < 9223372036854775807)
    (hnd : ((stored s d).map Event.Key).Nodup)
    (hrange : ∀ e ∈ S, lo ≤ e.TS ∧ e.TS ≤ hi) :
    List.Pairwise (fun a b => a.TS < b.TS ∨ (a.TS = b.TS ∧ keyLt b.Key a.Key = false))
        (Replay s d lo hi)
      ∧ ((Replay s d lo hi).map Event.Key).Nodup
      ∧ (∀ e ∈ Replay s d lo hi, isLatest S e)
      ∧ (∀ x ∈ S, ∃ e ∈ Replay s d lo hi, e.Key = x.Key) := by
  have hfresh := NewLSMStore_empty hopen
  have hst0 : stored s0 d0 = [] := by
    simp [stored, segPart, hfresh.2.1, hfresh.2.2.1]
  have hsg0 : s0.manifest.Segments = segNames 0 := by
    rw [hfresh.2.2.1]; rfl
  have hinv := putAll_latest S [] s0 s d0 d 0 (by simpa using hlen) hsg0
    (by rw [hfresh.2.1]; intro e he; cases he) hplain hput hnd
    (by rw [hst0]; intro e he; cases he) (by intro y hy; cases hy)
  rw [List.nil_append] at hinv
  have hin : ∀ e ∈ stored s d, inRange lo hi e = true := by
    intro e he
    have h2 := hrange e (isLatest_bound (hinv.1 e he)).1
    simp [inRange, h2.1, h2.2]
  have hperm : (Replay s d lo hi).Perm (stored s d) := by
    refine (Replay_perm s d lo hi).trans ?_
    show ((stored s d).filter (inRange lo hi)).Perm (stored s d)
    rw [List.filter_eq_self.mpr hin]
  refine ⟨Replay_pairwise s d lo hi, ?_, ?_, ?_⟩
  · exact ((hperm.map Event.Key).nodup_iff).mpr hnd
  · intro e he
    exact hinv.1 e (hperm.mem_iff.mp he)
  · intro x hx
    obtain ⟨e, he, hek⟩ := hinv.2 x hx
    exact ⟨e, hperm.mem_iff.mpr he, hek⟩

/-- Witness for C5 (amended): `Put{a,1}`, `Put{a,3}`, `Put{b,2}`, `Put{c,5}` with
`memtable_max_items = 2` and the range 0 to 5: the second distinct key flushes `a` and `b` to a
segment and `c` stays in the memtable. -/
theorem replay_latest_per_key_when_no_key_held_twice_witness :
    List.Pairwise (fun a b => a.TS < b.TS ∨ (a.TS = b.TS ∧ keyLt b.Key a.Key = false))
        (Replay (putAll (freshStore ⟨B "data", 2⟩) freshDisk
          [⟨B "a", 1, B "1"⟩, ⟨B "a", 3, B "3"⟩, ⟨B "b", 2, B "2"⟩, ⟨B "c", 5, B "5"⟩]).1
        (putAll (freshStore ⟨B "data", 2⟩) freshDisk
          [⟨B "a", 1, B "1"⟩, ⟨B "a", 3, B "3"⟩, ⟨B "b", 2, B "2"⟩, ⟨B "c", 5, B "5"⟩]).2.1 0 5)
      ∧ ((Replay (putAll (freshStore ⟨B "data", 2⟩) freshDisk
          [⟨B "a", 1, B "1"⟩, ⟨B "a", 3, B "3"⟩, ⟨B "b", 2, B "2"⟩, ⟨B "c", 5, B "5"⟩]).1
        (putAll (freshStore ⟨B "data", 2⟩) freshDisk
          [⟨B "a", 1, B "1"⟩, ⟨B "a", 3, B "3"⟩, ⟨B "b", 2, B "2"⟩, ⟨B "c", 5, B "5"⟩]).2.1
          0 5).map Event.Key).Nodup
      ∧ (∀ e ∈ Replay (putAll (freshStore ⟨B "data", 2⟩) freshDisk
          [⟨B "a", 1, B "1"⟩, ⟨B "a", 3, B "3"⟩, ⟨B "b", 2, B "2"⟩, ⟨B "c", 5, B "5"⟩]).1
        (putAll (freshStore ⟨B "data", 2⟩) freshDisk
          [⟨B "a", 1, B "1"⟩, ⟨B "a", 3, B "3"⟩, ⟨B "b", 2, B "2"⟩, ⟨B "c", 5, B "5"⟩]).2.1 0 5,
          isLatest [⟨B "a", 1, B "1"⟩, ⟨B "a", 3, B "3"⟩, ⟨B "b", 2, B "2"⟩, ⟨B "c", 5, B "5"⟩] e)
      ∧ (∀ x ∈ [(⟨B "a", 1, B "1"⟩ : Event), ⟨B "a", 3, B "3"⟩, ⟨B "b", 2, B "2"⟩,
            ⟨B "c", 5, B "5"⟩],
          ∃ e ∈ Replay (putAll (freshStore ⟨B "data", 2⟩) freshDisk
            [⟨B "a", 1, B "1"⟩, ⟨B "a", 3, B "3"⟩, ⟨B "b", 2, B "2"⟩, ⟨B "c", 5, B "5"⟩]).1
          (putAll (freshStore ⟨B "data", 2⟩) freshDisk
            [⟨B "a", 1, B "1"⟩, ⟨B "a", 3, B "3"⟩, ⟨B "b", 2, B "2"⟩, ⟨B "c", 5, B "5"⟩]).2.1
            0 5, e.Key = x.Key) :=
  replay_latest_per_key_when_no_key_held_twice ⟨B "data", 2⟩ freshDisk
    (putAll (freshStore ⟨B "data", 2⟩) freshDisk
      [⟨B "a", 1, B "1"⟩, ⟨B "a", 3, B "3"⟩, ⟨B "b", 2, B "2"⟩, ⟨B "c", 5, B "5"⟩]).2.1
    (freshStore ⟨B "data", 2⟩)
    (putAll (freshStore ⟨B "data", 2⟩) freshDisk
      [⟨B "a", 1, B "1"⟩, ⟨B "a", 3, B "3"⟩, ⟨B "b", 2, B "2"⟩, ⟨B "c", 5, B "5"⟩]).1
    [⟨B "a", 1, B "1"⟩, ⟨B "a", 3, B "3"⟩, ⟨B "b", 2, B "2"⟩, ⟨B "c", 5, B "5"⟩] 0 5
    rfl (by decide) (events_plain_of_all _ rfl) (by decide) (by decide) (by decide)

/-! ### The cardinality bound after `Put` -/

theorem foldl_upsert_maxItems (L : List Event) (m : memtable) :
    (L.foldl memtable.upsert m).maxItems = m.maxItems := by
  induction L generalizing m with
  | nil => rfl
  | cons x xs ih => rw [List.foldl_cons, ih, upsert_maxItems]

/-- The memtable of a store that `NewLSMStore` returns has the limit given in the options,
whatever the WAL it was rebuilt from. -/
theorem NewLSMStore_maxItems {opts : Options} {d d1 : Disk} {fail : IOStep → Bool} {s : LSMStore}
    (hN : 1 ≤ opts.MemtableMaxItems) (h : NewLSMStore opts d fail = (d1, Except.ok s)) :
    s.mem.maxItems = opts.MemtableMaxItems := by
  have hN0 : ¬ opts.MemtableMaxItems ≤ 0 := by omega
  unfold NewLSMStore at h
  simp only [hN0, if_false] at h
  by_cases h1 : opts.DataDir = []
  · simp [h1] at h
  · by_cases h2 : fail IOStep.mkdirAll = true
    · simp [h1, h2] at h
    · simp only [h1, h2, if_false] at h
      rcases hm : loadOrCreateManifest d fail with ⟨dm, mf, _ | err⟩
      · rw [hm] at h
        simp only at h
        rcases hw : openWAL dm fail with ⟨dw, _ | err⟩
        · rw [hw] at h
          simp only at h
          rcases hr : walReplay (dw.wal.getD []) with ⟨evs, _ | err⟩
          · rw [hr] at h
            simp only [Bool.false_eq_true, if_false, Prod.mk.injEq, Except.ok.injEq] at h
            rw [← h.2]
            exact foldl_upsert_maxItems _ _
          · rw [hr] at h
            simp at h
        · rw [hw] at h
          simp at h
      · rw [hm] at h
        simp at h

/-- A `flushLocked` of a non-empty memtable that returns no error leaves the memtable empty. -/
theorem flushLocked_ok_clears (s : LSMStore) (d : Disk) (fail : IOStep → Bool)
    (hne : s.mem.data ≠ []) (hok : (flushLocked s d fail).2.2 = none) :
    (flushLocked s d fail).1.mem.data = []
      ∧ (flushLocked s d fail).1.mem.maxItems = s.mem.maxItems := by
  have hl : s.mem.snapshotSortedByKey.length ≠ 0 := by
    rw [snapshot_length]
    exact fun h => hne (List.length_eq_zero.mp h)
  unfold flushLocked at hok ⊢
  simp only [hl, if_false] at hok ⊢
  rcases hw : sstableWrite d s.manifest.nextName s.mem.snapshotSortedByKey fail with ⟨d1, _ | err⟩
  · try rw [hw] at hok
    try rw [hw]
    simp only at hok ⊢
    rcases hr : walRotate d1 fail with ⟨d2, _ | err⟩
    · try rw [hr]
      exact ⟨rfl, rfl⟩
    · try rw [hr] at hok
      simp at hok
  · try rw [hw] at hok
    simp at hok

/-- C11: for every store state whose memtable has the limit `N ≥ 1` it was opened with (the
memtable may hold more than `N` entries, as after a rebuild from a long WAL), every event and
every behaviour of the I/O steps, when `Put` returns success the memtable holds at most `N`
entries (in fact fewer than `N`) and keeps the limit `N`. -/
theorem put_success_memtable_within_limit (s : LSMStore) (d : Disk) (e : Event)
    (fail : IOStep → Bool) (hN : 1 ≤ s.mem.maxItems) (hok : (Put s d e fail).2.2 = none) :
    (Put s d e fail).1.mem.len ≤ s.mem.maxItems
      ∧ (Put s d e fail).1.mem.maxItems = s.mem.maxItems
      ∧ (Put s d e fail).1.mem.len < s.mem.maxItems := by
  have key : (Put s d e fail).1.mem.len < s.mem.maxItems
      ∧ (Put s d e fail).1.mem.maxItems = s.mem.maxItems := by
    unfold Put at hok ⊢
    by_cases h1 : e.Key = [] ∨ e.TS = 0 ∨ e.Value.length = 0
    · rw [if_pos h1] at hok
      simp at hok
    · by_cases h2 : fail IOStep.walAppend = true
      · rw [if_neg h1, if_pos h2] at hok
        simp at hok
      · simp only [h1, h2, if_false, Bool.false_eq_true] at hok ⊢
        by_cases h3 : (s.mem.upsert e).full = true
        · simp only [h3, if_true] at hok ⊢
          have hc := flushLocked_ok_clears { s with mem := s.mem.upsert e }
            { d with wal := some (walAppend (d.wal.getD []) e) } fail
            (upsert_data_ne_nil s.mem e) hok
          simp only [upsert_maxItems] at hc
          refine ⟨?_, hc.2⟩
          simp only [memtable.len, hc.1, List.length_nil]
          omega
        · simp only [h3, if_false]
          simp only [memtable.full, memtable.len, upsert_maxItems, decide_eq_true_eq,
            not_le, Bool.false_eq_true] at h3
          exact ⟨by simpa [memtable.len] using h3, upsert_maxItems _ _⟩
  exact ⟨le_of_lt key.1, key.2, key.1⟩

/-- Witness for C11: a store opened with `memtable_max_items = 2` on a directory whose WAL holds
three records has three entries in its memtable; the next `Put` flushes them all. -/
theorem put_success_memtable_within_limit_witness :
    (NewLSMStore ⟨B "data", 2⟩
        { manifest := some [],
          wal := some (B "\x7b\"Key\":\"a\",\"TS\":1,\"Value\":1\x7d\n\x7b\"Key\":\"b\",\"TS\":2,\"Value\":2\x7d\n\x7b\"Key\":\"c\",\"TS\":3,\"Value\":3\x7d\n"),
          sst := [], idx := [] } noFail).2
      = Except.ok ⟨⟨B "data", 2⟩,
          ⟨2, [⟨B "a", 1, B "1"⟩, ⟨B "b", 2, B "2"⟩, ⟨B "c", 3, B "3"⟩]⟩, ⟨[]⟩⟩
    ∧ (Put ⟨⟨B "data", 2⟩, ⟨2, [⟨B "a", 1, B "1"⟩, ⟨B "b", 2, B "2"⟩, ⟨B "c", 3, B "3"⟩]⟩, ⟨[]⟩⟩
        freshDisk ⟨B "d", 4, B "4"⟩ noFail).1.mem.len ≤ 2
    ∧ (Put ⟨⟨B "data", 2⟩, ⟨2, [⟨B "a", 1, B "1"⟩, ⟨B "b", 2, B "2"⟩, ⟨B "c", 3, B "3"⟩]⟩, ⟨[]⟩⟩
        freshDisk ⟨B "d", 4, B "4"⟩ noFail).1.mem.maxItems = 2
    ∧ (Put ⟨⟨B "data", 2⟩, ⟨2, [⟨B "a", 1, B "1"⟩, ⟨B "b", 2, B "2"⟩, ⟨B "c", 3, B "3"⟩]⟩, ⟨[]⟩⟩
        freshDisk ⟨B "d", 4, B "4"⟩ noFail).1.mem.len < 2 :=
  ⟨rfl, put_success_memtable_within_limit
    ⟨⟨B "data", 2⟩, ⟨2, [⟨B "a", 1, B "1"⟩, ⟨B "b", 2, B "2"⟩, ⟨B "c", 3, B "3"⟩]⟩, ⟨[]⟩⟩
    freshDisk ⟨B "d", 4, B "4"⟩ noFail (by decide) (by decide)⟩

/-! ### `get` after a sequence of `upsert`s -/

/-- Among the events of one key, at most one is the latest of a sequence. -/
theorem isLatest_unique {S : List Event} {e e1 : Event} (h : isLatest S e) (h1 : isLatest S e1)
    (hk : e.Key = e1.Key) : e = e1 := by
  obtain ⟨A, C, hS, hA, hC⟩ := h
  obtain ⟨A1, C1, hS1, hA1, hC1⟩ := h1
  rw [hS] at hS1
  rcases List.append_eq_append_iff.mp hS1 with ⟨a, ha, hb⟩ | ⟨c, hc, hb⟩
  · cases a with
    | nil =>
      simp only [List.nil_append, List.cons.injEq] at hb
      exact hb.1
    | cons y ys =>
      simp only [List.cons_append, List.cons.injEq] at hb
      have h2 : e1 ∈ C := by rw [hb.2]; simp
      have h3 : e ∈ A1 := by rw [ha, hb.1]; simp
      have := hC e1 h2 hk.symm
      have := hA1 e h3 hk
      omega
  · cases c with
    | nil =>
      simp only [List.nil_append, List.cons.injEq] at hb
      exact hb.1.symm
    | cons y ys =>
      simp only [List.cons_append, List.cons.injEq] at hb
      have h2 : e ∈ C1 := by rw [hb.2]; simp
      have h3 : e1 ∈ A := by rw [hc, hb.1]; simp
      have := hC1 e h2 hk
      have := hA e1 h3 hk.symm
      omega

/-- C12: after the upserts of a sequence `S` into an empty memtable, `get(k)` returns found
exactly when an event of `S` has the key `k`; the event it then returns has the key `k` and is the
latest of `S` for that key (no event of the key before it in `S` has a higher ts, every event of
the key after it has a lower one), and it is the only such event; an upsert leaves `get` of every
other key as it was. The sequence `{a,5,x}`, `{a,3,y}`, `{a,5,z}` gives `{a,5,z}`. -/
theorem memtable_get_after_upserts (S : List Event) (N : Int) (k : Bytes) :
    (((S.foldl memtable.upsert (newMemtable N)).get k).2 = true ↔ ∃ x ∈ S, x.Key = k)
      ∧ (((S.foldl memtable.upsert (newMemtable N)).get k).2 = true →
          ((S.foldl memtable.upsert (newMemtable N)).get k).1.Key = k
            ∧ isLatest S ((S.foldl memtable.upsert (newMemtable N)).get k).1
            ∧ ∀ e, isLatest S e → e.Key = k →
                e = ((S.foldl memtable.upsert (newMemtable N)).get k).1)
      ∧ (∀ (m : memtable) (x : Event) (k1 : Bytes), k1 ≠ x.Key →
          (m.upsert x).get k1 = m.get k1)
      ∧ (([⟨B "a", 5, B "x"⟩, ⟨B "a", 3, B "y"⟩, ⟨B "a", 5, B "z"⟩].foldl memtable.upsert
            (newMemtable N)).get (B "a") = (⟨B "a", 5, B "z"⟩, true)) := by
  obtain ⟨_, hlat, hall⟩ := foldl_upsert_latest S (newMemtable N) rfl
  have hget : ∀ e, mapLookup (S.foldl memtable.upsert (newMemtable N)).data k = some e →
      (S.foldl memtable.upsert (newMemtable N)).get k = (e, true) := by
    intro e he
    simp [memtable.get, he]
  refine ⟨⟨?_, ?_⟩, ?_, ?_, ?_⟩
  · intro h
    cases hl : mapLookup (S.foldl memtable.upsert (newMemtable N)).data k with
    | none => simp [memtable.get, hl] at h
    | some e =>
      exact ⟨e, (isLatest_bound (hlat k e hl)).1, (mapLookup_key hl).1⟩
  · rintro ⟨x, hx, hxk⟩
    obtain ⟨e, he⟩ := hall x hx
    rw [hxk] at he
    rw [hget e he]
  · intro h
    cases hl : mapLookup (S.foldl memtable.upsert (newMemtable N)).data k with
    | none => simp [memtable.get, hl] at h
    | some e =>
      rw [hget e hl]
      refine ⟨(mapLookup_key hl).1, hlat k e hl, ?_⟩
      intro e1 h1 hk1
      exact isLatest_unique h1 (hlat k e hl) (hk1.trans (mapLookup_key hl).1.symm)
  · intro m x k1 hk1
    simp only [memtable.get, lookup_upsert_other m x k1 hk1]
  · rfl

/-! ### Applying a sequence of upserts twice -/

theorem upsertEntry_key (c e : Event) : (upsertEntry c e).Key = c.Key := by
  unfold upsertEntry
  split_ifs with h1 h2
  · exact h1
  · rfl
  · rfl

theorem foldl_upsertEntry_key (L : List Event) (c : Event) :
    (L.foldl upsertEntry c).Key = c.Key := by
  induction L generalizing c with
  | nil => rfl
  | cons e L ih => rw [List.foldl_cons, ih, upsertEntry_key]

theorem upsertEntry_ts (c e : Event) :
    c.TS ≤ (upsertEntry c e).TS ∧ (e.Key = c.Key → e.TS ≤ (upsertEntry c e).TS) := by
  unfold upsertEntry
  split_ifs with h1 h2
  · exact ⟨h2, fun _ => le_refl _⟩
  · exact ⟨le_refl _, fun _ => by omega⟩
  · exact ⟨le_refl _, fun h => absurd h h1⟩

theorem foldl_upsertEntry_ts (L : List Event) (c : Event) :
    c.TS ≤ (L.foldl upsertEntry c).TS
      ∧ ∀ y ∈ L, y.Key = c.Key → y.TS ≤ (L.foldl upsertEntry c).TS := by
  induction L generalizing c with
  | nil => exact ⟨le_refl _, fun y hy => by cases hy⟩
  | cons e L ih =>
    rw [List.foldl_cons]
    have h1 := upsertEntry_ts c e
    have h2 := ih (upsertEntry c e)
    refine ⟨le_trans h1.1 h2.1, ?_⟩
    intro y hy hk
    rcases List.mem_cons.mp hy with rfl | hy
    · exact le_trans (h1.2 hk) h2.1
    · exact h2.2 y hy (by rw [upsertEntry_key]; exact hk)

theorem foldl_upsertEntry_ts_eq (L : List Event) (c : Event)
    (h : ∀ y ∈ L, y.Key = c.Key → y.TS ≤ c.TS) : (L.foldl upsertEntry c).TS = c.TS := by
  induction L generalizing c with
  | nil => rfl
  | cons e L ih =>
    rw [List.foldl_cons]
    have hcases : (upsertEntry c e).TS = c.TS ∧ (upsertEntry c e).Key = c.Key := by
      refine ⟨?_, upsertEntry_key c e⟩
      unfold upsertEntry
      split_ifs with h1 h2
      · have := h e (List.mem_cons_self _ _) h1
        omega
      · rfl
      · rfl
    rw [ih (upsertEntry c e) (fun y hy hk => by
      rw [hcases.1]
      exact h y (List.mem_cons_of_mem _ hy) (hk.trans hcases.2)), hcases.1]

/-- Running the events of `L` past an entry twice gives the same entry as running them once. -/
theorem foldl_upsertEntry_idem (L : List Event) :
    ∀ c : Event, L.foldl upsertEntry (L.foldl upsertEntry c) = L.foldl upsertEntry c := by
  induction L using List.reverseRecOn with
  | nil => intro c; rfl
  | append_singleton L e ih =>
    intro c
    simp only [List.foldl_append, List.foldl_cons, List.foldl_nil]
    have hk := foldl_upsertEntry_key L c
    have ht := foldl_upsertEntry_ts L c
    by_cases h1 : e.Key = (L.foldl upsertEntry c).Key
    · by_cases h2 : e.TS ≥ (L.foldl upsertEntry c).TS
      · have hc : upsertEntry (L.foldl upsertEntry c) e = e := by
          simp [upsertEntry, h1, h2]
        rw [hc]
        have h3 : (L.foldl upsertEntry e).TS = e.TS := by
          apply foldl_upsertEntry_ts_eq
          intro y hy hyk
          have := ht.2 y hy (by rw [hyk, h1, hk])
          omega
        have h4 := foldl_upsertEntry_key L e
        simp [upsertEntry, h4, h3]
      · have hc : upsertEntry (L.foldl upsertEntry c) e = L.foldl upsertEntry c := by
          simp [upsertEntry, h1, h2]
        rw [hc, ih c, hc]
    · have hc : upsertEntry (L.foldl upsertEntry c) e = L.foldl upsertEntry c := by
        simp [upsertEntry, h1]
      rw [hc, ih c, hc]

theorem upsert_cons (N : Int) (x : Event) (xs : List Event) (e : Event) :
    memtable.upsert ⟨N, x :: xs⟩ e
      = ⟨N, if x.Key = e.Key then upsertEntry x e :: xs
            else x :: (memtable.upsert ⟨N, xs⟩ e).data⟩ := by
  by_cases hk : x.Key = e.Key
  · simp only [memtable.upsert, mapLookup, hk, if_true, mapStore, upsertEntry, ge_iff_le]
    split_ifs <;> rfl
  · simp only [memtable.upsert, mapLookup, hk, if_false, mapStore]
    cases hl : mapLookup xs e.Key with
    | none => rfl
    | some cur =>
      simp only
      split_ifs <;> rfl

theorem foldl_upsert_eta (L : List Event) (m : memtable) :
    (⟨m.maxItems, (L.foldl memtable.upsert m).data⟩ : memtable) = L.foldl memtable.upsert m := by
  have h := foldl_upsert_maxItems L m
  cases hm : L.foldl memtable.upsert m with
  | mk n dd =>
    rw [hm] at h
    simp only at h
    rw [h]

/-- The upserts of `L` into a map with first entry `x`: the entry sees the events of `L`, the
rest of the map sees the events of the other keys. -/
theorem foldl_upsert_cons (L : List Event) : ∀ (N : Int) (x : Event) (xs : List Event),
    (L.foldl memtable.upsert ⟨N, x :: xs⟩).data
      = L.foldl upsertEntry x
          :: ((L.filter (fun e => decide (e.Key ≠ x.Key))).foldl memtable.upsert ⟨N, xs⟩).data := by
  induction L with
  | nil => intro N x xs; rfl
  | cons e L ih =>
    intro N x xs
    rw [List.foldl_cons, upsert_cons]
    by_cases hk : x.Key = e.Key
    · rw [if_pos hk, ih, upsertEntry_key]
      have hf : (e :: L).filter (fun e => decide (e.Key ≠ x.Key))
          = L.filter (fun e => decide (e.Key ≠ x.Key)) := by
        rw [List.filter_cons_of_neg]
        simp [hk]
      rw [hf, List.foldl_cons]
    · rw [if_neg hk, ih]
      have hf : (e :: L).filter (fun e => decide (e.Key ≠ x.Key))
          = e :: L.filter (fun e => decide (e.Key ≠ x.Key)) := by
        rw [List.filter_cons_of_pos]
        simpa using fun h => hk h.symm
      have he : upsertEntry x e = x := by
        unfold upsertEntry
        rw [if_neg (fun h : e.Key = x.Key => hk h.symm)]
      have heta := foldl_upsert_eta [e] ⟨N, xs⟩
      simp only [List.foldl_cons, List.foldl_nil] at heta
      rw [hf, List.foldl_cons, List.foldl_cons, he, heta]

theorem foldl_upsert_twice_data (n : Nat) : ∀ (d L : List Event) (N : Int),
    d.length + L.length ≤ n →
    (L.foldl memtable.upsert ⟨N, (L.foldl memtable.upsert ⟨N, d⟩).data⟩).data
      = (L.foldl memtable.upsert ⟨N, d⟩).data := by
  induction n with
  | zero =>
    intro d L N h
    have hd : d = [] := List.length_eq_zero.mp (by omega)
    have hL : L = [] := List.length_eq_zero.mp (by omega)
    subst hd hL
    rfl
  | succ n ih =>
    intro d L N h
    cases d with
    | cons x xs =>
      rw [foldl_upsert_cons L N x xs, foldl_upsert_cons L N, foldl_upsertEntry_idem,
        foldl_upsertEntry_key]
      rw [ih xs _ N (by
        have := List.length_filter_le (fun e => decide (e.Key ≠ x.Key)) L
        simp only [List.length_cons] at h
        omega)]
    | nil =>
      cases L with
      | nil => rfl
      | cons e L1 =>
        have h0 : (List.foldl memtable.upsert ⟨N, []⟩ (e :: L1)).data
            = L1.foldl upsertEntry e
              :: ((L1.filter (fun y => decide (y.Key ≠ e.Key))).foldl memtable.upsert ⟨N, []⟩).data :=
          foldl_upsert_cons L1 N e []
        rw [h0, foldl_upsert_cons (e :: L1) N]
        have hkey := foldl_upsertEntry_key L1 e
        have hts := (foldl_upsertEntry_ts L1 e).1
        have hf : (e :: L1).filter (fun y => decide (y.Key ≠ (L1.foldl upsertEntry e).Key))
            = L1.filter (fun y => decide (y.Key ≠ e.Key)) := by
          rw [hkey, List.filter_cons_of_neg]
          simp
        rw [hf, ih [] _ N (by
          have := List.length_filter_le (fun y => decide (y.Key ≠ e.Key)) L1
          simp only [List.length_cons, List.length_nil] at h ⊢
          omega)]
        congr 1
        rw [List.foldl_cons]
        by_cases h2 : e.TS ≥ (L1.foldl upsertEntry e).TS
        · have hc : upsertEntry (L1.foldl upsertEntry e) e = e := by
            simp [upsertEntry, hkey, h2]
          rw [hc]
        · have hc : upsertEntry (L1.foldl upsertEntry e) e = L1.foldl upsertEntry e := by
            simp [upsertEntry, hkey, h2]
          rw [hc, foldl_upsertEntry_idem]

/-- C13 (counterexample): with `memtable_max_items = 2` and `b` in the memtable, `Put{a,1,"1"}`
succeeds, fills the memtable and flushes it, so the memtable is empty after it; the same `Put`
repeated succeeds and leaves the memtable holding `a`. -/
theorem repeated_put_after_flush_changes_memtable :
    (Put (freshStore ⟨B "data", 2⟩) freshDisk ⟨B "b", 2, B "2"⟩ noFail).2.2 = none
      ∧ (Put (freshStore ⟨B "data", 2⟩) freshDisk ⟨B "b", 2, B "2"⟩ noFail).1.mem.data
          = [⟨B "b", 2, B "2"⟩]
      ∧ (putAll (freshStore ⟨B "data", 2⟩) freshDisk
          [⟨B "b", 2, B "2"⟩, ⟨B "a", 1, B "1"⟩]).2.2 = none
      ∧ (putAll (freshStore ⟨B "data", 2⟩) freshDisk
          [⟨B "b", 2, B "2"⟩, ⟨B "a", 1, B "1"⟩]).1.mem.data = []
      ∧ (putAll (freshStore ⟨B "data", 2⟩) freshDisk
          [⟨B "b", 2, B "2"⟩, ⟨B "a", 1, B "1"⟩, ⟨B "a", 1, B "1"⟩]).2.2 = none
      ∧ (putAll (freshStore ⟨B "data", 2⟩) freshDisk
          [⟨B "b", 2, B "2"⟩, ⟨B "a", 1, B "1"⟩, ⟨B "a", 1, B "1"⟩]).1.mem.data
          = [⟨B "a", 1, B "1"⟩] := by
  decide

/-- C13 (amended): for every memtable `m` and every sequence `L` of events, applying the upserts
of `L` to `m` twice in succession gives the same memtable as applying them once; so `upsert(e)`
after `upsert(e)` is a single `upsert(e)`, and replaying the records of a WAL file into a
memtable a second time leaves the memtable as the first replay left it. When a successful
`Put(e)` leaves the memtable not full (so that it does not flush), a successful repetition of
`Put(e)` leaves the memtable and the manifest as the first `Put` left them. -/
theorem upserts_applied_twice (m : memtable) (L : List Event) (e : Event) (file : Bytes)
    (s : LSMStore) (d : Disk) (fail fail1 : IOStep → Bool) :
    L.foldl memtable.upsert (L.foldl memtable.upsert m) = L.foldl memtable.upsert m
      ∧ (m.upsert e).upsert e = m.upsert e
      ∧ (walReplay file).1.foldl memtable.upsert ((walReplay file).1.foldl memtable.upsert m)
          = (walReplay file).1.foldl memtable.upsert m
      ∧ ((s.mem.upsert e).full = false → (Put s d e fail).2.2 = none →
          (Put (Put s d e fail).1 (Put s d e fail).2.1 e fail1).2.2 = none →
          (Put s d e fail).1.mem = s.mem.upsert e
            ∧ (Put (Put s d e fail).1 (Put s d e fail).2.1 e fail1).1.mem = (Put s d e fail).1.mem
            ∧ (Put (Put s d e fail).1 (Put s d e fail).2.1 e fail1).1.manifest = s.manifest) := by
  have key : ∀ (m : memtable) (L : List Event),
      L.foldl memtable.upsert (L.foldl memtable.upsert m) = L.foldl memtable.upsert m := by
    intro m L
    have h := foldl_upsert_twice_data (m.data.length + L.length) m.data L m.maxItems (le_refl _)
    have h1 := foldl_upsert_eta L m
    have h2 := foldl_upsert_eta L (L.foldl memtable.upsert m)
    rw [foldl_upsert_maxItems] at h2
    have h3 : (L.foldl memtable.upsert (L.foldl memtable.upsert m)).data
        = (L.foldl memtable.upsert m).data := by
      have h4 := h
      rw [h1] at h4
      exact h4
    rw [← h2, h3, h1]
  have hput : ∀ (s : LSMStore) (d : Disk) (fl : IOStep → Bool),
      (s.mem.upsert e).full = false → (Put s d e fl).2.2 = none →
      Put s d e fl = ({ s with mem := s.mem.upsert e },
        { d with wal := some (walAppend (d.wal.getD []) e) }, none) := by
    intro s d fl hnf hok
    unfold Put at hok ⊢
    by_cases h1 : e.Key = [] ∨ e.TS = 0 ∨ e.Value.length = 0
    · rw [if_pos h1] at hok
      simp at hok
    · rw [if_neg h1] at hok ⊢
      by_cases h2 : fl IOStep.walAppend = true
      · rw [if_pos h2] at hok
        simp at hok
      · rw [if_neg h2]
        simp only [hnf, Bool.false_eq_true, if_false]
  refine ⟨key m L, key m [e], key m _, ?_⟩
  intro hnf h1 h2
  have e1 := hput s d fail hnf h1
  rw [e1] at h2 ⊢
  have hup : (s.mem.upsert e).upsert e = s.mem.upsert e := key s.mem [e]
  have e2 := hput { s with mem := s.mem.upsert e }
    { d with wal := some (walAppend (d.wal.getD []) e) } fail1
    (by simp only [hup]; exact hnf) h2
  rw [e2]
  simp only [hup, and_self]

/-- Witness for C13 (amended): `Put{a,1,"1"}` twice into a fresh store with
`memtable_max_items = 2`. -/
theorem upserts_applied_twice_witness :
    (Put (Put (freshStore ⟨B "data", 2⟩) freshDisk ⟨B "a", 1, B "1"⟩ noFail).1
        (Put (freshStore ⟨B "data", 2⟩) freshDisk ⟨B "a", 1, B "1"⟩ noFail).2.1
        ⟨B "a", 1, B "1"⟩ noFail).1.mem
      = (Put (freshStore ⟨B "data", 2⟩) freshDisk ⟨B "a", 1, B "1"⟩ noFail).1.mem
    ∧ (Put (freshStore ⟨B "data", 2⟩) freshDisk ⟨B "a", 1, B "1"⟩ noFail).1.mem.data
      = [⟨B "a", 1, B "1"⟩] :=
  ⟨((upserts_applied_twice (newMemtable 2) [] ⟨B "a", 1, B "1"⟩ [] (freshStore ⟨B "data", 2⟩)
      freshDisk noFail noFail).2.2.2 (by decide) (by decide) (by decide)).2.1, by decide⟩

/-! ### `nextName` on decimal names -/

/-- `Atoi` of a non-empty run of digits within the `int64` range is its value. -/
theorem atoi_digits (ds : Bytes) (hne : ds ≠ [])
    (hd : ∀ c ∈ ds, 48 ≤ c.val ∧ c.val ≤ 57)
    (hb : (digitsVal ds : Int) ≤ 9223372036854775807) : atoi ds = (digitsVal ds : Int) := by
  have hhead : ∀ c, ds.head? = some c → c ≠ 45 ∧ c ≠ 43 := by
    intro c hc
    have := hd c (List.mem_of_mem_head? hc)
    constructor <;> (intro h2; rw [h2] at this; revert this; decide)
  have h45 : ¬ (ds.head? = some 45) := fun hc => (hhead 45 hc).1 rfl
  have h43 : ¬ (ds.head? = some 43) := fun hc => (hhead 43 hc).2 rfl
  have hallb : ds.all (fun c => decide (48 ≤ c.val ∧ c.val ≤ 57)) = true := by
    rw [List.all_eq_true]
    intro x hx
    simp [hd x hx]
  unfold atoi
  simp only [h45, h43, decide_False, or_self, if_false, hne, hallb, if_true]
  have e1 : ¬ ((digitsVal ds : Int) > 9223372036854775807) := by omega
  have e2 : ¬ ((digitsVal ds : Int) < -9223372036854775808) := by omega
  simp only [Bool.false_eq_true, if_false, e1, e2]

/-- The loop of `nextName` over decimal names computes the maximum of their numbers. -/
theorem foldl_maxSeg_decimal (dss : List Bytes) :
    ∀ acc : Nat,
      (∀ ds ∈ dss, ds ≠ [] ∧ ∀ c ∈ ds, 48 ≤ c.val ∧ c.val ≤ 57) →
      (∀ ds ∈ dss, (digitsVal ds : Int) ≤ 9223372036854775807) →
      (dss.map (fun ds => ds ++ B ".sst")).foldl
          (fun max s => if atoi (trimSuffixSst s) > max then atoi (trimSuffixSst s) else max)
          (acc : Int)
        = (((dss.map digitsVal).foldl max acc : Nat) : Int) := by
  induction dss with
  | nil => intro acc _ _; rfl
  | cons ds dss ih =>
    intro acc hd hb
    have h1 := hd ds (List.mem_cons_self _ _)
    rw [List.map_cons, List.foldl_cons, List.map_cons, List.foldl_cons, trimSuffixSst_append,
      atoi_digits ds h1.1 h1.2 (hb ds (List.mem_cons_self _ _))]
    have hstep : (if (digitsVal ds : Int) > (acc : Int) then (digitsVal ds : Int) else (acc : Int))
        = ((max acc (digitsVal ds) : Nat) : Int) := by
      split_ifs with h
      · rw [max_eq_right (by omega)]
      · rw [max_eq_left (by omega)]
    rw [hstep]
    exact ih _ (fun x hx => hd x (List.mem_cons_of_mem _ hx))
      (fun x hx => hb x (List.mem_cons_of_mem _ hx))

theorem foldl_max_le (vs : List Nat) (b : Nat) :
    ∀ acc : Nat, acc ≤ b → (∀ v ∈ vs, v ≤ b) → vs.foldl max acc ≤ b := by
  induction vs with
  | nil => intro acc h _; exact h
  | cons v vs ih =>
    intro acc h hv
    rw [List.foldl_cons]
    exact ih _ (max_le h (hv v (List.mem_cons_self _ _)))
      (fun x hx => hv x (List.mem_cons_of_mem _ hx))

/-- A boolean check that every entry is a non-empty run of digits. -/
theorem digit_runs_of_all (dss : List Bytes)
    (h : dss.all (fun ds => !ds.isEmpty && ds.all (fun c => decide (48 ≤ c.val ∧ c.val ≤ 57)))
      = true) :
    ∀ ds ∈ dss, ds ≠ [] ∧ ∀ c ∈ ds, 48 ≤ c.val ∧ c.val ≤ 57 := by
  intro ds hds
  have h1 := List.all_eq_true.mp h ds hds
  simp only [Bool.and_eq_true, Bool.not_eq_true', List.isEmpty_eq_false, List.all_eq_true,
    decide_eq_true_eq] at h1
  exact ⟨h1.1, h1.2⟩

/-- C14 (counterexample): for the manifest whose only segment is `9223372036854775807.sst`, and
for the one whose only segment is `99999999999999999999.sst`, `nextName` returns
`-9223372036854775808.sst`, not the maximum plus one. -/
theorem nextName_wraps_at_max_int64 :
    manifest.nextName ⟨[B "9223372036854775807.sst"]⟩ = B "-9223372036854775808.sst"
      ∧ manifest.nextName ⟨[B "99999999999999999999.sst"]⟩ = B "-9223372036854775808.sst" :=
  ⟨rfl, rfl⟩

/-- C14 (amended): for every manifest whose segment names each consist of a non-empty run of
decimal digits, of value below 2^63 - 1, followed by `.sst`, `nextName` returns the decimal
representation of the maximum of those numbers plus one, left-padded with zeros to at least six
digits and followed by `.sst`; for a manifest with no segments it returns `000001.sst`. -/
theorem nextName_of_decimal_names (dss : List Bytes)
    (hd : ∀ ds ∈ dss, ds ≠ [] ∧ ∀ c ∈ ds, 48 ≤ c.val ∧ c.val ≤ 57)
    (hb : ∀ ds ∈ dss, (digitsVal ds : Int) < 9223372036854775807) :
    manifest.nextName ⟨dss.map (fun ds => ds ++ B ".sst")⟩
        = List.replicate (6 - (fmtNat ((dss.map digitsVal).foldl max 0 + 1)).length) 48
            ++ fmtNat ((dss.map digitsVal).foldl max 0 + 1) ++ B ".sst"
      ∧ manifest.nextName ⟨[]⟩ = B "000001.sst" := by
  refine ⟨?_, rfl⟩
  have hm := foldl_maxSeg_decimal dss 0 hd (fun ds h => le_of_lt (hb ds h))
  have hle : (dss.map digitsVal).foldl max 0 ≤ 9223372036854775806 := by
    apply foldl_max_le _ _ 0 (by omega)
    intro v hv
    obtain ⟨ds, hds, rfl⟩ := List.mem_map.mp hv
    have := hb ds hds
    omega
  unfold manifest.nextName maxSeg
  simp only [Nat.cast_zero] at hm
  rw [hm]
  have hw : wrapInt64 ((((dss.map digitsVal).foldl max 0 : Nat) : Int) + 1)
      = (((dss.map digitsVal).foldl max 0 + 1 : Nat) : Int) := by
    unfold wrapInt64
    push_cast
    omega
  rw [hw]
  unfold fmtInt06
  rw [if_neg (by omega), Int.natAbs_ofNat]

/-- Witness for C14 (amended): the names `000001.sst`, `000007.sst` and `3.sst` give
`000008.sst`. -/
theorem nextName_of_decimal_names_witness :
    manifest.nextName ⟨[B "000001.sst", B "000007.sst", B "3.sst"]⟩ = B "000008.sst"
      ∧ manifest.nextName ⟨[]⟩ = B "000001.sst" :=
  nextName_of_decimal_names [B "000001", B "000007", B "3"] (digit_runs_of_all _ rfl) (by decide)

/-! ### The record of one event -/

/-- A boolean check that a key holds no tab and no newline. -/
theorem plainKey_of_all (k : Bytes) (h : k.all (fun x => x != 9 && x != 10) = true) :
    plainKey k := by
  intro x hx
  have h1 := List.all_eq_true.mp h x hx
  simp only [Bool.and_eq_true, bne_iff_ne] at h1
  exact h1

/-- C15 (counterexample): `Put` accepts the event with key `a<tab>b`, ts 1 and value `1`, and
with `memtable_max_items = 1` flushes it to `000001.sst`; `tryParseLine` does not decode its
record and `sstableRangeTS` finds no event in the segment. The event with key `a<newline>b`
is accepted and flushed likewise, and `sstableRangeTS` returns an event with the key `b` for
it. -/
theorem flushed_event_with_tab_in_key_unreadable :
    (Put (freshStore ⟨B "data", 1⟩) freshDisk ⟨B "a\tb", 1, B "1"⟩ noFail).2.2 = none
      ∧ (Put (freshStore ⟨B "data", 1⟩) freshDisk ⟨B "a\tb", 1, B "1"⟩ noFail).2.1.sst
          = [(B "000001.sst", B "SST1\na\tb\t1\tMQ==\n")]
      ∧ tryParseLine (trimRightNL (recordLine ⟨B "a\tb", 1, B "1"⟩)) = (Event.zero, false, none)
      ∧ sstableRangeTS (Put (freshStore ⟨B "data", 1⟩) freshDisk ⟨B "a\tb", 1, B "1"⟩ noFail).2.1
          (B "000001.sst") 1 1 = ([], none)
      ∧ (Put (freshStore ⟨B "data", 1⟩) freshDisk ⟨B "a\nb", 1, B "1"⟩ noFail).2.2 = none
      ∧ (Put (freshStore ⟨B "data", 1⟩) freshDisk ⟨B "a\nb", 1, B "1"⟩ noFail).2.1.sst
          = [(B "000001.sst", B "SST1\na\nb\t1\tMQ==\n")]
      ∧ sstableRangeTS (Put (freshStore ⟨B "data", 1⟩) freshDisk ⟨B "a\nb", 1, B "1"⟩ noFail).2.1
          (B "000001.sst") 1 1 = ([⟨B "b", 1, B "1"⟩], none) := by
  decide

/-- C15 (amended): for every event whose key contains no tab and no newline (with an `int64`
timestamp and any value), a reader positioned at the record that `sstableWrite` writes for it
reads exactly that record as its line, and `tryParseLine` (and so `parseLine`) decodes the line
back to an event with the same key, ts and value bytes. -/
theorem record_of_plain_key_decodes (e : Event) (rest : Bytes) (hk : plainKey e.Key)
    (hts : isInt64 e.TS) :
    readString (recordLine e ++ rest) = (recordLine e, rest, false)
      ∧ tryParseLine (trimRightNL (recordLine e)) = (e, true, none)
      ∧ parseLine (trimRightNL (recordLine e)) = (e, true, none) := by
  have hnl := recordText_no_nl e hk
  have ht := tryParseLine_record e (fun x hx => (hk x hx).1) hts
  rw [recordLine_eq, trimRightNL_line _ hnl, ht]
  refine ⟨?_, rfl, ?_⟩
  · rw [List.append_assoc, List.singleton_append]
    exact readString_line _ rest hnl
  · simp [parseLine, ht]

/-- Witness for C15 (amended): the event with key `a`, ts -7 and value `xyz`. -/
theorem record_of_plain_key_decodes_witness :
    readString (recordLine ⟨B "a", -7, B "xyz"⟩ ++ B "b\t1\tMQ==\n")
        = (recordLine ⟨B "a", -7, B "xyz"⟩, B "b\t1\tMQ==\n", false)
      ∧ tryParseLine (trimRightNL (recordLine ⟨B "a", -7, B "xyz"⟩))
        = (⟨B "a", -7, B "xyz"⟩, true, none)
      ∧ parseLine (trimRightNL (recordLine ⟨B "a", -7, B "xyz"⟩))
        = (⟨B "a", -7, B "xyz"⟩, true, none) :=
  record_of_plain_key_decodes ⟨B "a", -7, B "xyz"⟩ (B "b\t1\tMQ==\n")
    (plainKey_of_all _ rfl) (by decide)

/-! ### `parseRange` -/

theorem digit_head (ds : Bytes) (hd : ∀ c ∈ ds, 48 ≤ c.val ∧ c.val ≤ 57) :
    ¬ (ds.head? = some 43) ∧ ¬ (ds.head? = some 45) := by
  have hhead : ∀ c, ds.head? = some c → c ≠ 45 ∧ c ≠ 43 := by
    intro c hc
    have := hd c (List.mem_of_mem_head? hc)
    constructor <;> (intro h2; rw [h2] at this; revert this; decide)
  exact ⟨fun hc => (hhead 43 hc).2 rfl, fun hc => (hhead 45 hc).1 rfl⟩

theorem all_digits (ds : Bytes) (hd : ∀ c ∈ ds, 48 ≤ c.val ∧ c.val ≤ 57) :
    ds.all (fun c => decide (48 ≤ c.val ∧ c.val ≤ 57)) = true := by
  rw [List.all_eq_true]
  intro x hx
  simp [hd x hx]

/-- `ParseInt` returns the value of a decimal numeral that fits an `int64`. -/
theorem parseInt64_numeral {s : Bytes} {n : Int} (h : isNumeral s n) (hn : isInt64 n) :
    parseInt64 s = (n, none) := by
  obtain ⟨ds, hne, hd, hs⟩ := h
  have hall := all_digits ds hd
  have hh := digit_head ds hd
  unfold isInt64 at hn
  rcases hs with ⟨rfl, rfl⟩ | ⟨rfl, rfl⟩ | ⟨rfl, rfl⟩
  · unfold parseInt64
    simp only [hne, hh.1, hh.2, or_self, if_false, decide_False, hall, if_true, true_and,
      Bool.false_eq_true, false_and]
    rw [if_neg (by omega)]
  · unfold parseInt64
    have h45 : ¬ ((43 : Fin 256) = 45) := by decide
    simp only [List.head?_cons, Option.some.injEq, h45, decide_False, true_or, if_true,
      List.tail_cons, hne, if_false, hall, true_and, Bool.false_eq_true, false_and,
      List.cons_ne_nil, not_false_eq_true]
    rw [if_neg (by omega)]
  · unfold parseInt64
    simp only [List.head?_cons, decide_True, or_true, if_true, List.tail_cons, hne, if_false,
      hall, Bool.true_eq_false, false_and, true_and, List.cons_ne_nil, not_false_eq_true]
    rw [if_neg (by omega)]

theorem digits_of_all (ds : Bytes)
    (h : ds.all (fun c => decide (48 ≤ c.val ∧ c.val ≤ 57)) = true) :
    ∀ c ∈ ds, 48 ≤ c.val ∧ c.val ≤ 57 := by
  intro c hc
  simpa using List.all_eq_true.mp h c hc

/-- A string that `ParseInt` accepts is a decimal numeral of the value returned. -/
theorem parseInt64_ok {s : Bytes} (h : (parseInt64 s).2 = none) :
    isNumeral s (parseInt64 s).1 := by
  cases s with
  | nil => simp [parseInt64] at h
  | cons c cs =>
    by_cases h43 : c = 43
    · subst h43
      have e : parseInt64 (43 :: cs)
          = if cs = [] then (0, some RangeError.notNumber)
            else if cs.all (fun c => decide (48 ≤ c.val ∧ c.val ≤ 57)) = true then
              if digitsVal cs ≥ 9223372036854775808 then
                (9223372036854775807, some RangeError.outOfRange)
              else ((digitsVal cs : Int), none)
            else if digitsVal (cs.takeWhile (fun c => decide (48 ≤ c.val ∧ c.val ≤ 57)))
                ≥ 18446744073709551616 then
              (9223372036854775807, some RangeError.outOfRange)
            else (0, some RangeError.notNumber) := by
        simp +decide [parseInt64]
      rw [e] at h ⊢
      split_ifs at h ⊢ with h1 h2 h3
      exact ⟨cs, h1, digits_of_all cs h2, Or.inr (Or.inl ⟨rfl, rfl⟩)⟩
    · by_cases h45 : c = 45
      · subst h45
        have e : parseInt64 (45 :: cs)
            = if cs = [] then (0, some RangeError.notNumber)
              else if cs.all (fun c => decide (48 ≤ c.val ∧ c.val ≤ 57)) = true then
                if digitsVal cs > 9223372036854775808 then
                  (-9223372036854775808, some RangeError.outOfRange)
                else (-(digitsVal cs : Int), none)
              else if digitsVal (cs.takeWhile (fun c => decide (48 ≤ c.val ∧ c.val ≤ 57)))
                  ≥ 18446744073709551616 then
                (-9223372036854775808, some RangeError.outOfRange)
              else (0, some RangeError.notNumber) := by
          simp +decide [parseInt64]
        rw [e] at h ⊢
        split_ifs at h ⊢ with h1 h2 h3
        exact ⟨cs, h1, digits_of_all cs h2, Or.inr (Or.inr ⟨rfl, rfl⟩)⟩
      · have e : parseInt64 (c :: cs)
            = if (c :: cs).all (fun c => decide (48 ≤ c.val ∧ c.val ≤ 57)) = true then
                if digitsVal (c :: cs) ≥ 9223372036854775808 then
                  (9223372036854775807, some RangeError.outOfRange)
                else ((digitsVal (c :: cs) : Int), none)
              else if digitsVal ((c :: cs).takeWhile (fun c => decide (48 ≤ c.val ∧ c.val ≤ 57)))
                  ≥ 18446744073709551616 then
                (9223372036854775807, some RangeError.outOfRange)
              else (0, some RangeError.notNumber) := by
          simp +decide [parseInt64, h43, h45]
        rw [e] at h ⊢
        split_ifs at h ⊢ with h2 h3
        exact ⟨c :: cs, List.cons_ne_nil _ _, digits_of_all _ h2, Or.inl ⟨rfl, rfl⟩⟩

/-- The output of the verb `%d` is a decimal numeral of the number printed. -/
theorem isNumeral_fmtInt (n : Int) : isNumeral (fmtInt n) n := by
  obtain ⟨h1, h2, h3, _⟩ := fmtNat_spec n.natAbs
  refine ⟨fmtNat n.natAbs, h1, h2, ?_⟩
  unfold fmtInt
  by_cases hn : n < 0
  · rw [if_pos hn, h3]
    exact Or.inr (Or.inr ⟨rfl, by omega⟩)
  · rw [if_neg hn, h3]
    exact Or.inl ⟨rfl, by omega⟩

/-- C16: for all signed 64-bit integers `f` and `t` written in decimal (an optional sign and
one or more digits), `parseRange` returns the error `to<from` when `t < f`, and returns `(f, t)`
with no error when `f ≤ t`, the case `f = t` included; and for all strings `gs` and `hs`, when
`gs` is empty or is not a decimal numeral, `parseRange` returns an error with `gs` as either
bound. -/
theorem parseRange_accepts_exactly_ordered_bounds (fs ts gs hs : Bytes) (f t : Int)
    (hf : isNumeral fs f) (ht : isNumeral ts t) (hfr : isInt64 f) (htr : isInt64 t) :
    (t < f → parseRange fs ts = (0, 0, some RangeError.toBeforeFrom))
      ∧ (f ≤ t → parseRange fs ts = (f, t, none))
      ∧ (f = t → parseRange fs ts = (f, f, none))
      ∧ ((gs = [] ∨ ¬ ∃ n, isNumeral gs n) →
          (parseRange gs hs).2.2 ≠ none ∧ (parseRange hs gs).2.2 ≠ none) := by
  have hfs : fs ≠ [] := by
    obtain ⟨ds, hne, _, h | h | h⟩ := hf
    · rw [h.1]; exact hne
    · rw [h.1]; simp
    · rw [h.1]; simp
  have hts : ts ≠ [] := by
    obtain ⟨ds, hne, _, h | h | h⟩ := ht
    · rw [h.1]; exact hne
    · rw [h.1]; simp
    · rw [h.1]; simp
  have e : parseRange fs ts
      = if t < f then (0, 0, some RangeError.toBeforeFrom) else (f, t, none) := by
    unfold parseRange
    rw [if_neg (by simp [hfs, hts]), parseInt64_numeral hf hfr, parseInt64_numeral ht htr]
  refine ⟨?_, ?_, ?_, ?_⟩
  · intro h
    rw [e, if_pos h]
  · intro h
    rw [e, if_neg (by omega)]
  · intro h
    rw [e, if_neg (by omega), h]
  · intro hg
    have hbad : (parseInt64 gs).2 ≠ none := by
      intro hc
      rcases hg with hg | hg
      · rw [hg] at hc
        simp [parseInt64] at hc
      · exact hg ⟨_, parseInt64_ok hc⟩
    obtain ⟨e1, he1⟩ := Option.ne_none_iff_exists'.mp hbad
    have hp : parseInt64 gs = ((parseInt64 gs).1, some e1) := by rw [← he1]
    constructor
    · unfold parseRange
      split_ifs
      · simp
      · rw [hp]
        simp
    · unfold parseRange
      split_ifs
      · simp
      · rw [hp]
        rcases hh : parseInt64 hs with ⟨v, _ | err⟩
        · simp
        · simp

/-- Witness for C16: the bounds `-5` and `+7`. -/
theorem parseRange_accepts_exactly_ordered_bounds_witness :
    (7 < -5 → parseRange (B "-5") (B "+7") = (0, 0, some RangeError.toBeforeFrom))
      ∧ ((-5 : Int) ≤ 7 → parseRange (B "-5") (B "+7") = (-5, 7, none))
      ∧ ((-5 : Int) = 7 → parseRange (B "-5") (B "+7") = (-5, -5, none))
      ∧ ((B "1x" = [] ∨ ¬ ∃ n, isNumeral (B "1x") n) →
          (parseRange (B "1x") (B "3")).2.2 ≠ none ∧ (parseRange (B "3") (B "1x")).2.2 ≠ none) :=
  parseRange_accepts_exactly_ordered_bounds (B "-5") (B "+7") (B "1x") (B "3") (-5) 7
    ⟨B "5", by decide, digits_of_all _ rfl, Or.inr (Or.inr ⟨rfl, rfl⟩)⟩
    ⟨B "7", by decide, digits_of_all _ rfl, Or.inr (Or.inl ⟨rfl, rfl⟩)⟩
    (by decide) (by decide)

/-! ### The offsets of the sidecar index -/

theorem foldl_writeItem_offsets (items : List Event) : ∀ st : BufWriter × index,
    st.1.file = [] →
    st.1.buf.length + (items.flatMap recordLine).length ≤ bufSize →
    (∀ k off, fileRead st.2 k = some off → off = 0) →
    ∀ k off, fileRead (items.foldl writeItem st).2 k = some off → off = 0 := by
  induction items with
  | nil => intro st _ _ h; exact h
  | cons e es ih =>
    intro st hfile hsz hidx
    rw [List.flatMap_cons, List.length_append] at hsz
    rw [List.foldl_cons]
    have hb : bufWrite st.1 (recordLine e) = { st.1 with buf := st.1.buf ++ recordLine e } := by
      unfold bufWrite
      rw [if_neg (by omega)]
    apply ih
    · simp only [writeItem, hb, hfile]
    · simp only [writeItem, hb, List.length_append]
      omega
    · intro k off hk
      simp only [writeItem, hfile, List.length_nil, Nat.cast_zero] at hk
      by_cases h : k = e.Key
      · rw [h, fileRead_fileWrite_same] at hk
        simpa using hk.symm
      · rw [fileRead_fileWrite_other _ _ _ _ h] at hk
        exact hidx k off hk

/-- C17 (divergence): when the header and the record lines of `items` together fit the 1 MiB
buffer of the writer, every offset that `sstableWrite` stores in the sidecar index is 0, while
the segment file is the 5-byte header followed by the record lines, so that no record line
starts at offset 0. -/
theorem sstableWrite_offsets_zero_within_buffer (items : List Event) (d : Disk) (path : Bytes)
    (hsz : 5 + (items.flatMap recordLine).length ≤ bufSize) :
    (∀ k off, fileRead (writeItems items).2 k = some off → off = 0)
      ∧ (sstableWrite d path items noFail).1.idx = fileWrite d.idx path (writeItems items).2
      ∧ fileRead (sstableWrite d path items noFail).1.sst path
          = some (B "SST1\n" ++ items.flatMap recordLine) := by
  refine ⟨?_, ?_, ?_⟩
  · unfold writeItems
    apply foldl_writeItem_offsets
    · rfl
    · exact hsz
    · intro k off h
      simp [fileRead] at h
  · simp [sstableWrite, noFail]
  · simp only [sstableWrite, noFail, Bool.false_eq_true, if_false]
    rw [fileRead_fileWrite_same]
    exact congrArg some (segFile_eq items)

/-- Witness for C17: the segment written for `{a,1,"1"}` and `{b,2,"2"}`: the record of `a`
starts at offset 5 and the record of `b` at offset 14; the index holds 0 for both keys. -/
theorem sstableWrite_offsets_zero_within_buffer_witness :
    (sstableWrite freshDisk (B "000001.sst") [⟨B "a", 1, B "1"⟩, ⟨B "b", 2, B "2"⟩] noFail).1.idx
        = [(B "000001.sst", [(B "a", 0), (B "b", 0)])]
      ∧ (sstableWrite freshDisk (B "000001.sst") [⟨B "a", 1, B "1"⟩, ⟨B "b", 2, B "2"⟩]
          noFail).1.sst = [(B "000001.sst", B "SST1\na\t1\tMQ==\nb\t2\tMg==\n")]
      ∧ (∀ k off, fileRead (writeItems [⟨B "a", 1, B "1"⟩, ⟨B "b", 2, B "2"⟩]).2 k = some off →
          off = 0) :=
  ⟨by decide, by decide,
    (sstableWrite_offsets_zero_within_buffer [⟨B "a", 1, B "1"⟩, ⟨B "b", 2, B "2"⟩] freshDisk
      (B "000001.sst") (by decide)).1⟩

/-! ### The effect of a successful flush -/

/-- The scan of the file written for `items`: `items` in range, sorted. -/
theorem sstableRangeTS_segFile (d : Disk) (path : Bytes) (items : List Event) (lo hi : Int)
    (hf : fileRead d.sst path = some (segFile items))
    (hk : ∀ e ∈ items, plainKey e.Key) (hts : ∀ e ∈ items, isInt64 e.TS) :
    sstableRangeTS d path lo hi = (sortByTS (items.filter (inRange lo hi)), none) := by
  have hhead : B "SST1\n" = B "SST1" ++ [10] := rfl
  have hh : ∀ x ∈ B "SST1", x ≠ 10 := fun x hx => (no_nl_of_all (B "SST1") rfl x hx).1
  have hsc := scannedRecords_segFile items hk hts
  unfold scannedRecords at hsc
  rw [segFile_eq, hhead, List.append_assoc, List.singleton_append, linesOf_line _ _ hh,
    List.tail_cons] at hsc
  unfold sstableRangeTS
  rw [hf]
  simp only
  rw [segFile_eq, hhead, List.append_assoc, List.singleton_append, readString_line _ _ hh]
  simp only
  rw [scanLoop_eq lo hi _ _ [] (by omega), hsc, List.nil_append]

/-- C19: for every list of events whose keys contain no tab and no newline (timestamps are
`int64`, negative ones included; values are any bytes), and every `from`, `to`, `sstableWrite`
succeeds when no I/O step fails, and `sstableRangeTS` applied to the file it wrote returns no
error and exactly the listed events with `from ≤ ts ≤ to`, unchanged in key, ts and value, in
ascending order of ts with ties in ascending order of key. -/
theorem sstableRangeTS_reads_written_events (d : Disk) (path : Bytes) (items : List Event)
    (lo hi : Int) (hk : ∀ e ∈ items, plainKey e.Key) (hts : ∀ e ∈ items, isInt64 e.TS) :
    (sstableWrite d path items noFail).2 = none
      ∧ (sstableRangeTS (sstableWrite d path items noFail).1 path lo hi).2 = none
      ∧ (sstableRangeTS (sstableWrite d path items noFail).1 path lo hi).1
          = sortByTS (items.filter (fun e => decide (lo ≤ e.TS) && decide (e.TS ≤ hi)))
      ∧ (sstableRangeTS (sstableWrite d path items noFail).1 path lo hi).1.Perm
          (items.filter (fun e => decide (lo ≤ e.TS) && decide (e.TS ≤ hi)))
      ∧ List.Pairwise (fun a b => a.TS < b.TS ∨ (a.TS = b.TS ∧ keyLt b.Key a.Key = false))
          (sstableRangeTS (sstableWrite d path items noFail).1 path lo hi).1 := by
  have hw : (sstableWrite d path items noFail).2 = none := by
    simp [sstableWrite, noFail]
  have hf : fileRead (sstableWrite d path items noFail).1.sst path = some (segFile items) := by
    simp only [sstableWrite, noFail, Bool.false_eq_true, if_false]
    rw [fileRead_fileWrite_same]
    rfl
  have hr := sstableRangeTS_segFile (sstableWrite d path items noFail).1 path items lo hi hf hk hts
  have hin : (fun e : Event => decide (lo ≤ e.TS) && decide (e.TS ≤ hi)) = inRange lo hi := by
    funext e; rfl
  rw [hin, hr]
  refine ⟨hw, rfl, rfl, sortByTS_perm _, ?_⟩
  have hs : List.Sorted tsLe (sortByTS (items.filter (inRange lo hi))) := sortByTS_sorted _
  exact List.Pairwise.imp (fun {a b} h => (tsLe_iff a b).mp h) hs

/-- Witness for C19: the events `{a,5}`, `{b,-3}`, `{c,5}`, `{d,9}` and the range -3 to 5. -/
theorem sstableRangeTS_reads_written_events_witness :
    (sstableWrite freshDisk (B "000001.sst")
        [⟨B "a", 5, B "1"⟩, ⟨B "b", -3, B "2"⟩, ⟨B "c", 5, B "3"⟩, ⟨B "d", 9, B "4"⟩] noFail).2
        = none
      ∧ sstableRangeTS (sstableWrite freshDisk (B "000001.sst")
          [⟨B "a", 5, B "1"⟩, ⟨B "b", -3, B "2"⟩, ⟨B "c", 5, B "3"⟩, ⟨B "d", 9, B "4"⟩] noFail).1
          (B "000001.sst") (-3) 5
        = ([⟨B "b", -3, B "2"⟩, ⟨B "a", 5, B "1"⟩, ⟨B "c", 5, B "3"⟩], none) :=
  ⟨(sstableRangeTS_reads_written_events freshDisk (B "000001.sst")
      [⟨B "a", 5, B "1"⟩, ⟨B "b", -3, B "2"⟩, ⟨B "c", 5, B "3"⟩, ⟨B "d", 9, B "4"⟩] (-3) 5
      (fun e he => (events_plain_of_all _ (by decide) e he).1)
      (fun e he => (events_plain_of_all _ (by decide) e he).2)).1,
    by decide⟩

/-! ### The manifest along a history -/

theorem run_snoc (ops : List Op) : ∀ (st : Run) (op : Op),
    run st (ops ++ [op]) = (run st ops).bind (fun st1 => step st1 op) := by
  induction ops with
  | nil =>
    intro st op
    simp only [List.nil_append, run, Option.some_bind]
    cases step st op <;> rfl
  | cons o ops ih =>
    intro st op
    simp only [List.cons_append, run]
    cases step st o with
    | none => rfl
    | some st1 => exact ih st1 op

/-- What a successful `NewLSMStore` went through. -/
theorem NewLSMStore_ok_parts {opts : Options} {d d1 : Disk} {fail : IOStep → Bool}
    {s1 : LSMStore} (h : NewLSMStore opts d fail = (d1, Except.ok s1)) :
    ∃ dm mf evs, loadOrCreateManifest d fail = (dm, mf, none) ∧ openWAL dm fail = (d1, none)
      ∧ walReplay (d1.wal.getD []) = (evs, none) ∧ s1.manifest = mf := by
  unfold NewLSMStore at h
  simp only at h
  generalize (if opts.MemtableMaxItems ≤ 0 then
    ({ opts with MemtableMaxItems := 50000 } : Options) else opts) = o at h
  by_cases h1 : o.DataDir = []
  · rw [if_pos h1] at h
    simp at h
  · rw [if_neg h1] at h
    by_cases h2 : fail IOStep.mkdirAll = true
    · rw [if_pos h2] at h
      simp at h
    · rw [if_neg h2] at h
      rcases hm : loadOrCreateManifest d fail with ⟨dm, mf, _ | err⟩
      · rw [hm] at h
        simp only at h
        rcases hw : openWAL dm fail with ⟨dw, _ | err⟩
        · rw [hw] at h
          simp only at h
          rcases hr : walReplay (dw.wal.getD []) with ⟨evs, _ | err⟩
          · rw [hr] at h
            simp only [Prod.mk.injEq, Except.ok.injEq] at h
            refine ⟨dm, mf, evs, rfl, ?_, ?_, ?_⟩
            · rw [← h.1, hw]
            · rw [← h.1, hr]
            · rw [← h.2]
          · rw [hr] at h
            simp at h
        · rw [hw] at h
          simp at h
      · rw [hm] at h
        simp at h

/-- An open of a directory that has a manifest loads its segment list and leaves it in place. -/
theorem NewLSMStore_manifest {opts : Options} {d d1 : Disk} {s1 : LSMStore} {segs : List Bytes}
    (hm : d.manifest = some segs) (h : NewLSMStore opts d noFail = (d1, Except.ok s1)) :
    s1.manifest.Segments = segs ∧ d1.manifest = some segs := by
  obtain ⟨dm, mf, evs, h1, h2, _, h4⟩ := NewLSMStore_ok_parts h
  simp only [loadOrCreateManifest, hm, Prod.mk.injEq] at h1
  simp only [openWAL, noFail, Bool.false_eq_true, if_false] at h2
  rw [h4, ← h1.2.1]
  refine ⟨rfl, ?_⟩
  cases hw : dm.wal with
  | none =>
    rw [hw] at h2
    simp only [Prod.mk.injEq, and_true] at h2
    rw [← h2, ← h1.1]
    exact hm
  | some w =>
    rw [hw] at h2
    simp only [Prod.mk.injEq, and_true] at h2
    rw [← h2, ← h1.1]
    exact hm

/-- A flush of a store whose manifest lists the segments 1 to `k` leaves the segments 1 to
`k + 1` listed, in memory and on disk. -/
theorem flushLocked_segNames (s : LSMStore) (d : Disk) (k : Nat)
    (hne : s.mem.data ≠ []) (hk : (k : Int) < 9223372036854775807)
    (hs : s.manifest.Segments = segNames k) :
    (flushLocked s d noFail).1.manifest.Segments = segNames (k + 1)
      ∧ (flushLocked s d noFail).2.1.manifest = some (segNames (k + 1))
      ∧ (flushLocked s d noFail).2.2 = none := by
  have hm : s.manifest = ⟨segNames k⟩ := by
    cases hmf : s.manifest with
    | mk segs => rw [hmf] at hs; simp only at hs; rw [hs]
  have hn : s.manifest.nextName = segName (k + 1) := by
    rw [hm]; exact nextName_segNames k hk
  rw [flushLocked_noFail_eq s d hne]
  simp only [manifest.Add, hn, hs, segNames_succ, and_self]

theorem step_put {st st1 : Run} {e : Event} (h : step st (Op.put e) = some st1) :
    st1.store = (Put st.store st.disk e noFail).1
      ∧ st1.disk = (Put st.store st.disk e noFail).2.1
      ∧ st1.flushes = st.flushes + (if putFlushes st.store e then 1 else 0) := by
  simp only [step] at h
  by_cases hc : st.closed = true
  · rw [if_pos hc] at h
    simp at h
  · rw [if_neg hc, Option.some.injEq] at h
    rw [← h]
    exact ⟨rfl, rfl, rfl⟩

theorem step_close {st st1 : Run} (h : step st Op.close = some st1) :
    Close st.store st.disk noFail = (st1.store, st1.disk, none)
      ∧ st1.flushes = st.flushes + (if st.store.mem.len > 0 then 1 else 0) := by
  simp only [step] at h
  by_cases hc : st.closed = true
  · rw [if_pos hc] at h
    simp at h
  · rw [if_neg hc] at h
    rcases hcl : Close st.store st.disk noFail with ⟨s1, d1, _ | err⟩
    · rw [hcl] at h
      simp only [Option.some.injEq] at h
      rw [← h]
      exact ⟨rfl, rfl⟩
    · rw [hcl] at h
      simp at h

theorem step_reopen {st st1 : Run} {n : Int} (h : step st (Op.reopen n) = some st1) :
    NewLSMStore { DataDir := st.store.opts.DataDir, MemtableMaxItems := n } st.disk noFail
        = (st1.disk, Except.ok st1.store)
      ∧ st1.flushes = st.flushes := by
  simp only [step] at h
  rcases ho : NewLSMStore { DataDir := st.store.opts.DataDir, MemtableMaxItems := n } st.disk
    noFail with ⟨d1, err | s1⟩
  · rw [ho] at h
    simp at h
  · rw [ho] at h
    simp only [Option.some.injEq] at h
    rw [← h]
    exact ⟨rfl, rfl⟩

theorem step_flushes_le {st st1 : Run} {op : Op} (h : step st op = some st1) :
    st.flushes ≤ st1.flushes := by
  cases op with
  | put e =>
    rw [(step_put h).2.2]
    omega
  | close =>
    rw [(step_close h).2]
    omega
  | reopen n =>
    rw [(step_reopen h).2]

/-- One operation keeps the manifest equal to the list of the segments 1 to the number of
flushes, in memory and on disk. -/
theorem step_segNames {st st1 : Run} {op : Op} (h : step st op = some st1)
    (hk : (st1.flushes : Int) < 9223372036854775807)
    (hs : st.store.manifest.Segments = segNames st.flushes)
    (hd : st.disk.manifest = some (segNames st.flushes)) :
    st1.store.manifest.Segments = segNames st1.flushes
      ∧ st1.disk.manifest = some (segNames st1.flushes) := by
  have hle := step_flushes_le h
  have hkk : (st.flushes : Int) < 9223372036854775807 := by omega
  cases op with
  | put e =>
    obtain ⟨h1, h2, h3⟩ := step_put h
    rw [h1, h2, h3]
    by_cases hv : e.Key = [] ∨ e.TS = 0 ∨ e.Value.length = 0
    · have hp : Put st.store st.disk e noFail = (st.store, st.disk, some GoError.invalidEvent) := by
        unfold Put
        rw [if_pos hv]
      have hf : putFlushes st.store e = false := by
        unfold putFlushes
        rw [decide_eq_true hv]
        rfl
      rw [hp, hf]
      exact ⟨hs, hd⟩
    · by_cases hfull : (st.store.mem.upsert e).full = true
      · have hf : putFlushes st.store e = true := by
          unfold putFlushes
          rw [decide_eq_false hv, hfull]
          rfl
        have hp : Put st.store st.disk e noFail
            = flushLocked { st.store with mem := st.store.mem.upsert e }
                { st.disk with wal := some (walAppend (st.disk.wal.getD []) e) } noFail := by
          unfold Put
          rw [if_neg hv]
          simp only [noFail, Bool.false_eq_true, if_false, hfull, if_true]
        rw [hp, hf]
        have := flushLocked_segNames { st.store with mem := st.store.mem.upsert e }
          { st.disk with wal := some (walAppend (st.disk.wal.getD []) e) } st.flushes
          (upsert_data_ne_nil _ _) hkk hs
        exact ⟨this.1, this.2.1⟩
      · have hf : putFlushes st.store e = false := by
          unfold putFlushes
          rw [Bool.not_eq_true] at hfull
          rw [hfull, Bool.and_false]
        have hp : Put st.store st.disk e noFail
            = ({ st.store with mem := st.store.mem.upsert e },
               { st.disk with wal := some (walAppend (st.disk.wal.getD []) e) }, none) := by
          unfold Put
          rw [if_neg hv]
          simp only [noFail, Bool.false_eq_true, if_false, hfull]
        rw [hp, hf]
        exact ⟨hs, hd⟩
  | close =>
    obtain ⟨h1, h2⟩ := step_close h
    have e1 : st1.store = (Close st.store st.disk noFail).1 := by rw [h1]
    have e2 : st1.disk = (Close st.store st.disk noFail).2.1 := by rw [h1]
    rw [e1, e2, h2]
    by_cases hl : st.store.mem.len > 0
    · have hne : st.store.mem.data ≠ [] := by
        intro hc
        simp [memtable.len, hc] at hl
      have hfl := flushLocked_segNames st.store st.disk st.flushes hne hkk hs
      have hc : Close st.store st.disk noFail
          = ((flushLocked st.store st.disk noFail).1, (flushLocked st.store st.disk noFail).2.1,
              none) := by
        unfold Close
        rw [if_pos hl]
        rcases hfe : flushLocked st.store st.disk noFail with ⟨s1, d1, err⟩
        rw [hfe] at hfl
        simp only at hfl
        rw [hfl.2.2]
        simp [noFail]
      rw [hc, if_pos hl]
      exact ⟨hfl.1, hfl.2.1⟩
    · have hc : Close st.store st.disk noFail = (st.store, st.disk, none) := by
        unfold Close
        rw [if_neg hl]
        simp [noFail]
      rw [hc, if_neg hl]
      exact ⟨hs, hd⟩
  | reopen n =>
    obtain ⟨h1, h2⟩ := step_reopen h
    rw [h2]
    exact NewLSMStore_manifest hd h1

/-- Along a history that starts with the manifest listing the segments 1 to the number of
flushes, the manifest keeps doing so. -/
theorem run_segNames (ops : List Op) : ∀ (st st1 : Run),
    run st ops = some st1 →
    (st1.flushes : Int) < 9223372036854775807 →
    st.store.manifest.Segments = segNames st.flushes →
    st.disk.manifest = some (segNames st.flushes) →
    st1.store.manifest.Segments = segNames st1.flushes
      ∧ st1.disk.manifest = some (segNames st1.flushes) := by
  induction ops using List.reverseRecOn with
  | nil =>
    intro st st1 h _ hs hd
    simp only [run, Option.some.injEq] at h
    rw [← h]
    exact ⟨hs, hd⟩
  | append_singleton ops op ih =>
    intro st st1 h hk hs hd
    rw [run_snoc] at h
    cases hr : run st ops with
    | none => rw [hr] at h; simp at h
    | some st2 =>
      rw [hr] at h
      simp only [Option.some_bind] at h
      have hle := step_flushes_le h
      have h2 := ih st st2 hr (by omega) hs hd
      exact step_segNames h hk h2.1 h2.2

theorem segNames_nodup (k : Nat) (hk : (k : Int) ≤ 9223372036854775807) :
    (segNames k).Nodup := by
  induction k with
  | zero => simp [segNames]
  | succ k ih =>
    rw [segNames_succ]
    refine List.Nodup.append (ih (by omega)) (List.nodup_singleton _) ?_
    intro x hx hy
    rw [List.mem_singleton] at hy
    subst hy
    exact segName_fresh k (by push_cast at hk; omega) hx

theorem segNames_length (k : Nat) : (segNames k).length = k := by
  simp [segNames]

theorem segNames_take (k i : Nat) (h : i ≤ k) : (segNames k).take i = segNames i := by
  unfold segNames
  rw [← List.map_take]
  congr 1
  rw [List.take_range, min_eq_left h]

/-- C20: starting from a fresh data directory, after any sequence of `Put`, `Close` and reopen
operations in which every step succeeds and `k` flushes have written a segment (`k` below
2^63 - 1), the manifest's segment list, in memory and on disk, is the list of the names
`000001.sst`, `000002.sst`, ... numbered 1 to `k`, in that order; no name is repeated; each name
is what `nextName` returns for the names before it; and the name the next flush would choose is
not in the list. -/
theorem manifest_lists_flushed_segments_in_order (opts : Options) (d0 : Disk) (s0 : LSMStore)
    (ops : List Op) (st : Run)
    (hopen : NewLSMStore opts Disk.empty noFail = (d0, Except.ok s0))
    (hrun : run ⟨s0, d0, false, 0⟩ ops = some st)
    (hk : (st.flushes : Int) < 9223372036854775807) :
    st.store.manifest.Segments
        = (List.range st.flushes).map (fun i => fmtInt06 ((i + 1 : Nat) : Int) ++ B ".sst")
      ∧ st.disk.manifest = some st.store.manifest.Segments
      ∧ st.store.manifest.Segments.length = st.flushes
      ∧ st.store.manifest.Segments.Nodup
      ∧ (∀ i, i < st.flushes → st.store.manifest.Segments.get? i
          = some (manifest.nextName ⟨st.store.manifest.Segments.take i⟩))
      ∧ st.store.manifest.nextName ∉ st.store.manifest.Segments := by
  have hfresh := NewLSMStore_empty hopen
  have h0 : (⟨s0, d0, false, 0⟩ : Run).store.manifest.Segments = segNames 0 := by
    simp only [hfresh.2.2.1]; rfl
  have h1 : (⟨s0, d0, false, 0⟩ : Run).disk.manifest = some (segNames 0) := by
    simp only [hfresh.1]; rfl
  obtain ⟨hs, hd⟩ := run_segNames ops _ st hrun hk h0 h1
  have hm : st.store.manifest = ⟨segNames st.flushes⟩ := by
    cases hmf : st.store.manifest with
    | mk segs => rw [hmf] at hs; simp only at hs; rw [hs]
  refine ⟨?_, ?_, ?_, ?_, ?_, ?_⟩
  · rw [hs]; rfl
  · rw [hd, hs]
  · rw [hs, segNames_length]
  · rw [hs]; exact segNames_nodup _ (le_of_lt hk)
  · intro i hi
    rw [hs, segNames_take _ _ (le_of_lt hi), nextName_segNames i (by omega)]
    unfold segNames
    rw [List.get?_eq_getElem?, List.getElem?_map, List.getElem?_range hi]
    rfl
  · rw [hm, nextName_segNames _ hk]
    exact segName_fresh _ hk

/-- Witness for C20: with `memtable_max_items = 2`: `Put a`, `Put b` (first flush), `Put c`,
`Close` (second flush), reopen, `Put d`, kill and reopen, `Put e` (third flush). -/
theorem manifest_lists_flushed_segments_in_order_witness :
    ((run ⟨freshStore ⟨B "data", 2⟩, freshDisk, false, 0⟩
        [Op.put ⟨B "a", 1, B "1"⟩, Op.put ⟨B "b", 2, B "2"⟩, Op.put ⟨B "c", 3, B "3"⟩, Op.close,
          Op.reopen 2, Op.put ⟨B "d", 4, B "4"⟩, Op.reopen 2, Op.put ⟨B "e", 5, B "5"⟩]).getD
        ⟨freshStore ⟨B "data", 2⟩, freshDisk, false, 0⟩).store.manifest.Segments
        = [B "000001.sst", B "000002.sst", B "000003.sst"]
      ∧ ((run ⟨freshStore ⟨B "data", 2⟩, freshDisk, false, 0⟩
        [Op.put ⟨B "a", 1, B "1"⟩, Op.put ⟨B "b", 2, B "2"⟩, Op.put ⟨B "c", 3, B "3"⟩, Op.close,
          Op.reopen 2, Op.put ⟨B "d", 4, B "4"⟩, Op.reopen 2, Op.put ⟨B "e", 5, B "5"⟩]).getD
        ⟨freshStore ⟨B "data", 2⟩, freshDisk, false, 0⟩).flushes = 3
      ∧ ((run ⟨freshStore ⟨B "data", 2⟩, freshDisk, false, 0⟩
        [Op.put ⟨B "a", 1, B "1"⟩, Op.put ⟨B "b", 2, B "2"⟩, Op.put ⟨B "c", 3, B "3"⟩, Op.close,
          Op.reopen 2, Op.put ⟨B "d", 4, B "4"⟩, Op.reopen 2, Op.put ⟨B "e", 5, B "5"⟩]).getD
        ⟨freshStore ⟨B "data", 2⟩, freshDisk, false, 0⟩).store.manifest.Segments
        = (List.range ((run ⟨freshStore ⟨B "data", 2⟩, freshDisk, false, 0⟩
        [Op.put ⟨B "a", 1, B "1"⟩, Op.put ⟨B "b", 2, B "2"⟩, Op.put ⟨B "c", 3, B "3"⟩, Op.close,
          Op.reopen 2, Op.put ⟨B "d", 4, B "4"⟩, Op.reopen 2, Op.put ⟨B "e", 5, B "5"⟩]).getD
        ⟨freshStore ⟨B "data", 2⟩, freshDisk, false, 0⟩).flushes).map
            (fun i => fmtInt06 ((i + 1 : Nat) : Int) ++ B ".sst") :=
  ⟨by decide, by decide,
    (manifest_lists_flushed_segments_in_order ⟨B "data", 2⟩ freshDisk (freshStore ⟨B "data", 2⟩)
      [Op.put ⟨B "a", 1, B "1"⟩, Op.put ⟨B "b", 2, B "2"⟩, Op.put ⟨B "c", 3, B "3"⟩, Op.close,
          Op.reopen 2, Op.put ⟨B "d", 4, B "4"⟩, Op.reopen 2, Op.put ⟨B "e", 5, B "5"⟩]
      ((run ⟨freshStore ⟨B "data", 2⟩, freshDisk, false, 0⟩
        [Op.put ⟨B "a", 1, B "1"⟩, Op.put ⟨B "b", 2, B "2"⟩, Op.put ⟨B "c", 3, B "3"⟩, Op.close,
          Op.reopen 2, Op.put ⟨B "d", 4, B "4"⟩, Op.reopen 2, Op.put ⟨B "e", 5, B "5"⟩]).getD
        ⟨freshStore ⟨B "data", 2⟩, freshDisk, false, 0⟩)
      rfl (by decide) (by decide)).1⟩

/-! ### Counting flushes under distinct keys -/

theorem mapStore_of_new (d : List Event) (e : Event) (h : ∀ x ∈ d, x.Key ≠ e.Key) :
    mapStore d e = d ++ [e] := by
  induction d with
  | nil => rfl
  | cons x xs ih =>
    have hx : x.Key ≠ e.Key := h x (List.mem_cons_self _ _)
    simp only [mapStore, hx, if_false, List.cons_append]
    rw [ih (fun y hy => h y (List.mem_cons_of_mem _ hy))]

/-- An upsert of a key the memtable does not hold adds one entry. -/
theorem upsert_of_new (m : memtable) (e : Event) (h : ∀ x ∈ m.data, x.Key ≠ e.Key) :
    m.upsert e = { m with data := m.data ++ [e] } := by
  unfold memtable.upsert
  rw [(mapLookup_none_iff m.data e.Key).mpr h, mapStore_of_new m.data e h]

/-- A `Put` that succeeds under some behaviour of the I/O steps does what it does when no step
fails. -/
theorem Put_ok_eq_noFail (s : LSMStore) (d : Disk) (e : Event) (fail : IOStep → Bool)
    (hok : (Put s d e fail).2.2 = none) : Put s d e fail = Put s d e noFail := by
  unfold Put at hok ⊢
  by_cases h1 : e.Key = [] ∨ e.TS = 0 ∨ e.Value.length = 0
  · rw [if_pos h1] at hok
    simp at hok
  · rw [if_neg h1] at hok ⊢
    rw [if_neg h1]
    by_cases h2 : fail IOStep.walAppend = true
    · rw [if_pos h2] at hok
      simp at hok
    · rw [if_neg h2] at hok ⊢
      simp only [noFail, Bool.false_eq_true, if_false] at hok ⊢
      by_cases h3 : (s.mem.upsert e).full = true
      · simp only [h3, if_true] at hok ⊢
        unfold flushLocked at hok ⊢
        simp only [sstableWrite, walRotate, manifestSave, noFail] at hok ⊢
        by_cases hl : (s.mem.upsert e).snapshotSortedByKey.length = 0
        · simp only [hl, if_true]
        · simp only [hl, if_false] at hok ⊢
          cases ha : fail IOStep.segOpen <;> cases hb : fail IOStep.segWrite <;>
            cases hc : fail IOStep.idxWrite <;> cases hd : fail IOStep.walFlush <;>
            cases he : fail IOStep.walTruncate <;> cases hf : fail IOStep.walSeek <;>
            cases hg : fail IOStep.manifestSave <;>
            simp [ha, hb, hc, hd, he, hf, hg] at hok ⊢
      · simp only [h3, Bool.false_eq_true, if_false]

/-- One `Put` of a key the memtable does not hold, into a memtable with fewer than `N` entries
and the limit `N`: the memtable gains an entry, or it reaches `N` entries and is flushed. -/
theorem Put_new_key_step (s : LSMStore) (d : Disk) (e : Event) (N : Nat)
    (hmax : s.mem.maxItems = (N : Int)) (hlen : s.mem.data.length < N)
    (hnew : ∀ x ∈ s.mem.data, x.Key ≠ e.Key) (hok : (Put s d e noFail).2.2 = none) :
    (Put s d e noFail).1.mem.maxItems = (N : Int)
      ∧ ((s.mem.data.length + 1 < N
            ∧ (Put s d e noFail).1.mem.data.length = s.mem.data.length + 1
            ∧ (Put s d e noFail).1.manifest.Segments.length = s.manifest.Segments.length)
        ∨ (s.mem.data.length + 1 = N
            ∧ (Put s d e noFail).1.mem.data.length = 0
            ∧ (Put s d e noFail).1.manifest.Segments.length
                = s.manifest.Segments.length + 1)) := by
  have hup := upsert_of_new s.mem e hnew
  have hv : ¬ (e.Key = [] ∨ e.TS = 0 ∨ e.Value.length = 0) := by
    intro hc
    unfold Put at hok
    rw [if_pos hc] at hok
    simp at hok
  have hfull : (s.mem.upsert e).full = decide (s.mem.data.length + 1 ≥ N) := by
    rw [hup]
    simp only [memtable.full, memtable.len, hmax, List.length_append, List.length_singleton,
      ge_iff_le]
    congr 1
    apply propext
    constructor <;> intro h <;> omega
  by_cases hN : s.mem.data.length + 1 ≥ N
  · have hf : (s.mem.upsert e).full = true := by rw [hfull]; exact decide_eq_true hN
    have hp : Put s d e noFail
        = flushLocked { s with mem := s.mem.upsert e }
            { d with wal := some (walAppend (d.wal.getD []) e) } noFail := by
      unfold Put
      rw [if_neg hv]
      simp only [noFail, Bool.false_eq_true, if_false, hf, if_true]
    rw [hp, flushLocked_noFail_eq _ _ (upsert_data_ne_nil _ _)]
    refine ⟨?_, Or.inr ⟨by omega, rfl, ?_⟩⟩
    · simp only [memtable.clear, upsert_maxItems, hmax]
    · simp only [manifest.Add, List.length_append, List.length_singleton]
  · have hf : (s.mem.upsert e).full = false := by rw [hfull]; exact decide_eq_false hN
    have hp : Put s d e noFail
        = ({ s with mem := s.mem.upsert e },
           { d with wal := some (walAppend (d.wal.getD []) e) }, none) := by
      unfold Put
      rw [if_neg hv]
      simp only [noFail, Bool.false_eq_true, if_false, hf]
    rw [hp]
    refine ⟨?_, Or.inl ⟨by omega, ?_, rfl⟩⟩
    · simp only [upsert_maxItems, hmax]
    · simp only [hup, List.length_append, List.length_singleton]

/-- After the `Put`s of a sequence of distinct keys into a store with an empty memtable of limit
`N`, the number of events is `N` times the number of segments added plus the number of
entries in the memtable, which is below `N`. -/
theorem putAll_counts (N : Nat) (hN : 1 ≤ N) (s0 : LSMStore) (d0 : Disk)
    (hmax : s0.mem.maxItems = (N : Int)) (hmem : s0.mem.data = []) (S : List Event) :
    ∀ (s : LSMStore) (d : Disk), putAll s0 d0 S = (s, d, none) → (S.map Event.Key).Nodup →
      s.mem.maxItems = (N : Int)
        ∧ s.mem.data.length < N
        ∧ S.length = N * (s.manifest.Segments.length - s0.manifest.Segments.length)
            + s.mem.data.length
        ∧ s0.manifest.Segments.length ≤ s.manifest.Segments.length := by
  induction S using List.reverseRecOn with
  | nil =>
    intro s d h _
    simp only [putAll, Prod.mk.injEq, and_true] at h
    rw [← h.1, hmem]
    refine ⟨hmax, by simpa using hN, by simp, le_refl _⟩
  | append_singleton P x ih =>
    intro s d h hnd
    obtain ⟨h1, h2⟩ := putAll_append_ok h
    have hP : putAll s0 d0 P = ((putAll s0 d0 P).1, (putAll s0 d0 P).2.1, none) := by
      rw [← h1]
    have hc := putAll_cons_ok h2
    have hs : s = (Put (putAll s0 d0 P).1 (putAll s0 d0 P).2.1 x noFail).1 := by
      have := hc.2
      simp only [putAll, Prod.mk.injEq, and_true] at this
      exact this.1.symm
    rw [List.map_append, List.map_singleton] at hnd
    have hndP : (P.map Event.Key).Nodup := (List.nodup_append.mp hnd).1
    obtain ⟨i1, i2, i3, i4⟩ := ih _ _ hP hndP
    have hnew : ∀ y ∈ (putAll s0 d0 P).1.mem.data, y.Key ≠ x.Key := by
      intro y hy heq
      rcases putAll_mem_sub hP y hy with h0 | h0
      · rw [hmem] at h0
        cases h0
      · exact (List.nodup_append.mp hnd).2.2 (List.mem_map_of_mem Event.Key h0)
          (by rw [heq]; simp)
    obtain ⟨j1, j2⟩ := Put_new_key_step _ _ x N i1 i2 hnew hc.1
    rw [hs]
    refine ⟨j1, ?_⟩
    rw [List.length_append, List.length_singleton, i3]
    rcases j2 with ⟨k1, k2, k3⟩ | ⟨k1, k2, k3⟩
    · rw [k2, k3]
      exact ⟨k1, by omega, i4⟩
    · rw [k2, k3]
      refine ⟨by omega, ?_, by omega⟩
      have e1 : (putAll s0 d0 P).1.manifest.Segments.length + 1 - s0.manifest.Segments.length
          = ((putAll s0 d0 P).1.manifest.Segments.length - s0.manifest.Segments.length) + 1 := by
        omega
      rw [e1, Nat.mul_succ]
      omega

theorem div_mod_of_decomp (N k q r : Nat) (h : k = N * q + r) (hr : r < N) :
    k / N = q ∧ k % N = r := by
  have hpos : 0 < N := by omega
  exact (Nat.div_mod_unique hpos).mpr ⟨by rw [h]; omega, hr⟩

theorem succ_div_iff (N i : Nat) (hN : 1 ≤ N) : (i + 1) / N = i / N + 1 ↔ i % N + 1 = N := by
  have hr : i % N < N := Nat.mod_lt _ (by omega)
  have hi : i = N * (i / N) + i % N := (Nat.div_add_mod i N).symm
  by_cases h : i % N + 1 = N
  · have := (div_mod_of_decomp N (i + 1) (i / N + 1) 0
      (by rw [Nat.mul_succ]; omega) (by omega)).1
    exact ⟨fun _ => h, fun _ => this⟩
  · have := (div_mod_of_decomp N (i + 1) (i / N) (i % N + 1) (by omega) (by omega)).1
    exact ⟨fun h2 => by omega, fun h2 => absurd h2 h⟩

/-- The counts after the first `i` of the `Put`s. -/
theorem putAll_take_counts (N : Nat) (hN : 1 ≤ N) (s0 s : LSMStore) (d0 d : Disk)
    (hmax : s0.mem.maxItems = (N : Int)) (hmem : s0.mem.data = [])
    (hseg : s0.manifest.Segments = []) (S : List Event)
    (hput : putAll s0 d0 S = (s, d, none)) (hkeys : (S.map Event.Key).Nodup)
    (i : Nat) (hi : i ≤ S.length) :
    (putAll s0 d0 (S.take i)).2.2 = none
      ∧ (putAll s0 d0 (S.take i)).1.manifest.Segments.length = i / N
      ∧ (putAll s0 d0 (S.take i)).1.mem.data.length = i % N := by
  have hsplit : putAll s0 d0 (S.take i ++ S.drop i) = (s, d, none) := by
    rw [List.take_append_drop]; exact hput
  have h1 := (putAll_append_ok hsplit).1
  have hP : putAll s0 d0 (S.take i)
      = ((putAll s0 d0 (S.take i)).1, (putAll s0 d0 (S.take i)).2.1, none) := by
    rw [← h1]
  have hnd : ((S.take i).map Event.Key).Nodup := by
    rw [List.map_take]
    exact hkeys.sublist (List.take_sublist _ _)
  obtain ⟨_, c2, c3, _⟩ := putAll_counts N hN s0 d0 hmax hmem (S.take i) _ _ hP hnd
  rw [hseg, List.length_nil, Nat.sub_zero, List.length_take, min_eq_left hi] at c3
  have := div_mod_of_decomp N i _ _ c3 c2
  exact ⟨h1, this.1.symm, this.2.symm⟩

/-- C21: for every `N ≥ 1`, a fresh store opened with `memtable_max_items = N` that receives
`k` successful `Put`s of events with pairwise distinct keys ends with exactly `k / N` segment
names in the manifest and exactly `k mod N` entries in the memtable; and the `Put` number
`i + 1` adds a segment name exactly when the memtable held `N - 1` entries before it, that is
when it brings the cardinality to `N`. (A `Put` that succeeds is the `Put` in which no I/O step
fails, lemma `Put_ok_eq_noFail`, and it succeeds only for a valid event.) -/
theorem distinct_keys_flush_every_N_puts (opts : Options) (d0 d : Disk) (s0 s : LSMStore)
    (S : List Event) (N : Nat) (hN : 1 ≤ N) (hopts : opts.MemtableMaxItems = (N : Int))
    (hopen : NewLSMStore opts Disk.empty noFail = (d0, Except.ok s0))
    (hput : putAll s0 d0 S = (s, d, none)) (hkeys : (S.map Event.Key).Nodup) :
    s.manifest.Segments.length = S.length / N
      ∧ s.mem.data.length = S.length % N
      ∧ (∀ i, i < S.length →
          ((putAll s0 d0 (S.take (i + 1))).1.manifest.Segments.length
              = (putAll s0 d0 (S.take i)).1.manifest.Segments.length + 1
            ↔ (putAll s0 d0 (S.take i)).1.mem.data.length + 1 = N)) := by
  have hfresh := NewLSMStore_empty hopen
  have hs0 : s0 = freshStore opts := hfresh.2.2.2.2 (by rw [hopts]; exact_mod_cast hN)
  have hmax : s0.mem.maxItems = (N : Int) := by
    rw [hs0]
    exact hopts
  have hc := putAll_take_counts N hN s0 s d0 d hmax hfresh.2.1 hfresh.2.2.1 S hput hkeys
  have hfull := hc S.length (le_refl _)
  rw [List.take_length, hput] at hfull
  refine ⟨hfull.2.1, hfull.2.2, ?_⟩
  intro i hi
  rw [(hc (i + 1) (by omega)).2.1, (hc i (by omega)).2.1, (hc i (by omega)).2.2]
  exact succ_div_iff N i hN

/-- Witness for C21: five `Put`s of distinct keys with `memtable_max_items = 2` leave two
segment names and one entry. -/
theorem distinct_keys_flush_every_N_puts_witness :
    (putAll (freshStore ⟨B "data", 2⟩) freshDisk
        [⟨B "a", 1, B "1"⟩, ⟨B "b", 2, B "2"⟩, ⟨B "c", 3, B "3"⟩, ⟨B "d", 4, B "4"⟩,
          ⟨B "e", 5, B "5"⟩]).1.manifest.Segments = [B "000001.sst", B "000002.sst"]
      ∧ (putAll (freshStore ⟨B "data", 2⟩) freshDisk
        [⟨B "a", 1, B "1"⟩, ⟨B "b", 2, B "2"⟩, ⟨B "c", 3, B "3"⟩, ⟨B "d", 4, B "4"⟩,
          ⟨B "e", 5, B "5"⟩]).1.mem.data = [⟨B "e", 5, B "5"⟩]
      ∧ (putAll (freshStore ⟨B "data", 2⟩) freshDisk
        [⟨B "a", 1, B "1"⟩, ⟨B "b", 2, B "2"⟩, ⟨B "c", 3, B "3"⟩, ⟨B "d", 4, B "4"⟩,
          ⟨B "e", 5, B "5"⟩]).1.manifest.Segments.length = 5 / 2
      ∧ (putAll (freshStore ⟨B "data", 2⟩) freshDisk
        [⟨B "a", 1, B "1"⟩, ⟨B "b", 2, B "2"⟩, ⟨B "c", 3, B "3"⟩, ⟨B "d", 4, B "4"⟩,
          ⟨B "e", 5, B "5"⟩]).1.mem.data.length = 5 % 2 :=
  ⟨by decide, by decide,
    (distinct_keys_flush_every_N_puts ⟨B "data", 2⟩ freshDisk
      (putAll (freshStore ⟨B "data", 2⟩) freshDisk
        [⟨B "a", 1, B "1"⟩, ⟨B "b", 2, B "2"⟩, ⟨B "c", 3, B "3"⟩, ⟨B "d", 4, B "4"⟩,
          ⟨B "e", 5, B "5"⟩]).2.1
      (freshStore ⟨B "data", 2⟩)
      (putAll (freshStore ⟨B "data", 2⟩) freshDisk
        [⟨B "a", 1, B "1"⟩, ⟨B "b", 2, B "2"⟩, ⟨B "c", 3, B "3"⟩, ⟨B "d", 4, B "4"⟩,
          ⟨B "e", 5, B "5"⟩]).1
      [⟨B "a", 1, B "1"⟩, ⟨B "b", 2, B "2"⟩, ⟨B "c", 3, B "3"⟩, ⟨B "d", 4, B "4"⟩,
          ⟨B "e", 5, B "5"⟩] 2 (by decide) rfl rfl (by decide) (by decide)).1,
    (distinct_keys_flush_every_N_puts ⟨B "data", 2⟩ freshDisk
      (putAll (freshStore ⟨B "data", 2⟩) freshDisk
        [⟨B "a", 1, B "1"⟩, ⟨B "b", 2, B "2"⟩, ⟨B "c", 3, B "3"⟩, ⟨B "d", 4, B "4"⟩,
          ⟨B "e", 5, B "5"⟩]).2.1
      (freshStore ⟨B "data", 2⟩)
      (putAll (freshStore ⟨B "data", 2⟩) freshDisk
        [⟨B "a", 1, B "1"⟩, ⟨B "b", 2, B "2"⟩, ⟨B "c", 3, B "3"⟩, ⟨B "d", 4, B "4"⟩,
          ⟨B "e", 5, B "5"⟩]).1
      [⟨B "a", 1, B "1"⟩, ⟨B "b", 2, B "2"⟩, ⟨B "c", 3, B "3"⟩, ⟨B "d", 4, B "4"⟩,
          ⟨B "e", 5, B "5"⟩] 2 (by decide) rfl rfl (by decide) (by decide)).2.1⟩

end EventStore
